import Mathlib

/-!
Verification of the foundryvtt-cli pack/unpack engine (lib/package.mjs).

This file gives a shallow embedding of the compile/extract pipeline of the
compendium-pack codec: JSON documents, the hierarchy catalog, the key codec,
the hierarchy walkers, the sorted-store compile and extract paths, the
volatile-diff gate, folder projection, adventure expansion, and the staged
extraction protocol.  JavaScript strings are modelled as lists of characters,
JSON values as the inductive type J, and the mutable document walks as
explicit state passing.  Fallible code returns Except; recursions of the
walkers (whose termination in the source follows from finiteness of the data)
take an explicit fuel argument, with fuel exhaustion an error.
-/

namespace Fvtt

/-- JavaScript strings, modelled as lists of characters. -/
abbrev Str := List Char

/-- JSON values (the payloads stored in packs and source files).
Objects are association lists of fields in insertion order, matching the
enumeration order of JavaScript objects. -/
inductive J where
  | null : J
  | bool : Bool → J
  | num : Int → J
  | str : Str → J
  | arr : List J → J
  | obj : List (Str × J) → J
deriving Repr

mutual

/-- Structural equality test on JSON values. -/
def J.beq : J → J → Bool
  | .null, .null => true
  | .bool a, .bool b => a == b
  | .num a, .num b => a == b
  | .str a, .str b => a == b
  | .arr a, .arr b => jbeqL a b
  | .obj a, .obj b => jbeqF a b
  | _, _ => false

/-- Structural equality on lists of JSON values. -/
def jbeqL : List J → List J → Bool
  | [], [] => true
  | a :: as, b :: bs => J.beq a b && jbeqL as bs
  | _, _ => false

/-- Structural equality on field lists. -/
def jbeqF : List (Str × J) → List (Str × J) → Bool
  | [], [] => true
  | (k, a) :: as, (k', b) :: bs => k == k' && J.beq a b && jbeqF as bs
  | _, _ => false

end

mutual

theorem J.eq_of_beq : ∀ {a b : J}, J.beq a b = true → a = b
  | .null, .null, _ => rfl
  | .bool _, .bool _, h => by simpa [J.beq] using h
  | .num _, .num _, h => by simpa [J.beq] using h
  | .str _, .str _, h => by simpa [J.beq] using h
  | .arr a, .arr b, h => by
      have := jeqL_of_beq (a := a) (b := b) (by simpa [J.beq] using h)
      simp [this]
  | .obj a, .obj b, h => by
      have := jeqF_of_beq (a := a) (b := b) (by simpa [J.beq] using h)
      simp [this]
  | .null, .bool _, h => by simp [J.beq] at h
  | .null, .num _, h => by simp [J.beq] at h
  | .null, .str _, h => by simp [J.beq] at h
  | .null, .arr _, h => by simp [J.beq] at h
  | .null, .obj _, h => by simp [J.beq] at h
  | .bool _, .null, h => by simp [J.beq] at h
  | .bool _, .num _, h => by simp [J.beq] at h
  | .bool _, .str _, h => by simp [J.beq] at h
  | .bool _, .arr _, h => by simp [J.beq] at h
  | .bool _, .obj _, h => by simp [J.beq] at h
  | .num _, .null, h => by simp [J.beq] at h
  | .num _, .bool _, h => by simp [J.beq] at h
  | .num _, .str _, h => by simp [J.beq] at h
  | .num _, .arr _, h => by simp [J.beq] at h
  | .num _, .obj _, h => by simp [J.beq] at h
  | .str _, .null, h => by simp [J.beq] at h
  | .str _, .bool _, h => by simp [J.beq] at h
  | .str _, .num _, h => by simp [J.beq] at h
  | .str _, .arr _, h => by simp [J.beq] at h
  | .str _, .obj _, h => by simp [J.beq] at h
  | .arr _, .null, h => by simp [J.beq] at h
  | .arr _, .bool _, h => by simp [J.beq] at h
  | .arr _, .num _, h => by simp [J.beq] at h
  | .arr _, .str _, h => by simp [J.beq] at h
  | .arr _, .obj _, h => by simp [J.beq] at h
  | .obj _, .null, h => by simp [J.beq] at h
  | .obj _, .bool _, h => by simp [J.beq] at h
  | .obj _, .num _, h => by simp [J.beq] at h
  | .obj _, .str _, h => by simp [J.beq] at h
  | .obj _, .arr _, h => by simp [J.beq] at h

theorem jeqL_of_beq : ∀ {a b : List J}, jbeqL a b = true → a = b
  | [], [], _ => rfl
  | a :: as, b :: bs, h => by
      have h1 : J.beq a b = true := by
        have := h; simp [jbeqL, Bool.and_eq_true] at this; exact this.1
      have h2 : jbeqL as bs = true := by
        have := h; simp [jbeqL, Bool.and_eq_true] at this; exact this.2
      have e1 := J.eq_of_beq h1
      have e2 := jeqL_of_beq h2
      simp [e1, e2]
  | [], _ :: _, h => by simp [jbeqL] at h
  | _ :: _, [], h => by simp [jbeqL] at h

theorem jeqF_of_beq : ∀ {a b : List (Str × J)}, jbeqF a b = true → a = b
  | [], [], _ => rfl
  | (k, a) :: as, (k', b) :: bs, h => by
      have h0 : (k == k') = true ∧ J.beq a b = true ∧ jbeqF as bs = true := by
        have := h; simpa [jbeqF, Bool.and_eq_true, and_assoc] using this
      have e0 : k = k' := by simpa using h0.1
      have e1 := J.eq_of_beq h0.2.1
      have e2 := jeqF_of_beq h0.2.2
      simp [e0, e1, e2]
  | [], _ :: _, h => by simp [jbeqF] at h
  | _ :: _, [], h => by simp [jbeqF] at h

end

mutual

theorem J.beq_refl : ∀ a : J, J.beq a a = true
  | .null => rfl
  | .bool _ => by simp [J.beq]
  | .num _ => by simp [J.beq]
  | .str _ => by simp [J.beq]
  | .arr a => by simpa [J.beq] using jbeqL_refl a
  | .obj a => by simpa [J.beq] using jbeqF_refl a

theorem jbeqL_refl : ∀ a : List J, jbeqL a a = true
  | [] => rfl
  | a :: as => by simp [jbeqL, J.beq_refl a, jbeqL_refl as]

theorem jbeqF_refl : ∀ a : List (Str × J), jbeqF a a = true
  | [] => rfl
  | (k, a) :: as => by simp [jbeqF, J.beq_refl a, jbeqF_refl as]

end

instance : DecidableEq J := fun a b =>
  if h : J.beq a b = true then .isTrue (J.eq_of_beq h)
  else .isFalse (fun he => h (he ▸ J.beq_refl a))

/-- Field lookup on an association list (first binding wins, as in objects). -/
def getAssoc : List (Str × J) → Str → Option J
  | [], _ => none
  | (k', v') :: t, k => if k' = k then some v' else getAssoc t k

/-- Set a field: replaces the first binding in place, appends when absent
(JavaScript property assignment keeps insertion order). -/
def setAssoc : List (Str × J) → Str → J → List (Str × J)
  | [], k, v => [(k, v)]
  | (k', v') :: t, k, v => if k' = k then (k, v) :: t else (k', v') :: setAssoc t k v

/-- Delete a field (the JavaScript delete operator). -/
def delAssoc : List (Str × J) → Str → List (Str × J)
  | [], _ => []
  | (k', v') :: t, k => if k' = k then t else (k', v') :: delAssoc t k

/-- Read property k of a document; none models undefined (missing, or a
property access on a non-object that yields undefined). -/
def jGet : J → Str → Option J
  | .obj f, k => getAssoc f k
  | _, _ => none

/-- Property assignment doc[k] = v on an object; on non-objects the model
leaves the value unchanged (the verified paths only assign on objects). -/
def jSet : J → Str → J → J
  | .obj f, k, v => .obj (setAssoc f k v)
  | d, _, _ => d

/-- The delete operator on an object; a no-op elsewhere. -/
def jDel : J → Str → J
  | .obj f, k => .obj (delAssoc f k)
  | d, _ => d

/-- JavaScript truthiness of a value. -/
def truthy : J → Bool
  | .null => false
  | .bool b => b
  | .num n => n != 0
  | .str s => !s.isEmpty
  | .arr _ => true
  | .obj _ => true

/-- Truthiness of a possibly-undefined value (undefined is falsy). -/
def truthyO : Option J → Bool
  | none => false
  | some v => truthy v

/-- JavaScript String.prototype.split with a single-character separator:
always returns one more piece than the number of separators. -/
def splitChar (c : Char) : Str → List Str
  | [] => [[]]
  | a :: rest =>
    if a = c then [] :: splitChar c rest
    else
      match splitChar c rest with
      | [] => [[a]]
      | h :: t => (a :: h) :: t

/-- Array.prototype.join with a single-character separator. -/
def joinChar (c : Char) : List Str → Str
  | [] => []
  | [s] => s
  | s :: rest => s ++ c :: joinChar c rest

/-- Whether a string contains a given character. -/
def hasChar (c : Char) (s : Str) : Bool := s.contains c

/-- Whether p is a prefix of s (String.prototype.startsWith). -/
def strStarts : Str → Str → Bool
  | [], _ => true
  | _ :: _, [] => false
  | a :: as, b :: bs => a == b && strStarts as bs

/-- keyJoin from the source: join the non-blank key parts with dots
(the filter drops empty strings and undefined arguments alike). -/
def keyJoin (args : List Str) : Str := joinChar '.' (args.filter (fun s => !s.isEmpty))

/-- Build a composite key string from a joined sublevel and a joined id. -/
def mkKey (sub id : Str) : Str := '!' :: sub ++ '!' :: id

/-- Encode a key from sublevel parts and id parts, as the extract walker
does: the bang-delimited pair of dot-joins. -/
def encodeKey (subs ids : List Str) : Str := mkKey (keyJoin subs) (keyJoin ids)

/-- Decode a composite key: split on bangs, take the pieces after the first
and second bang, and split each on dots (the destructuring on key.split in
extractClassicLevel, followed by dot-splitting of the two components). -/
def decodeKey (k : Str) : Option (List Str × List Str) :=
  match splitChar '!' k with
  | _ :: sub :: id :: _ => some (splitChar '.' sub, splitChar '.' id)
  | _ => none

/-- The reserved field names. -/
def sKey : Str := "_key".toList

/-- The _id field name. -/
def sId : Str := "_id".toList

/-- The name field name. -/
def sName : Str := "name".toList

/-- The _stats field name. -/
def sStats : Str := "_stats".toList

/-- The folder field name. -/
def sFolder : Str := "folder".toList

/-- The type field name. -/
def sType : Str := "type".toList

/-- The length property name (used by the deep-equality test on arrays). -/
def sLength : Str := "length".toList

/-- The flattened view of the Document hierarchy (the HIERARCHY constant).
Each collection maps to its embedded collections; true marks an embedded
collection of array arity, false an embedded document of single arity. -/
def HIERARCHY (c : Str) : List (Str × Bool) :=
  if c = "actors".toList then [("items".toList, true), ("effects".toList, true)]
  else if c = "cards".toList then [("cards".toList, true)]
  else if c = "combats".toList then [("combatants".toList, true), ("groups".toList, true)]
  else if c = "delta".toList then [("items".toList, true), ("effects".toList, true)]
  else if c = "items".toList then [("effects".toList, true)]
  else if c = "journal".toList then [("pages".toList, true), ("categories".toList, true)]
  else if c = "playlists".toList then [("sounds".toList, true)]
  else if c = "regions".toList then [("behaviors".toList, true)]
  else if c = "tables".toList then [("results".toList, true)]
  else if c = "tokens".toList then [("delta".toList, false)]
  else if c = "scenes".toList then
    [("drawings".toList, true), ("tokens".toList, true), ("lights".toList, true),
     ("notes".toList, true), ("regions".toList, true), ("sounds".toList, true),
     ("templates".toList, true), ("tiles".toList, true), ("walls".toList, true)]
  else []

/-- Document collections stored with adventure documents (ADVENTURE_DOCS). -/
def ADVENTURE_DOCS : List Str :=
  ["actors".toList, "cards".toList, "combats".toList, "folders".toList, "items".toList,
   "journal".toList, "playlists".toList, "scenes".toList, "tables".toList, "macros".toList]

/-- The TYPE_COLLECTION_MAP constant: primary document types to collections. -/
def TYPE_COLLECTION_MAP : List (Str × Str) :=
  [("Actor".toList, "actors".toList), ("Adventure".toList, "adventures".toList),
   ("Cards".toList, "cards".toList), ("ChatMessage".toList, "messages".toList),
   ("Combat".toList, "combats".toList), ("FogExploration".toList, "fog".toList),
   ("Folder".toList, "folders".toList), ("Item".toList, "items".toList),
   ("JournalEntry".toList, "journal".toList), ("Macro".toList, "macros".toList),
   ("Playlist".toList, "playlists".toList), ("RollTable".toList, "tables".toList),
   ("Scene".toList, "scenes".toList), ("Setting".toList, "settings".toList),
   ("User".toList, "users".toList)]

/-- COLLECTION_TYPE_MAP: the inverse lookup built by Object.fromEntries over
the swapped entries of TYPE_COLLECTION_MAP. -/
def COLLECTION_TYPE_MAP (c : Str) : Option Str :=
  (TYPE_COLLECTION_MAP.find? (fun e => e.2 = c)).map (fun e => e.1)

/-- The volatile _stats fields (VOLATILE_FIELDS). -/
def VOLATILE_FIELDS : List Str :=
  ["createdTime".toList, "modifiedTime".toList, "lastModifiedBy".toList,
   "systemVersion".toList, "coreVersion".toList]

/-- getSafeFilename: characters outside A-Za-z0-9 and the Cyrillic range
U+0410-U+044F are replaced with underscores. -/
def isSafeChar (c : Char) : Bool :=
  decide (0x61 ≤ c.toNat ∧ c.toNat ≤ 0x7A) || decide (0x41 ≤ c.toNat ∧ c.toNat ≤ 0x5A) ||
  decide (0x30 ≤ c.toNat ∧ c.toNat ≤ 0x39) || decide (0x410 ≤ c.toNat ∧ c.toNat ≤ 0x44F)

/-- Sanitize a string for use as a filename. -/
def getSafeFilename (s : Str) : Str := s.map (fun c => if isSafeChar c then c else '_')

/-- Segments of a path string, dropping empty segments and single dots as
path normalization does. -/
def pathSegs (s : Str) : List Str := (splitChar '/' s).filter (fun p => !(p = [] || p = ['.']))

/-- Node path.join on already-normalized inputs: concatenate the segments of
all arguments and join with a slash; the empty join is the current directory.
(Parent-directory segments never occur in the verified paths and are not
resolved here.) -/
def pathJoin (parts : List Str) : Str :=
  let segs := (parts.map pathSegs).flatten
  if segs = [] then ['.'] else joinChar '/' segs

/-- Node path.basename on a normalized path: its last slash-segment. -/
def pathBasename (s : Str) : Str := (splitChar '/' s).getLastD []

/-- The string contents of the _id field of a document; undefined and
non-string values contribute the blank dropped by keyJoin. -/
def jIdStr (doc : J) : Str :=
  match jGet doc sId with
  | some (.str s) => s
  | _ => []

/-- mapHierarchy: transform a document's embedded collections by applying fn
to each element of an array-arity collection (a missing or non-array slot
becomes the empty array) and to a truthy single-arity value (a falsy or
missing one becomes null). -/
def mapHierarchyM {m : Type → Type} [Monad m] (fn : J → Str → m J) (doc : J)
    (collection : Str) : m J :=
  (HIERARCHY collection).foldlM (fun d nb =>
    match nb.2, jGet d nb.1 with
    | true, some (.arr l) => do
        let l' ← l.mapM (fun e => fn e nb.1)
        pure (jSet d nb.1 (.arr l'))
    | true, _ => pure (jSet d nb.1 (.arr []))
    | false, ev =>
        if truthyO ev then do
          let v' ← fn (ev.getD .null) nb.1
          pure (jSet d nb.1 v')
        else pure (jSet d nb.1 .null)) doc

/-- The pure instance of mapHierarchy, used with the identity-style callback
of the compile path. -/
def mapHierarchyP (fn : J → Str → J) (doc : J) (collection : Str) : J :=
  Id.run (mapHierarchyM (m := Id) (fun d c => pure (fn d c)) doc collection)

/-- Errors of the modelled pipeline: a duplicate key (the value thrown by the
packDoc callback), a JavaScript TypeError from using a non-string key, a
source-file read during adventure reconstruction (never exercised by the
verified claims and not modelled further), and fuel exhaustion. -/
inductive CErr where
  | dup (k : Option J)
  | typeErr
  | fileRead
  | notFound
  | noFuel
deriving Repr, DecidableEq

/-- The recursion of applyHierarchy over the elements of one array-arity
embedded collection, threading a state monadically; walk is the recursive
call one fuel level down. -/
def stWalkElems {σ : Type} (walk : J → Str → σ → Except CErr σ) (nm : Str) :
    List J → σ → Except CErr σ
  | [], st => pure st
  | e :: es, st => do
    let st' ← walk e nm st
    stWalkElems walk nm es st'

/-- The recursion of applyHierarchy over the catalog rows of one document,
threading a state monadically: array-arity rows whose slot holds an array
recurse into each element, any other truthy slot value is recursed into as a
single embedded document. -/
def stWalkRows {σ : Type} (walk : J → Str → σ → Except CErr σ) (doc : J) :
    List (Str × Bool) → σ → Except CErr σ
  | [], st => pure st
  | nb :: rows, st => do
    let st' ←
      match nb.2, jGet doc nb.1 with
      | true, some (.arr l) => stWalkElems walk nb.1 l st
      | _, ev => if truthyO ev then walk (ev.getD .null) nb.1 st else pure st
    stWalkRows walk doc rows st'

/-- The compile-side hierarchy walk: applyHierarchy of the packDoc callback
of compileClassicLevel.  At each document: read _key, delete it, fail on a
key already seen, record it, replace the embedded collections of a clone by
bare _id references via mapHierarchy, enqueue the put, then recurse into the
embedded collections in catalog order.  The state is the seen set paired
with the accumulated batch of puts. -/
def packWalk : Nat → J → Str → List (Option J) × List (Str × J) →
    Except CErr (List (Option J) × List (Str × J))
  | 0, _, _, _ => .error .noFuel
  | fuel+1, doc, collection, st => do
    let key := jGet doc sKey
    let doc := jDel doc sKey
    if st.1.contains key then throw (.dup key)
    else do
      let seen := key :: st.1
      let value := mapHierarchyP (fun d _ => (jGet d sId).getD .null) doc collection
      let batch ← match key with
        | some (.str k) => pure (st.2 ++ [(k, value)])
        | _ => throw .typeErr
      stWalkRows (packWalk fuel) doc (HIERARCHY collection) (seen, batch)

/-- reconstructAdventure: for each adventure-embedded collection, rebuild the
entries array; a missing or null slot becomes the empty array.  A string
entry names a source file to inline and a non-iterable slot raises a
TypeError; neither occurs in the claims verified here, so both are modelled
as errors (string slots iterate their characters, each a string entry). -/
def reconstructAdventure (doc : J) : Except CErr J :=
  ADVENTURE_DOCS.foldlM (fun d coll =>
    match jGet d coll with
    | some (.arr l) =>
        if l.any (fun e => match e with | .str _ => true | _ => false) then throw .fileRead
        else pure (jSet d coll (.arr l))
    | some (.str s) => if s.isEmpty then pure (jSet d coll (.arr [])) else throw .fileRead
    | some .null => pure (jSet d coll (.arr []))
    | none => pure (jSet d coll (.arr []))
    | some _ => throw .typeErr) doc

/-- The collection component of a composite key, as read by the destructuring
of key.split in the compile and extract loops. -/
def findCollection (k : Str) : Str := (splitChar '!' k).getD 1 []

/-- Apply a batch of puts to a store (an association list of entries). -/
def applyBatch (store : List (Str × J)) (puts : List (Str × J)) : List (Str × J) :=
  puts.foldl (fun s kv => setAssoc s kv.1 kv.2) store

/-- The per-file loop of compileClassicLevel: skip files whose _key is
falsy, reconstruct adventures, then run the pack walk; a truthy non-string
_key raises a TypeError at the key split. -/
def compileFiles : Nat → List J → List (Option J) × List (Str × J) →
    Except CErr (List (Option J) × List (Str × J))
  | _, [], st => pure st
  | fuel, doc :: files, st => do
    let st' ←
      match jGet doc sKey with
      | some kv =>
        if truthy kv then
          match kv with
          | .str k => do
            let doc ← if strStarts "!adventures".toList k then reconstructAdventure doc
              else pure doc
            packWalk fuel doc (findCollection k) st
          | _ => throw CErr.typeErr
        else pure st
      | none => pure st
    compileFiles fuel files st'

/-- compileClassicLevel under default options (no entry transformer): walk
every source document, accumulating the seen set and the batch; after all
files, delete every existing key not seen and write the batch.  The store is
an association list standing for the ordered key/value backend. -/
def compileClassicLevel (fuel : Nat) (store : List (Str × J)) (files : List J) :
    Except CErr (List (Str × J)) := do
  let st ← compileFiles fuel files (([] : List (Option J)), ([] : List (Str × J)))
  let kept := store.filter (fun e => st.1.contains (some (J.str e.1)))
  pure (applyBatch kept st.2)

/-- The observable effect of a sorted-store compile on the target store: the
batch is written only at the very end, so an error anywhere leaves the store
untouched. -/
def compileRun (fuel : Nat) (store : List (Str × J)) (files : List J) :
    List (Str × J) × Option CErr :=
  match compileClassicLevel fuel store files with
  | .ok s => (s, none)
  | .error e => (store, some e)

/-- The keys a compile walk visits for one document, appended in walk order
to the accumulator, with the same skip conditions and fuel discipline as
packWalk but no duplicate check. -/
def walkKeysSt : Nat → J → Str → List (Option J) → Except CErr (List (Option J))
  | 0, _, _, _ => .error .noFuel
  | fuel+1, doc, collection, acc =>
    let key := jGet doc sKey
    let doc := jDel doc sKey
    match key with
    | some (.str _) => stWalkRows (walkKeysSt fuel) doc (HIERARCHY collection) (acc ++ [key])
    | _ => throw .typeErr

/-- The per-file loop of the key enumeration. -/
def walkKeysFilesSt : Nat → List J → List (Option J) → Except CErr (List (Option J))
  | _, [], acc => pure acc
  | fuel, doc :: files, acc => do
    let acc' ←
      match jGet doc sKey with
      | some kv =>
        if truthy kv then
          match kv with
          | .str k => do
            let doc ← if strStarts "!adventures".toList k then reconstructAdventure doc
              else pure doc
            walkKeysSt fuel doc (findCollection k) acc
          | _ => throw CErr.typeErr
        else pure acc
      | none => pure acc
    walkKeysFilesSt fuel files acc'

/-- The keys a whole compile walks, across all source files. -/
def walkKeysFiles (fuel : Nat) (files : List J) : Except CErr (List (Option J)) :=
  walkKeysFilesSt fuel files []

/-- The typeof operator restricted to JSON values. -/
def typeofJ : J → Str
  | .null => "object".toList
  | .bool _ => "boolean".toList
  | .num _ => "number".toList
  | .str _ => "string".toList
  | .arr _ => "object".toList
  | .obj _ => "object".toList

/-- Decimal rendering of a natural number. -/
def natToStr (n : Nat) : Str := (toString n).toList

/-- Parse a canonical array-index property key (digits, no leading zero). -/
def strToIndex (k : Str) : Option Nat :=
  if k = [] then none
  else if k.all (fun c => c.isDigit) then
    if k.length > 1 && k.headD ' ' == '0' then none
    else some (k.foldl (fun n c => n * 10 + (c.toNat - 48)) 0)
  else none

/-- Property read v[p] with a string property key: field of an object, index
or length of an array or string, undefined elsewhere. -/
def jIndex : J → Str → Option J
  | .obj f, k => getAssoc f k
  | .arr l, k =>
    (match strToIndex k with
     | some n => l[n]?
     | none => if k = sLength then some (.num l.length) else none)
  | .str s, k =>
    (match strToIndex k with
     | some n => (s[n]?).map (fun c => J.str [c])
     | none => if k = sLength then some (.num s.length) else none)
  | _, _ => none

/-- The length property of a value; none models undefined. -/
def jLength : J → Option J
  | .arr l => some (.num l.length)
  | .str s => some (.num s.length)
  | .obj f => getAssoc f sLength
  | _ => none

/-- Object.keys on a non-null value: field names of an object, index strings
of an array or string, empty for primitives. -/
def jKeysL : J → List Str
  | .obj f => f.map (fun e => e.1)
  | .arr l => (List.range l.length).map natToStr
  | .str s => (List.range s.length).map natToStr
  | _ => []

/-- The in operator p in v; throws a TypeError on primitives and null. -/
def inJ (p : Str) : J → Except Unit Bool
  | .obj f => .ok (getAssoc f p).isSome
  | .arr l =>
    .ok (match strToIndex p with
         | some n => decide (n < l.length)
         | none => decide (p = sLength))
  | _ => .error ()

mutual

/-- testEquality from the source: deep structural comparison with a depth
limit of 100, beyond which a cyclic-structure error is thrown.  Mixed
array/object comparisons go through property reads exactly as the source
does; reading the length or keys of null throws. -/
def testEquality (a b : J) (depth : Nat) : Except Unit Bool :=
  if h : 100 < depth then .error ()
  else if typeofJ a ≠ typeofJ b then .ok false
  else
    match a with
    | .null => .ok (b == .null)
    | .bool x => .ok (b == .bool x)
    | .num x => .ok (b == .num x)
    | .str x => .ok (b == .str x)
    | .arr l =>
      (match b with
       | .null => .error ()
       | _ =>
         match jLength b with
         | some (.num n) => if n = (l.length : Int) then testEqElems l b 0 (depth + 1)
                            else .ok false
         | _ => .ok false)
    | .obj f =>
      (match b with
       | .null => .error ()
       | _ =>
         if f.length ≠ (jKeysL b).length then .ok false
         else testEqFields (f.map (fun e => e.1)) f b (depth + 1))
termination_by (101 - depth, 0, 0)

/-- Comparison against a possibly-undefined right-hand side (the recursive
calls testEquality(v, b[i]) of the source; an undefined partner differs in
typeof, after the depth check). -/
def testEqualityU (a : J) (b? : Option J) (depth : Nat) : Except Unit Bool :=
  if h : 100 < depth then .error ()
  else
    match b? with
    | some b => testEquality a b depth
    | none => .ok false
termination_by (101 - depth, 1, 0)

/-- The short-circuiting a.every over array elements. -/
def testEqElems (l : List J) (b : J) (i : Nat) (depth : Nat) : Except Unit Bool :=
  match l with
  | [] => .ok true
  | v :: rest => do
    let r ← testEqualityU v (jIndex b (natToStr i)) depth
    if r then testEqElems rest b (i + 1) depth else .ok false
termination_by (101 - depth, 2, l.length)

/-- The short-circuiting conjunction over the keys of the left object. -/
def testEqFields (keys : List Str) (f : List (Str × J)) (b : J) (depth : Nat) :
    Except Unit Bool :=
  match keys with
  | [] => .ok true
  | p :: rest => do
    let r ← testEqualityU ((getAssoc f p).getD .null) (jIndex b p) depth
    if r then testEqFields rest f b depth else .ok false
termination_by (101 - depth, 2, keys.length)

end

/-- Optional-chaining numeric index base[collection]?.[i] for i of the
overlay callback. -/
def jIndexNum : Option J → Int → Option J
  | none, _ => none
  | some .null, _ => none
  | some v, i => if i < 0 then none else jIndex v (natToStr i.toNat)

/-- The body of the overlay callback of checkVolatile, given the partner b
already selected: copy every volatile _stats field present on b onto the
current clone node a.  Falsy partners and partners without _stats are
skipped; the in operator on a primitive partner throws, as does assignment
when the clone node has no _stats object. -/
def volatileCopy (b? : Option J) (a : J) : Except Unit J :=
  if !truthyO b? then .ok a
  else do
    let b := b?.getD .null
    let hs ← inJ sStats b
    if !hs then .ok a
    else
      let bs := (jGet b sStats).getD .null
      VOLATILE_FIELDS.foldlM (fun a' p => do
        let pin ← inJ p bs
        if pin then
          match jGet a' sStats with
          | some (.obj sf) =>
              pure (jSet a' sStats (.obj (setAssoc sf p ((jGet bs p).getD .null))))
          | _ => throw ()
        else pure a') a

/-- The overlay callback of checkVolatile: the partner is the whole existing
document for the primary (i null), the existing document's collection field
for a single-arity slot (i negative), and the i-th element of the existing
document's collection field for an array element. -/
def overlayFn (base : J) (a : J) (collection : Str) (i : Option Int) : Except Unit J :=
  volatileCopy
    (match i with
     | none => some base
     | some k => if k < 0 then jGet base collection else jIndexNum (jGet base collection) k)
    a

/-- applyHierarchySync of the overlay callback: depth-first pre-order walk of
the clone, passing null for the primary document, the array index for array
elements and -1 for single-arity embedded documents. -/
def overlayWalk (base : J) : Nat → J → Str → Option Int → Except Unit J
  | 0, _, _, _ => .error ()
  | fuel+1, a, collection, i => do
    let a ← overlayFn base a collection i
    (HIERARCHY collection).foldlM (fun d nb =>
      match nb.2, jGet d nb.1 with
      | true, some (.arr l) => do
          let l' ← l.enum.mapM (fun ei => overlayWalk base fuel ei.2 nb.1 (some (ei.1 : Int)))
          pure (jSet d nb.1 (.arr l'))
      | _, ev =>
          if truthyO ev then do
            let c ← overlayWalk base fuel (ev.getD .null) nb.1 (some (-1))
            pure (jSet d nb.1 c)
          else pure d) a

/-- The try block of checkVolatile: parse the existing file (none models a
read or parse throw), bail out to the candidate on a falsy document or one
without _stats, otherwise overlay the volatile fields onto a clone of the
candidate and compare deeply, returning the existing document on equality
and the candidate otherwise. -/
def checkVolatileTry (doc : J) (fileContent : Option J) (collection : Str) (fuel : Nat) :
    Except Unit J := do
  let base ← match fileContent with
    | some b => Except.ok b
    | none => Except.error ()
  if !truthy base then pure doc
  else do
    let bs ← inJ sStats base
    if !bs then pure doc
    else do
      let copy ← overlayWalk base fuel doc collection none
      let eq ← testEquality base copy 0
      pure (if eq then base else doc)

/-- checkVolatile: with omitVolatile set and an existing location, when both
the candidate and the parsed existing file carry _stats, overlay the volatile
fields of the existing document onto a clone of the candidate and compare
deeply; if equal the existing document is returned, otherwise the candidate.
fileContent is the parse of the existing file, none standing for a read or
parse throw.  Every throw inside the try falls back to the candidate; a
throw from the guard itself (a candidate on which the in operator fails)
propagates. -/
def checkVolatile (doc : J) (omitVolatile : Bool) (existing : Bool) (fileContent : Option J)
    (collection : Str) (fuel : Nat) : Except Unit J :=
  if !omitVolatile || !existing then .ok doc
  else do
    let ds ← inJ sStats doc
    if !ds then .ok doc
    else
      match checkVolatileTry doc fileContent collection fuel with
      | .ok r => .ok r
      | .error _ => .ok doc

/-- The extract-side hierarchy walk of extractClassicLevel: assign the
composite _key from the inherited sublevel and id, resolve every
embedded-collection reference through a point get on the store, and recurse
into the resolved children.  A missing entry or a non-string reference ends
the extraction with an error. -/
def unpackElemsWith (walk : J → Str → Except CErr J) (nm : Str) :
    List J → Except CErr (List J)
  | [] => pure []
  | e :: es => do
    let e' ← walk e nm
    let es' ← unpackElemsWith walk nm es
    pure (e' :: es')

/-- The recursion of applyHierarchy in the extract walk, replacing each slot
by the recursively unpacked value (the in-place mutation of the source). -/
def unpackRowsWith (walk : J → Str → Except CErr J) : J → List (Str × Bool) → Except CErr J
  | d, [] => pure d
  | d, nb :: rows => do
    let d' ←
      match nb.2, jGet d nb.1 with
      | true, some (.arr l) => do
          let l' ← unpackElemsWith walk nb.1 l
          pure (jSet d nb.1 (.arr l'))
      | _, ev =>
          if truthyO ev then do
            let c ← walk (ev.getD .null) nb.1
            pure (jSet d nb.1 c)
          else pure d
    unpackRowsWith walk d' rows

def unpackDoc (P : List (Str × J)) : Nat → J → Str → Str × Str → Except CErr J
  | 0, _, _, _ => .error .noFuel
  | fuel+1, doc, collection, pre => do
    let sub := keyJoin [pre.1, collection]
    let idv := keyJoin [pre.2, jIdStr doc]
    let doc ← match doc with
      | .obj _ => pure (jSet doc sKey (.str (mkKey sub idv)))
      | _ => throw CErr.typeErr
    let doc ← mapHierarchyM (fun e nm =>
        match e with
        | .str cid =>
          (match getAssoc P (mkKey (sub ++ '.' :: nm) (idv ++ '.' :: cid)) with
           | some cv => pure cv
           | none => throw CErr.notFound)
        | _ => throw CErr.notFound) doc collection
    unpackRowsWith (fun e nm => unpackDoc P fuel e nm (sub, idv)) doc (HIERARCHY collection)

/-- The default filename policy of the sorted-store extract (json mode, no
folder projection): safeName_id.json when the document has a truthy name,
key.json otherwise; a truthy non-string name throws inside getSafeFilename. -/
def primaryFileName (doc : J) (key : Str) (id : Str) : Except CErr Str :=
  match jGet doc sName with
  | some (.str s) =>
      if s.isEmpty then pure (key ++ ".json".toList)
      else pure (getSafeFilename s ++ '_' :: id ++ ".json".toList)
  | some v => if truthy v then throw CErr.typeErr else pure (key ++ ".json".toList)
  | none => pure (key ++ ".json".toList)

/-- extractClassicLevel under default options (json, no folder projection, no
adventure expansion, no transformers, omitVolatile off): iterate the store,
skip embedded-document entries (a dot in the sublevel), unpack each primary
document, derive its filename, pass it through the volatile gate (a no-op
here) and write it into the staging directory, later file names overwriting
earlier ones. -/
def extractEntries (P : List (Str × J)) (fuel : Nat) :
    List (Str × J) → List (Str × J) → Except CErr (List (Str × J))
  | [], files => pure files
  | kv :: rest, files => do
    let collection := (splitChar '!' kv.1).getD 1 []
    let id := (splitChar '!' kv.1).getD 2 []
    if hasChar '.' collection then extractEntries P fuel rest files
    else do
      let doc ← unpackDoc P fuel kv.2 collection ([], [])
      let name ← primaryFileName doc kv.1 id
      let out ← match checkVolatile doc false true none collection fuel with
        | .ok r => pure r
        | .error _ => throw CErr.typeErr
      extractEntries P fuel rest (setAssoc files name out)

def extractClassicLevelFiles (fuel : Nat) (P : List (Str × J)) :
    Except CErr (List (Str × J)) :=
  extractEntries P fuel P []

/-- The pairing specification of the overlay: the same walk, but with the
partner of each node carried explicitly.  The primary document is paired
with the whole existing document; the i-th element of an array-arity
embedded collection is paired with the i-th element of the existing
document's same-named collection field; a single-arity embedded document is
paired with the existing document's field value.  Documents are never
matched by _id. -/
def overlaySpec (base : J) : Nat → J → Str → Option J → Except Unit J
  | 0, _, _, _ => .error ()
  | fuel+1, a, collection, b? => do
    let a ← volatileCopy b? a
    (HIERARCHY collection).foldlM (fun d nb =>
      match nb.2, jGet d nb.1 with
      | true, some (.arr l) => do
          let l' ← l.enum.mapM (fun ei =>
            overlaySpec base fuel ei.2 nb.1 (jIndexNum (jGet base nb.1) (ei.1 : Int)))
          pure (jSet d nb.1 (.arr l'))
      | _, ev =>
          if truthyO ev then do
            let c ← overlaySpec base fuel (ev.getD .null) nb.1 (jGet base nb.1)
            pure (jSet d nb.1 c)
          else pure d) a

/-- Filesystem operations performed by the extract orchestrator. -/
inductive FSOp where
  | mkdirDest
  | mkdirTmp
  | writeTmp (name : Str) (v : J)
  | rmDest
  | cpTmpDest
  | rmTmp
deriving Repr, DecidableEq

/-- The destination directory and the per-invocation staging directory; none
models an absent directory. -/
structure FSState where
  dest : Option (List (Str × J))
  tmp : Option (List (Str × J))
deriving Repr, DecidableEq

/-- Semantics of the filesystem operations: recursive mkdir is a no-op on an
existing directory, writes to the staging directory overwrite by name, the
recursive copy merges the staged tree over the destination, and the
recursive removals delete a directory. -/
def applyOp (s : FSState) : FSOp → FSState
  | .mkdirDest => { s with dest := some (s.dest.getD []) }
  | .mkdirTmp => { s with tmp := some (s.tmp.getD []) }
  | .writeTmp n v => { s with tmp := some (setAssoc (s.tmp.getD []) n v) }
  | .rmDest => { s with dest := none }
  | .cpTmpDest => { s with dest := some (applyBatch (s.dest.getD []) (s.tmp.getD [])) }
  | .rmTmp => { s with tmp := none }

/-- Run a sequence of filesystem operations. -/
def applyOps (s : FSState) (ops : List FSOp) : FSState := ops.foldl applyOp s

/-- The filesystem trace of extractPack: create dest and the staging
directory, write every output into the staging directory, and only on
success of the whole backend extraction optionally clean dest and copy the
staged tree into it; the finally clause removes the staging directory on
both exits.  writes is the sequence of outputs the backend extraction
stages; failAfter models an error thrown after that many outputs were
staged.  The returned flag reports whether the operation re-threw. -/
def extractPackOps (writes : List (Str × J)) (failAfter : Option Nat) (clean : Bool) :
    List FSOp × Bool :=
  match failAfter with
  | some n =>
    ([FSOp.mkdirDest, FSOp.mkdirTmp] ++ (writes.take n).map (fun w => FSOp.writeTmp w.1 w.2)
      ++ [FSOp.rmTmp], true)
  | none =>
    ([FSOp.mkdirDest, FSOp.mkdirTmp] ++ writes.map (fun w => FSOp.writeTmp w.1 w.2)
      ++ (if clean then [FSOp.rmDest] else []) ++ [FSOp.cpTmpDest, FSOp.rmTmp], false)

/-- The two pack backends. -/
inductive Backend where
  | logStore
  | sortedStore
deriving Repr, DecidableEq

/-- The backends extractPack runs against the source path: the nedb branch
runs the log-store extraction, and the sorted-store extraction follows
unconditionally, because the call to extractClassicLevel is not guarded by
an else. -/
def extractBackendsUsed (nedb : Bool) : List Backend :=
  (if nedb then [Backend.logStore] else []) ++ [Backend.sortedStore]

/-- Folder descriptor built by buildFolderMap: the derived filename, the raw
parent reference and type, and the computed path. -/
structure FolderDesc where
  fname : Str
  ffolder : Option J
  ftype : Option J
  fpath : Str
deriving Repr, DecidableEq

/-- Generic upsert keyed by boolean equality (the Map.set of JavaScript). -/
def upsertBy {α β : Type} [BEq α] : List (α × β) → α → β → List (α × β)
  | [], k, v => [(k, v)]
  | (k', v') :: t, k, v => if k' == k then (k, v) :: t else (k', v') :: upsertBy t k v

/-- Map.get keyed by boolean equality; an undefined key can match an entry
stored under an undefined key, as in JavaScript. -/
def lookupFD (m : List (Option J × FolderDesc)) (k : Option J) : Option FolderDesc :=
  (m.find? (fun e => e.1 == k)).map (fun e => e.2)

/-- The folder filename of buildFolderMap (no name transformer): the safe
name joined with the id when the name is truthy, the raw id otherwise.  A
truthy non-string name throws inside getSafeFilename; ids are taken as
strings (the verified claims quantify over folders with string ids). -/
def folderFileName (doc : J) : Except Unit Str :=
  match jGet doc sName with
  | some (.str s) =>
      if s.isEmpty then pure (jIdStr doc)
      else pure (getSafeFilename s ++ '_' :: jIdStr doc)
  | some v => if truthy v then throw () else pure (jIdStr doc)
  | none => pure (jIdStr doc)

/-- The parent-chain walk of buildFolderMap: prepend each ancestor's derived
name to the path; the loop has no cycle detection, so the model exhausts its
fuel (returning none) where the source would loop forever. -/
def folderPathLoop (m : List (Option J × FolderDesc)) :
    Nat → Str → Option FolderDesc → Option Str
  | _, path, none => some path
  | 0, _, some _ => none
  | fuel+1, path, some parent =>
      folderPathLoop m fuel (pathJoin [parent.fname, path]) (lookupFD m parent.ffolder)

/-- The first loop of buildFolderMap: build the id-keyed descriptor map in
source order (a later duplicate id overwrites its predecessor). -/
def folderMapPass1 (folders : List J) : Except Unit (List (Option J × FolderDesc)) :=
  folders.foldlM (fun m doc => do
      let nm ← folderFileName doc
      pure (upsertBy m (jGet doc sId)
        { fname := nm, ffolder := jGet doc sFolder, ftype := jGet doc sType, fpath := [] })) []

/-- The parent step of the second loop of buildFolderMap: from a descriptor
to the descriptor its folder field refers to, if any. -/
def fdStep (m : List (Option J × FolderDesc)) (d : FolderDesc) : Option FolderDesc :=
  lookupFD m d.ffolder

/-- The parent step iterated n times from an optional descriptor. -/
def fdIter (m : List (Option J × FolderDesc)) : Nat → Option FolderDesc → Option FolderDesc
  | 0, d? => d?
  | n+1, d? => fdIter m n (d?.bind (fdStep m))

/-- The derived names of the ancestor chain starting at an optional parent
descriptor, listed from the root parent down, or none if the chain is longer
than the fuel (in particular, if it cycles). -/
def ancestorNames (m : List (Option J × FolderDesc)) :
    Nat → Option FolderDesc → Option (List Str)
  | _, none => some []
  | 0, some _ => none
  | fuel+1, some d => (ancestorNames m fuel (fdStep m d)).map (fun ns => ns ++ [d.fname])

/-- The path the specification describes: the ancestors' derived names
joined from the root parent down to the folder's own derived name, joining
exactly as the parent-chain walk does. -/
def ancestorJoin (ns : List Str) (own : Str) : Str :=
  ns.foldr (fun n acc => pathJoin [n, acc]) own

/-- buildFolderMap: first pass builds the id-keyed descriptor map in order
(later duplicate ids overwrite); second pass computes each descriptor's path
by walking the parent chain, optionally prepending the folder's document
type when grouping by type. -/
def buildFolderMap (folders : List J) (groupByType : Bool) (fuel : Nat) :
    Except Unit (List (Option J × FolderDesc)) := do
  let m ← folderMapPass1 folders
  m.mapM (fun e => do
    match folderPathLoop m fuel e.2.fname (lookupFD m e.2.ffolder) with
    | some p =>
        if groupByType then
          match e.2.ftype with
          | some (.str t) => pure (e.1, { e.2 with fpath := pathJoin [t, p] })
          | _ => throw ()
        else pure (e.1, { e.2 with fpath := p })
    | none => throw ())

/-- Node path.relative on our normalized paths: drop the common leading
segments (sufficient for the verified uses, where the target extends the
base). -/
def pathRelative (base target : Str) : Str :=
  joinChar '/' ((pathSegs target).drop (pathSegs base).length)

/-- extractAdventure in json mode with no transformers and omitVolatile off:
derive the adventure's own filename, then write one file per embedded
document of each adventure-embedded collection, recording the written
relative paths back into the adventure, and finally write the adventure
itself.  The default embedded filename carries an underscore-joined document
type suffix when the folders option is off.  Returns the ordered writes. -/
def extractAdventure (doc : J) (folders : Bool) (folderMap : List (Option J × FolderDesc))
    (fuel : Nat) : Except CErr (List (Str × J)) := do
  let folder : Option Str := (lookupFD folderMap (jGet doc sFolder)).map (fun d => d.fpath)
  let adventureFolder : Option Str ←
    if folders then do
      let nm ← match jGet doc sName with
        | some (.str s) => pure (getSafeFilename s)
        | _ => throw CErr.typeErr
      pure (some (pathJoin [folder.getD [], nm ++ '_' :: jIdStr doc]))
    else pure folder
  let name ←
    if folders then
      pure (pathJoin [adventureFolder.getD [], "_Adventure.json".toList])
    else do
      let base ← match jGet doc sName with
        | some (.str s) =>
            if s.isEmpty then pure (jIdStr doc)
            else pure (getSafeFilename s ++ '_' :: jIdStr doc)
        | some v => if truthy v then throw CErr.typeErr else pure (jIdStr doc)
        | none => pure (jIdStr doc)
      let base := base ++ ".json".toList
      pure (match folder with
        | some f => pathJoin [f, base]
        | none => base)
  let embeddedFolderMap ←
    if folders then
      match jGet doc "folders".toList with
      | some (.arr l) =>
        (match buildFolderMap l true fuel with
         | .ok m => pure m
         | .error _ => throw CErr.typeErr)
      | some .null => pure []
      | none => pure []
      | some _ => throw CErr.typeErr
    else pure ([] : List (Option J × FolderDesc))
  let (writes, doc) ← ADVENTURE_DOCS.foldlM (fun acc coll => do
    let typeSuffix : Str := if folders then [] else '_' :: ((COLLECTION_TYPE_MAP coll).getD [])
    let entries : List J ← match jGet acc.2 coll with
      | some (.arr l) => pure l
      | some .null => pure []
      | none => pure []
      | some (.str s) => if s.isEmpty then pure [] else throw CErr.fileRead
      | some _ => throw CErr.typeErr
    let (ws, paths) ← entries.foldlM (fun acc2 embeddedDoc => do
      let embeddedFolder : Str := pathJoin [adventureFolder.getD [],
        ((lookupFD embeddedFolderMap (jGet embeddedDoc sFolder)).map (fun d => d.fpath)).getD []]
      let (embeddedFolder, embeddedName) ←
        if coll = "folders".toList &&
            (lookupFD embeddedFolderMap (jGet embeddedDoc sId)).isSome then
          pure (adventureFolder.getD [],
            pathJoin [((lookupFD embeddedFolderMap (jGet embeddedDoc sId)).map
              (fun d => d.fpath)).getD [], "_Folder.json".toList])
        else do
          let base ← match jGet embeddedDoc sName with
            | some (.str s) =>
                if s.isEmpty then pure (jIdStr doc)
                else pure (getSafeFilename s ++ typeSuffix ++ '_' :: jIdStr embeddedDoc)
            | some v => if truthy v then throw CErr.typeErr else pure (jIdStr doc)
            | none => pure (jIdStr doc)
          pure (embeddedFolder, base ++ ".json".toList)
      let embeddedName :=
        if embeddedFolder.isEmpty then embeddedName else pathJoin [embeddedFolder, embeddedName]
      let embeddedPath :=
        match adventureFolder with
        | some af => pathRelative af embeddedName
        | none => pathBasename embeddedName
      pure (acc2.1 ++ [(embeddedName, embeddedDoc)], acc2.2 ++ [J.str embeddedPath]))
      ((acc.1 : List (Str × J)), ([] : List J))
    pure (ws, jSet acc.2 coll (.arr paths))) (([] : List (Str × J)), doc)
  pure (writes ++ [(name, doc)])

/-- Parse a composite key of the well-formed shape: a leading bang, a
non-empty bang-free sublevel, a second bang, a non-empty bang-free id. -/
def parseKey (k : Str) : Option (Str × Str) :=
  match splitChar '!' k with
  | [e, c, i] => if e = [] && !c.isEmpty && !i.isEmpty then some (c, i) else none
  | _ => none

/-- Whether a well-formed key denotes a primary document (dot-free
sublevel). -/
def isPrimaryKey (k : Str) : Bool :=
  match parseKey k with
  | some (c, _) => !hasChar '.' c
  | none => false

/-- Well-formedness of a pack document subtree rooted at the entry with
joined sublevel sub and joined id idv: the value is an object without _key
whose _id is the non-empty bang-free last id part; every array-arity catalog
slot is an array of non-empty id references each of which resolves to a
well-formed child entry, and every single-arity slot is null or one such
reference. -/
def validAt (P : List (Str × J)) : Nat → Str → Str → Str → Str → J → Bool
  | 0, _, _, _, _, _ => false
  | fuel+1, sub, idv, myId, collection, v =>
    match v with
    | .obj fields =>
      (getAssoc fields sKey).isNone &&
      (getAssoc fields sId == some (.str myId)) &&
      !myId.isEmpty && !(hasChar '!' myId) &&
      (HIERARCHY collection).all (fun nb =>
        if nb.2 then
          match getAssoc fields nb.1 with
          | some (.arr l) => l.all (fun e =>
              match e with
              | .str cid =>
                !cid.isEmpty &&
                (match getAssoc P (mkKey (sub ++ '.' :: nb.1) (idv ++ '.' :: cid)) with
                 | some cv => validAt P fuel (sub ++ '.' :: nb.1) (idv ++ '.' :: cid) cid nb.1 cv
                 | none => false)
              | _ => false)
          | _ => false
        else
          match getAssoc fields nb.1 with
          | some .null => true
          | some (.str cid) =>
              !cid.isEmpty &&
              (match getAssoc P (mkKey (sub ++ '.' :: nb.1) (idv ++ '.' :: cid)) with
               | some cv => validAt P fuel (sub ++ '.' :: nb.1) (idv ++ '.' :: cid) cid nb.1 cv
               | none => false)
          | _ => false)
    | _ => false

/-- The keys of a well-formed subtree, in compile walk order (the node, then
each catalog slot's children left to right). -/
def subKeys (P : List (Str × J)) : Nat → Str → Str → Str → J → List Str
  | 0, _, _, _, _ => []
  | fuel+1, sub, idv, collection, v =>
    mkKey sub idv ::
    ((HIERARCHY collection).map (fun nb =>
      if nb.2 then
        match jGet v nb.1 with
        | some (.arr l) =>
          (l.map (fun e =>
            match e with
            | .str cid =>
              subKeys P fuel (sub ++ '.' :: nb.1) (idv ++ '.' :: cid) nb.1
                ((getAssoc P (mkKey (sub ++ '.' :: nb.1) (idv ++ '.' :: cid))).getD .null)
            | _ => [])).flatten
        | _ => []
      else
        match jGet v nb.1 with
        | some (.str cid) =>
          subKeys P fuel (sub ++ '.' :: nb.1) (idv ++ '.' :: cid) nb.1
            ((getAssoc P (mkKey (sub ++ '.' :: nb.1) (idv ++ '.' :: cid))).getD .null)
        | _ => [])).flatten

/-- The sublevel keys contributed by one child entry of an array-arity
embedded collection, as enumerated by subKeys. -/
def elemSubKeys (P : List (Str × J)) (fuel : Nat) (sub idv nm : Str) (e : J) : List Str :=
  match e with
  | .str cid =>
    subKeys P fuel (sub ++ '.' :: nm) (idv ++ '.' :: cid) nm
      ((getAssoc P (mkKey (sub ++ '.' :: nm) (idv ++ '.' :: cid))).getD .null)
  | _ => []

/-- The sublevel keys contributed by one catalog row, as enumerated by
subKeys. -/
def rowSubKeys (P : List (Str × J)) (fuel : Nat) (sub idv : Str) (v : J)
    (nb : Str × Bool) : List Str :=
  if nb.2 then
    match jGet v nb.1 with
    | some (.arr l) => (l.map (fun e => elemSubKeys P fuel sub idv nb.1 e)).flatten
    | _ => []
  else
    match jGet v nb.1 with
    | some (.str cid) =>
      subKeys P fuel (sub ++ '.' :: nb.1) (idv ++ '.' :: cid) nb.1
        ((getAssoc P (mkKey (sub ++ '.' :: nb.1) (idv ++ '.' :: cid))).getD .null)
    | _ => []

/-- A truthy non-string name would make the filename derivation throw; a
valid pack has only string or falsy names on its primary entries. -/
def nameOK (v : J) : Bool :=
  match jGet v sName with
  | some (.str _) => true
  | some w => !truthy w
  | none => true

/-- Adventure reconstruction rebuilds the ten adventure-embedded collection
fields; a valid adventure entry carries all ten as arrays of non-string
entries, so the rebuild leaves it unchanged. -/
def advOK (v : J) : Bool :=
  ADVENTURE_DOCS.all (fun coll =>
    match jGet v coll with
    | some (.arr l) => l.all (fun e => match e with | .str _ => false | _ => true)
    | _ => false)

/-- The filename the default extract policy derives for a primary entry. -/
def predFileName (k i : Str) (v : J) : Str :=
  match jGet v sName with
  | some (.str s) =>
      if s.isEmpty then k ++ ".json".toList
      else getSafeFilename s ++ '_' :: i ++ ".json".toList
  | some _ => k ++ ".json".toList
  | none => k ++ ".json".toList

/-- A valid sorted-store pack: distinct keys, every key of the bang-delimited
well-formed shape, every primary entry the root of a well-formed subtree
with a usable name (and, when its key announces an adventure, with the ten
adventure collections present as arrays of inline documents), the key set
partitioned exactly into the primary subtrees, and the derived source
filenames pairwise distinct. -/
def validPack (P : List (Str × J)) : Bool :=
  decide (P.map Prod.fst).Nodup &&
  P.all (fun kv =>
    match parseKey kv.1 with
    | some (c, i) =>
      if hasChar '.' c then true
      else
        validAt P (P.length + 1) c i i c kv.2 &&
        nameOK kv.2 &&
        (!(strStarts "adventures".toList c) || advOK kv.2)
    | none => false) &&
  decide ((P.map Prod.fst).Perm
    (((P.filter (fun kv => isPrimaryKey kv.1)).map (fun kv =>
      match parseKey kv.1 with
      | some (c, i) => subKeys P (P.length + 1) c i c kv.2
      | none => [])).flatten)) &&
  decide ((P.filter (fun kv => isPrimaryKey kv.1)).map (fun kv =>
    match parseKey kv.1 with
    | some (c, i) => predFileName kv.1 i kv.2
    | none => [])).Nodup

/-- The source document of scenario A: an actor with one embedded item and
an empty effects collection. -/
def srcDocA : J :=
  .obj [(sKey, .str "!actors!aaa".toList), (sId, .str "aaa".toList),
        (sName, .str "Hero".toList),
        ("items".toList, .arr [.obj [(sId, .str "i1".toList),
          (sKey, .str "!actors.items!aaa.i1".toList), (sName, .str "Sword".toList)]]),
        ("effects".toList, .arr [])]

/-- The value stored for the actor: _key removed, items reduced to bare id
references. -/
def storedActorA : J :=
  .obj [(sId, .str "aaa".toList), (sName, .str "Hero".toList),
        ("items".toList, .arr [.str "i1".toList]), ("effects".toList, .arr [])]

/-- The value stored for the embedded item: _key removed, its own effects
slot normalized to the empty array. -/
def storedItemA : J :=
  .obj [(sId, .str "i1".toList), (sName, .str "Sword".toList),
        ("effects".toList, .arr [])]

/-- The two-entry sorted-store pack of scenario A: the stored actor and its
stored embedded item, as the compile of srcDocA would write them. -/
def c1P : List (Str × J) :=
  [("!actors!aaa".toList, storedActorA),
   ("!actors.items!aaa.i1".toList, storedItemA)]

/-- The adventure document of scenario E. -/
def advDocE : J :=
  .obj [(sId, .str "adv1".toList), (sName, .str "Intro".toList),
        ("items".toList, .arr [.obj [(sId, .str "i1".toList),
          (sName, .str "Sword".toList)]])]

/-- The embedded item document written out by adventure expansion. -/
def itemDocE : J := .obj [(sId, .str "i1".toList), (sName, .str "Sword".toList)]

/-- The adventure document as written: the items collection replaced by the
relative path of the emitted file, the remaining adventure-embedded
collections set to empty path arrays. -/
def advOutE : J :=
  .obj [(sId, .str "adv1".toList), (sName, .str "Intro".toList),
        ("items".toList, .arr [.str "Sword_Item_i1.json".toList]),
        ("actors".toList, .arr []), ("cards".toList, .arr []),
        ("combats".toList, .arr []), ("folders".toList, .arr []),
        ("journal".toList, .arr []), ("playlists".toList, .arr []),
        ("scenes".toList, .arr []), ("tables".toList, .arr []),
        ("macros".toList, .arr [])]

/-- An embedded item with an _id and a modifiedTime stamp. -/
def c9Item (id : Str) (t : Int) : J :=
  .obj [(sId, .str id), (sStats, .obj [("modifiedTime".toList, .num t)])]

/-- Candidate actor: items x then y, both with stamp 0. -/
def c9cand : J :=
  .obj [(sId, .str "a".toList), (sStats, .obj []),
        ("items".toList, .arr [c9Item "x".toList 0, c9Item "y".toList 0]),
        ("effects".toList, .arr [])]

/-- Existing actor: the same items stored in the other order, y with stamp 7
then x with stamp 9. -/
def c9base : J :=
  .obj [(sId, .str "a".toList), (sStats, .obj []),
        ("items".toList, .arr [c9Item "y".toList 7, c9Item "x".toList 9]),
        ("effects".toList, .arr [])]

/-- The overlay result: the stamps are taken from the positionally
corresponding entries, so item x receives the stamp of item y and vice
versa. -/
def c9result : J :=
  .obj [(sId, .str "a".toList), (sStats, .obj []),
        ("items".toList, .arr [c9Item "x".toList 7, c9Item "y".toList 9]),
        ("effects".toList, .arr [])]

/-- The keep condition of the volatile-diff gate as the specification words
it: the existing file parsed to a truthy document, both the candidate and
the existing document contain _stats, overlaying every volatile field from
the existing document onto a clone of the candidate (recursively through the
hierarchy) succeeds, and the overlaid clone is deeply equal to the existing
document. -/
def volatileKeep (doc : J) (fileContent : Option J) (collection : Str) (fuel : Nat) : Bool :=
  match fileContent with
  | none => false
  | some base =>
    match truthy base, inJ sStats doc, inJ sStats base with
    | true, .ok true, .ok true =>
      (match overlayWalk base fuel doc collection none with
       | .ok copy =>
         (match testEquality base copy 0 with
          | .ok b => b
          | .error _ => false)
       | .error _ => false)
    | _, _, _ => false


/-- Two source files both bearing the composite key !actors!aaa. -/
def c3files : List J :=
  [J.obj [(sKey, J.str "!actors!aaa".toList), (sId, J.str "aaa".toList)],
   J.obj [(sKey, J.str "!actors!aaa".toList), (sId, J.str "aaa".toList)]]

/-- A sorted store holding one entry before the compile. -/
def c3store : List (Str × J) :=
  [("!actors!bbb".toList, J.obj [(sId, J.str "bbb".toList)])]

/-- The keys the compile of c3files walks. -/
def c3ks : List (Option J) :=
  [some (J.str "!actors!aaa".toList), some (J.str "!actors!aaa".toList)]

/-- Two folder documents: f2 nested inside f1. -/
def c10folders : List J :=
  [J.obj [(sId, J.str "f1".toList), (sName, J.str "Best".toList)],
   J.obj [(sId, J.str "f2".toList), (sName, J.str "Sub".toList),
          (sFolder, J.str "f1".toList)]]

/-- The descriptor map the first pass of buildFolderMap derives from
c10folders. -/
def c10m : List (Option J × FolderDesc) :=
  [(some (J.str "f1".toList),
    { fname := "Best_f1".toList, ffolder := none, ftype := none, fpath := [] }),
   (some (J.str "f2".toList),
    { fname := "Sub_f2".toList, ffolder := some (J.str "f1".toList), ftype := none,
      fpath := [] })]

/-- Write every catalog slot of a document in place: the common shape of the
hierarchy transformations (reference resolution, child unpacking, and the
id-stripping of the compile walk), each of which replaces the value of each
catalog slot by a function of the old value. -/
def slotWrite (T : (Str × Bool) → J → J) (rows : List (Str × Bool)) (d : J) : J :=
  rows.foldl (fun d nb => jSet d nb.1 (T nb ((jGet d nb.1).getD .null))) d

/-- The reference resolution of the extract walk: a string reference is
replaced by the store entry under the derived child key. -/
def resolveFn (P : List (Str × J)) (sub idv : Str) (e : J) (nm : Str) : J :=
  match e with
  | .str cid => (getAssoc P (mkKey (sub ++ '.' :: nm) (idv ++ '.' :: cid))).getD .null
  | _ => .null

/-- The slot transformation of mapHierarchy with the reference-resolving
callback: arrays resolve elementwise, a truthy single value resolves, a
falsy one becomes null. -/
def resolveT (P : List (Str × J)) (sub idv : Str) (nb : Str × Bool) (s : J) : J :=
  match nb.2, s with
  | true, .arr l => .arr (l.map (fun e => resolveFn P sub idv e nb.1))
  | true, _ => .arr []
  | false, s => if truthy s then resolveFn P sub idv s nb.1 else .null

/-- The slot transformation of the extract-side recursion: each resolved
child is replaced by its own unpacking, with the derived joined sublevel and
id; w is the recursion one fuel level down. -/
def inflTW (w : Str → Str → Str → J → J) (sub idv : Str) (nb : Str × Bool) (s : J) : J :=
  match nb.2, s with
  | true, .arr l => .arr (l.map (fun e =>
      w (keyJoin [sub, nb.1]) (keyJoin [idv, jIdStr e]) nb.1 e))
  | _, s => if truthy s then w (keyJoin [sub, nb.1]) (keyJoin [idv, jIdStr s]) nb.1 s
    else s

/-- The fully inflated source document the extract walk writes for a stored
subtree: the composite key assigned, references resolved through the store
and children recursively inflated. -/
def inflate (P : List (Str × J)) : Nat → Str → Str → Str → J → J
  | 0, _, _, _, v => v
  | fuel+1, sub, idv, c, v =>
    slotWrite (inflTW (inflate P fuel) sub idv) (HIERARCHY c)
      (slotWrite (resolveT P sub idv) (HIERARCHY c)
        (jSet v sKey (.str (mkKey sub idv))))

/-- The slot transformation of mapHierarchy with the id-stripping callback of
the compile walk: arrays become arrays of child ids, a truthy single value
its id, a falsy one null. -/
def stripT (nb : Str × Bool) (s : J) : J :=
  match nb.2, s with
  | true, .arr l => .arr (l.map (fun e => (jGet e sId).getD .null))
  | true, _ => .arr []
  | false, s => if truthy s then (jGet s sId).getD .null else .null

/-- The dichotomy a pack-walk step satisfies relative to its key
enumeration ks: started from any seen set and batch, it either succeeds,
prepending exactly the reversed keys to the seen set and appending to the
batch (when the keys are fresh and distinct), or throws a duplicate-key
error (when they are not). -/
def dichot (walkP : List (Option J) × List (Str × J) →
    Except CErr (List (Option J) × List (Str × J))) (ks : List (Option J)) : Prop :=
  ∀ (seen : List (Option J)) (batch : List (Str × J)),
    ((ks ++ seen).Nodup →
      ∃ b, walkP (seen, batch) = .ok (ks.reverse ++ seen, batch ++ b))
    ∧ (seen.Nodup → ¬ (ks ++ seen).Nodup →
      ∃ k, walkP (seen, batch) = .error (.dup k))

/-! ## Lemmas about splitting and joining -/

theorem except_ok_bind {E α β : Type} (a : α) (g : α → Except E β) :
    (Except.ok a >>= g) = g a := rfl

theorem except_error_bind {E α β : Type} (e : E) (g : α → Except E β) :
    ((Except.error e : Except E α) >>= g) = Except.error e := rfl

theorem except_pure_bind {E α β : Type} (a : α) (g : α → Except E β) :
    ((pure a : Except E α) >>= g) = g a := rfl

theorem bool_if_true {α : Type} (a b : α) : (if true = true then a else b) = a := rfl

theorem bool_if_false {α : Type} (a b : α) : (if false = true then a else b) = b := rfl

theorem splitChar_not_mem (c : Char) (a : Str) (ha : c ∉ a) : splitChar c a = [a] := by
  induction a with
  | nil => rfl
  | cons x xs ih =>
    have hx : ¬ x = c := by
      intro h; exact ha (by simp [h])
    have hxs : c ∉ xs := fun h => ha (List.mem_cons_of_mem _ h)
    simp [splitChar, hx, ih hxs]

theorem splitChar_append_sep (c : Char) (a b : Str) (ha : c ∉ a) :
    splitChar c (a ++ c :: b) = a :: splitChar c b := by
  induction a with
  | nil => simp [splitChar]
  | cons x xs ih =>
    have hx : ¬ x = c := by
      intro h; exact ha (by simp [h])
    have hxs : c ∉ xs := fun h => ha (List.mem_cons_of_mem _ h)
    simp [splitChar, hx, ih hxs]

theorem splitChar_joinChar (c : Char) (parts : List Str) (hne : parts ≠ [])
    (hall : ∀ p ∈ parts, c ∉ p) : splitChar c (joinChar c parts) = parts := by
  induction parts with
  | nil => exact absurd rfl hne
  | cons p rest ih =>
    cases rest with
    | nil => simpa [joinChar] using splitChar_not_mem c p (hall p (by simp))
    | cons q t =>
      have hp : c ∉ p := hall p (by simp)
      have hrest : ∀ x ∈ q :: t, c ∉ x := fun x hx => hall x (List.mem_cons_of_mem _ hx)
      have : joinChar c (p :: q :: t) = p ++ c :: joinChar c (q :: t) := rfl
      rw [this, splitChar_append_sep c p _ hp, ih (by simp) hrest]

theorem mem_joinChar {x : Char} {c : Char} {parts : List Str}
    (hx : x ∈ joinChar c parts) : x = c ∨ ∃ p ∈ parts, x ∈ p := by
  induction parts with
  | nil => simp [joinChar] at hx
  | cons p rest ih =>
    cases rest with
    | nil => exact Or.inr ⟨p, by simp, by simpa [joinChar] using hx⟩
    | cons q t =>
      have : joinChar c (p :: q :: t) = p ++ c :: joinChar c (q :: t) := rfl
      rw [this] at hx
      rcases List.mem_append.mp hx with h | h
      · exact Or.inr ⟨p, by simp, h⟩
      · rcases List.mem_cons.mp h with h | h
        · exact Or.inl h
        · rcases ih h with h | ⟨p', hp', hxp'⟩
          · exact Or.inl h
          · exact Or.inr ⟨p', List.mem_cons_of_mem _ hp', hxp'⟩

theorem keyJoin_all_nonempty (parts : List Str) (h : ∀ p ∈ parts, p ≠ []) :
    keyJoin parts = joinChar '.' parts := by
  unfold keyJoin
  congr 1
  apply List.filter_eq_self.mpr
  intro p hp
  simpa [List.isEmpty_iff] using h p hp

/-- C6 (counterexample): as stated, the codec round-trip fails at the empty
sublevel-part list (a list of non-empty parts, vacuously): the encoded key
has an empty sublevel component, splitting the empty string on dots yields
the one-element list holding the empty string, and the original empty list
is not recovered. -/
theorem c6_counterexample :
    decodeKey (encodeKey [] [['a']]) = some ([[]], [['a']]) ∧
    (decodeKey (encodeKey [] [['a']]) == some ([], [['a']])) = false :=
  ⟨rfl, rfl⟩

/-- C6 (amended): for every NON-EMPTY list of non-empty sublevel parts and
every NON-EMPTY list of non-empty id parts, none containing a bang or a dot,
the key codec round-trips: encoding as bang + dot-join + bang + dot-join and
then splitting on the first two bangs and then on dots recovers exactly the
two part lists. -/
theorem c6_codec_roundtrip (subs ids : List Str) (hs : subs ≠ []) (hi : ids ≠ [])
    (hsub : ∀ p ∈ subs, p ≠ [] ∧ '!' ∉ p ∧ '.' ∉ p)
    (hid : ∀ p ∈ ids, p ≠ [] ∧ '!' ∉ p ∧ '.' ∉ p) :
    decodeKey (encodeKey subs ids) = some (subs, ids) := by
  have hjs : keyJoin subs = joinChar '.' subs :=
    keyJoin_all_nonempty subs (fun p hp => (hsub p hp).1)
  have hji : keyJoin ids = joinChar '.' ids :=
    keyJoin_all_nonempty ids (fun p hp => (hid p hp).1)
  have hbs : '!' ∉ joinChar '.' subs := by
    intro hx
    rcases mem_joinChar hx with h | ⟨p, hp, hxp⟩
    · exact absurd h (by decide)
    · exact (hsub p hp).2.1 hxp
  have hbi : '!' ∉ joinChar '.' ids := by
    intro hx
    rcases mem_joinChar hx with h | ⟨p, hp, hxp⟩
    · exact absurd h (by decide)
    · exact (hid p hp).2.1 hxp
  have hsplit : splitChar '!' (mkKey (joinChar '.' subs) (joinChar '.' ids)) =
      [[], joinChar '.' subs, joinChar '.' ids] := by
    unfold mkKey
    have h1 : splitChar '!' (('!' :: joinChar '.' subs) ++ '!' :: joinChar '.' ids) =
        ([] : Str) :: splitChar '!' (joinChar '.' subs ++ '!' :: joinChar '.' ids) := by
      simp [splitChar]
    have h2 : splitChar '!' (joinChar '.' subs ++ '!' :: joinChar '.' ids) =
        joinChar '.' subs :: splitChar '!' (joinChar '.' ids) :=
      splitChar_append_sep '!' _ _ hbs
    have h3 : splitChar '!' (joinChar '.' ids) = [joinChar '.' ids] :=
      splitChar_not_mem '!' _ hbi
    simpa [h2, h3] using h1
  unfold encodeKey decodeKey
  rw [hjs, hji, hsplit]
  show some (splitChar '.' (joinChar '.' subs), splitChar '.' (joinChar '.' ids)) =
    some (subs, ids)
  rw [splitChar_joinChar '.' subs hs (fun p hp => (hsub p hp).2.2),
      splitChar_joinChar '.' ids hi (fun p hp => (hid p hp).2.2)]

/-- C6 (witness): the amended round-trip at a concrete key with one sublevel
part and two id parts. -/
theorem c6_codec_roundtrip_witness :
    decodeKey (encodeKey [['a']] [['b'], ['c']]) = some ([['a']], [['b'], ['c']]) :=
  c6_codec_roundtrip [['a']] [['b'], ['c']] (by decide) (by decide)
    (by decide) (by decide)

/-! ## The field algebra of documents -/

theorem getAssoc_setAssoc_self (f : List (Str × J)) (k : Str) (v : J) :
    getAssoc (setAssoc f k v) k = some v := by
  induction f with
  | nil => simp [setAssoc, getAssoc]
  | cons e t ih =>
    obtain ⟨k', v'⟩ := e
    by_cases h : k' = k
    · simp [setAssoc, h, getAssoc]
    · simp [setAssoc, h, getAssoc, ih]

theorem getAssoc_setAssoc_ne (f : List (Str × J)) (k k2 : Str) (v : J) (h : k2 ≠ k) :
    getAssoc (setAssoc f k v) k2 = getAssoc f k2 := by
  induction f with
  | nil => simp [setAssoc, getAssoc, Ne.symm h]
  | cons e t ih =>
    obtain ⟨k', v'⟩ := e
    by_cases hk : k' = k
    · subst hk
      simp [setAssoc, getAssoc, Ne.symm h]
    · by_cases hk2 : k' = k2
      · simp [setAssoc, hk, getAssoc, hk2, h]
      · simp [setAssoc, hk, getAssoc, hk2, ih]

theorem setAssoc_of_getAssoc_eq (f : List (Str × J)) (k : Str) (v : J)
    (h : getAssoc f k = some v) : setAssoc f k v = f := by
  induction f with
  | nil => cases h
  | cons e t ih =>
    obtain ⟨k', v'⟩ := e
    by_cases hk : k' = k
    · subst hk
      simp [getAssoc] at h
      simp [setAssoc, h]
    · simp [getAssoc, hk] at h
      simp [setAssoc, hk, ih h]

theorem delAssoc_setAssoc_absent (f : List (Str × J)) (k : Str) (v : J)
    (h : getAssoc f k = none) : delAssoc (setAssoc f k v) k = f := by
  induction f with
  | nil => simp [setAssoc, delAssoc]
  | cons e t ih =>
    obtain ⟨k', v'⟩ := e
    by_cases hk : k' = k
    · subst hk; simp [getAssoc] at h
    · simp [getAssoc, hk] at h
      simp [setAssoc, hk, delAssoc, ih h]

theorem setAssoc_comm (f : List (Str × J)) (k1 k2 : Str) (v1 v2 : J) (hne : k1 ≠ k2)
    (h1 : (getAssoc f k1).isSome = true) :
    setAssoc (setAssoc f k1 v1) k2 v2 = setAssoc (setAssoc f k2 v2) k1 v1 := by
  induction f with
  | nil => simp [getAssoc] at h1
  | cons e t ih =>
    obtain ⟨k', v'⟩ := e
    by_cases ha : k' = k1
    · subst ha
      simp [setAssoc, hne, Ne.symm hne]
    · by_cases hb : k' = k2
      · subst hb
        simp [getAssoc, ha] at h1
        simp [setAssoc, ha, Ne.symm hne, ih h1]
      · simp [getAssoc, ha] at h1
        simp [setAssoc, ha, hb, ih h1]

theorem jGet_jSet_self (f : List (Str × J)) (k : Str) (v : J) :
    jGet (jSet (.obj f) k v) k = some v := getAssoc_setAssoc_self f k v

theorem jGet_jSet_ne (f : List (Str × J)) (k k2 : Str) (v : J) (h : k2 ≠ k) :
    jGet (jSet (.obj f) k v) k2 = getAssoc f k2 := getAssoc_setAssoc_ne f k k2 v h

theorem setAssoc_setAssoc_same (f : List (Str × J)) (k : Str) (a b : J) :
    setAssoc (setAssoc f k a) k b = setAssoc f k b := by
  induction f with
  | nil => simp [setAssoc]
  | cons e t ih =>
    obtain ⟨k', v'⟩ := e
    by_cases h : k' = k
    · simp [setAssoc, h]
    · simp [setAssoc, h, ih]

theorem getAssoc_delAssoc_ne (f : List (Str × J)) (k k2 : Str) (h : k ≠ k2) :
    getAssoc (delAssoc f k2) k = getAssoc f k := by
  induction f with
  | nil => rfl
  | cons e t ih =>
    obtain ⟨k', v'⟩ := e
    by_cases h2 : k' = k2
    · subst h2
      simp [delAssoc, getAssoc, Ne.symm h]
    · by_cases hk : k' = k
      · simp [delAssoc, h2, getAssoc, hk, h]
      · simp [delAssoc, h2, getAssoc, hk, ih]

theorem delAssoc_setAssoc_comm (f : List (Str × J)) (k k2 : Str) (v : J) (h : k ≠ k2) :
    delAssoc (setAssoc f k v) k2 = setAssoc (delAssoc f k2) k v := by
  induction f with
  | nil => simp [setAssoc, delAssoc, h, Ne.symm h]
  | cons e t ih =>
    obtain ⟨k', v'⟩ := e
    by_cases hk : k' = k
    · subst hk
      simp [setAssoc, delAssoc, Ne.symm h, h]
    · by_cases h2 : k' = k2
      · subst h2
        simp [setAssoc, hk, delAssoc, Ne.symm hk]
      · simp [setAssoc, hk, delAssoc, h2, ih]

theorem jGet_jSet_ne_any (d : J) (k k2 : Str) (v : J) (h : k2 ≠ k) :
    jGet (jSet d k v) k2 = jGet d k2 := by
  cases d with
  | obj f => exact getAssoc_setAssoc_ne f k k2 v h
  | null => rfl
  | bool b => rfl
  | num n => rfl
  | str s => rfl
  | arr l => rfl

theorem jSet_jSet_same (d : J) (k : Str) (a b : J) :
    jSet (jSet d k a) k b = jSet d k b := by
  cases d with
  | obj f => show J.obj (setAssoc (setAssoc f k a) k b) = _
             rw [setAssoc_setAssoc_same]
             rfl
  | null => rfl
  | bool b2 => rfl
  | num n => rfl
  | str s => rfl
  | arr l => rfl

theorem jGet_some_obj (d : J) (k : Str) (h : (jGet d k).isSome = true) :
    ∃ f, d = .obj f := by
  cases d with
  | obj f => exact ⟨f, rfl⟩
  | null => simp [jGet] at h
  | bool b => simp [jGet] at h
  | num n => simp [jGet] at h
  | str s => simp [jGet] at h
  | arr l => simp [jGet] at h

theorem jGet_jSet_self_any (d : J) (k : Str) (v : J) (h : (jGet d k).isSome = true) :
    jGet (jSet d k v) k = some v := by
  obtain ⟨f, rfl⟩ := jGet_some_obj d k h
  exact getAssoc_setAssoc_self f k v

theorem jSet_comm (d : J) (k1 k2 : Str) (v1 v2 : J) (hne : k1 ≠ k2)
    (h1 : (jGet d k1).isSome = true) :
    jSet (jSet d k1 v1) k2 v2 = jSet (jSet d k2 v2) k1 v1 := by
  obtain ⟨f, rfl⟩ := jGet_some_obj d k1 h1
  exact congrArg J.obj (setAssoc_comm f k1 k2 v1 v2 hne h1)

theorem jSet_of_jGet_eq (d : J) (k : Str) (v : J) (h : jGet d k = some v) :
    jSet d k v = d := by
  obtain ⟨f, rfl⟩ := jGet_some_obj d k (by rw [h]; rfl)
  exact congrArg J.obj (setAssoc_of_getAssoc_eq f k v h)

theorem jDel_jSet_comm (d : J) (k k2 : Str) (v : J) (h : k ≠ k2) :
    jDel (jSet d k v) k2 = jSet (jDel d k2) k v := by
  cases d with
  | obj f => exact congrArg J.obj (delAssoc_setAssoc_comm f k k2 v h)
  | null => rfl
  | bool b => rfl
  | num n => rfl
  | str s => rfl
  | arr l => rfl

theorem jGet_jDel_ne (d : J) (k k2 : Str) (h : k ≠ k2) :
    jGet (jDel d k2) k = jGet d k := by
  cases d with
  | obj f => exact getAssoc_delAssoc_ne f k k2 h
  | null => rfl
  | bool b => rfl
  | num n => rfl
  | str s => rfl
  | arr l => rfl

theorem isSome_jSet (d : J) (k k2 : Str) (v : J) (h : (jGet d k).isSome = true) :
    (jGet (jSet d k2 v) k).isSome = true := by
  by_cases hk : k = k2
  · subst hk
    rw [jGet_jSet_self_any d k v h]
    rfl
  · rw [jGet_jSet_ne_any d k2 k v hk]
    exact h

/-! ## Slotwise rewriting of the hierarchy slots -/

theorem slotWrite_nil (T : (Str × Bool) → J → J) (d : J) : slotWrite T [] d = d := rfl

theorem slotWrite_cons (T : (Str × Bool) → J → J) (r : Str × Bool) (rest : List (Str × Bool))
    (d : J) : slotWrite T (r :: rest) d =
      slotWrite T rest (jSet d r.1 (T r ((jGet d r.1).getD .null))) := rfl

theorem slotWrite_read_ne (T : (Str × Bool) → J → J) (rows : List (Str × Bool)) :
    ∀ (d : J) (nm : Str), (∀ nb ∈ rows, nb.1 ≠ nm) →
      jGet (slotWrite T rows d) nm = jGet d nm := by
  induction rows with
  | nil => intro d nm _; rfl
  | cons r rest ih =>
    intro d nm h
    rw [slotWrite_cons, ih _ nm (fun nb hnb => h nb (List.mem_cons_of_mem r hnb)),
      jGet_jSet_ne_any d r.1 nm _ (fun he => h r (List.mem_cons_self r rest) he.symm)]

theorem slotWrite_jSet_comm (T : (Str × Bool) → J → J) (rows : List (Str × Bool)) :
    ∀ (d : J) (nm : Str) (y : J), (∀ nb ∈ rows, nb.1 ≠ nm) →
      (∀ nb ∈ rows, (jGet d nb.1).isSome = true) →
      slotWrite T rows (jSet d nm y) = jSet (slotWrite T rows d) nm y := by
  induction rows with
  | nil => intro d nm y _ _; rfl
  | cons r rest ih =>
    intro d nm y hn hp
    rw [slotWrite_cons, slotWrite_cons,
      jGet_jSet_ne_any d nm r.1 y (fun he => hn r (List.mem_cons_self r rest) he),
      ← jSet_comm d r.1 nm _ y (fun he => hn r (List.mem_cons_self r rest) he)
        (hp r (List.mem_cons_self r rest)),
      ih (jSet d r.1 (T r ((jGet d r.1).getD .null))) nm y
        (fun nb hnb => hn nb (List.mem_cons_of_mem r hnb))
        (fun nb hnb => isSome_jSet d nb.1 r.1 _ (hp nb (List.mem_cons_of_mem r hnb)))]

theorem slotWrite_comp (T1 T2 : (Str × Bool) → J → J) (rows : List (Str × Bool)) :
    ∀ (d : J), (rows.map Prod.fst).Nodup →
      (∀ nb ∈ rows, (jGet d nb.1).isSome = true) →
      slotWrite T2 rows (slotWrite T1 rows d) =
        slotWrite (fun nb s => T2 nb (T1 nb s)) rows d := by
  induction rows with
  | nil => intro d _ _; rfl
  | cons r rest ih =>
    intro d hnd hp
    have hrmem := hp r (List.mem_cons_self r rest)
    have hnd2 : r.1 ∉ rest.map Prod.fst ∧ (rest.map Prod.fst).Nodup := by
      rw [List.map_cons] at hnd
      exact List.nodup_cons.mp hnd
    have hrne : ∀ nb ∈ rest, nb.1 ≠ r.1 := by
      intro nb hnb he
      exact hnd2.1 (he ▸ List.mem_map_of_mem Prod.fst hnb)
    have hprest : ∀ nb ∈ rest, (jGet (jSet d r.1 (T1 r ((jGet d r.1).getD .null))) nb.1).isSome
        = true :=
      fun nb hnb => isSome_jSet d nb.1 r.1 _ (hp nb (List.mem_cons_of_mem r hnb))
    rw [slotWrite_cons, slotWrite_cons,
      slotWrite_read_ne T1 rest _ r.1 hrne,
      jGet_jSet_self_any d r.1 _ hrmem]
    rw [show ((some (T1 r ((jGet d r.1).getD .null))).getD J.null)
        = T1 r ((jGet d r.1).getD .null) from rfl]
    rw [← slotWrite_jSet_comm T1 rest (jSet d r.1 (T1 r ((jGet d r.1).getD .null))) r.1
        _ hrne hprest,
      jSet_jSet_same,
      ih (jSet d r.1 (T2 r (T1 r ((jGet d r.1).getD .null))))
        hnd2.2
        (fun nb hnb => isSome_jSet d nb.1 r.1 _ (hp nb (List.mem_cons_of_mem r hnb)))]
    rw [slotWrite_cons]

theorem slotWrite_id (T : (Str × Bool) → J → J) (rows : List (Str × Bool)) :
    ∀ (d : J), (∀ nb ∈ rows, (jGet d nb.1).isSome = true) →
      (∀ nb ∈ rows, T nb ((jGet d nb.1).getD .null) = (jGet d nb.1).getD .null) →
      slotWrite T rows d = d := by
  induction rows with
  | nil => intro d _ _; rfl
  | cons r rest ih =>
    intro d hp hid
    have hr := hp r (List.mem_cons_self r rest)
    have hsame : jSet d r.1 (T r ((jGet d r.1).getD .null)) = d := by
      rw [hid r (List.mem_cons_self r rest)]
      apply jSet_of_jGet_eq
      cases hg : jGet d r.1 with
      | none => rw [hg] at hr; cases hr
      | some s => rfl
    rw [slotWrite_cons, hsame,
      ih d (fun nb hnb => hp nb (List.mem_cons_of_mem r hnb))
        (fun nb hnb => hid nb (List.mem_cons_of_mem r hnb))]

theorem slotWrite_read_mem (T : (Str × Bool) → J → J) (rows : List (Str × Bool)) :
    ∀ (d : J) (nb : Str × Bool), (rows.map Prod.fst).Nodup → nb ∈ rows →
      (∀ r ∈ rows, (jGet d r.1).isSome = true) →
      jGet (slotWrite T rows d) nb.1 = some (T nb ((jGet d nb.1).getD .null)) := by
  induction rows with
  | nil => intro d nb _ h _; cases h
  | cons r rest ih =>
    intro d nb hnd hmem hp
    have hnd2 : r.1 ∉ rest.map Prod.fst ∧ (rest.map Prod.fst).Nodup := by
      rw [List.map_cons] at hnd
      exact List.nodup_cons.mp hnd
    have hrne : ∀ x ∈ rest, x.1 ≠ r.1 := by
      intro x hx he
      exact hnd2.1 (he ▸ List.mem_map_of_mem Prod.fst hx)
    rcases List.mem_cons.mp hmem with he | hmem2
    · subst he
      rw [slotWrite_cons, slotWrite_read_ne T rest _ nb.1 hrne,
        jGet_jSet_self_any d nb.1 _ (hp nb (List.mem_cons_self nb rest))]
    · have hne : nb.1 ≠ r.1 := hrne nb hmem2
      rw [slotWrite_cons,
        ih (jSet d r.1 (T r ((jGet d r.1).getD .null))) nb
          hnd2.2 hmem2
          (fun x hx => isSome_jSet d x.1 r.1 _ (hp x (List.mem_cons_of_mem r hx))),
        jGet_jSet_ne_any d r.1 nb.1 _ hne]

theorem slotWrite_jDel_comm (T : (Str × Bool) → J → J) (rows : List (Str × Bool)) :
    ∀ (d : J) (k2 : Str), (∀ nb ∈ rows, nb.1 ≠ k2) →
      jDel (slotWrite T rows d) k2 = slotWrite T rows (jDel d k2) := by
  induction rows with
  | nil => intro d k2 _; rfl
  | cons r rest ih =>
    intro d k2 hn
    rw [slotWrite_cons, slotWrite_cons,
      ih _ k2 (fun nb hnb => hn nb (List.mem_cons_of_mem r hnb)),
      jDel_jSet_comm d r.1 k2 _ (hn r (List.mem_cons_self r rest)),
      jGet_jDel_ne d r.1 k2 (hn r (List.mem_cons_self r rest))]

theorem slotWrite_obj (T : (Str × Bool) → J → J) (rows : List (Str × Bool)) :
    ∀ (f : List (Str × J)), ∃ g, slotWrite T rows (.obj f) = .obj g := by
  induction rows with
  | nil => intro f; exact ⟨f, rfl⟩
  | cons r rest ih =>
    intro f
    rw [slotWrite_cons]
    exact ih (setAssoc f r.1 (T r ((getAssoc f r.1).getD .null)))

/-! ## The hierarchy catalog -/

/-- Every catalog row belongs to the master list of rows. -/
theorem hierarchy_sub (c : Str) : ∀ nb ∈ HIERARCHY c,
    nb ∈ ([("items".toList, true), ("effects".toList, true), ("cards".toList, true),
      ("combatants".toList, true), ("groups".toList, true), ("pages".toList, true),
      ("categories".toList, true), ("sounds".toList, true), ("behaviors".toList, true),
      ("results".toList, true), ("delta".toList, false), ("drawings".toList, true),
      ("tokens".toList, true), ("lights".toList, true), ("notes".toList, true),
      ("regions".toList, true), ("templates".toList, true), ("tiles".toList, true),
      ("walls".toList, true)] : List (Str × Bool)) := by
  intro nb hnb
  unfold HIERARCHY at hnb
  by_cases h1 : c = "actors".toList
  · rw [if_pos h1] at hnb
    fin_cases hnb <;> decide
  · rw [if_neg h1] at hnb
    by_cases h2 : c = "cards".toList
    · rw [if_pos h2] at hnb
      fin_cases hnb <;> decide
    · rw [if_neg h2] at hnb
      by_cases h3 : c = "combats".toList
      · rw [if_pos h3] at hnb
        fin_cases hnb <;> decide
      · rw [if_neg h3] at hnb
        by_cases h4 : c = "delta".toList
        · rw [if_pos h4] at hnb
          fin_cases hnb <;> decide
        · rw [if_neg h4] at hnb
          by_cases h5 : c = "items".toList
          · rw [if_pos h5] at hnb
            fin_cases hnb <;> decide
          · rw [if_neg h5] at hnb
            by_cases h6 : c = "journal".toList
            · rw [if_pos h6] at hnb
              fin_cases hnb <;> decide
            · rw [if_neg h6] at hnb
              by_cases h7 : c = "playlists".toList
              · rw [if_pos h7] at hnb
                fin_cases hnb <;> decide
              · rw [if_neg h7] at hnb
                by_cases h8 : c = "regions".toList
                · rw [if_pos h8] at hnb
                  fin_cases hnb <;> decide
                · rw [if_neg h8] at hnb
                  by_cases h9 : c = "tables".toList
                  · rw [if_pos h9] at hnb
                    fin_cases hnb <;> decide
                  · rw [if_neg h9] at hnb
                    by_cases h10 : c = "tokens".toList
                    · rw [if_pos h10] at hnb
                      fin_cases hnb <;> decide
                    · rw [if_neg h10] at hnb
                      by_cases h11 : c = "scenes".toList
                      · rw [if_pos h11] at hnb
                        fin_cases hnb <;> decide
                      · rw [if_neg h11] at hnb
                        cases hnb

set_option maxHeartbeats 1000000 in
theorem hierarchy_names (c : Str) : ∀ nb ∈ HIERARCHY c,
    nb.1 ≠ [] ∧ ¬ '!' ∈ nb.1 ∧ nb.1 ≠ sKey ∧ nb.1 ≠ sId ∧ nb.1 ≠ sName := by
  intro nb hnb
  have h := hierarchy_sub c nb hnb
  fin_cases h <;> decide

set_option maxHeartbeats 1000000 in
theorem hierarchy_nodup (c : Str) : ((HIERARCHY c).map Prod.fst).Nodup := by
  unfold HIERARCHY
  by_cases h1 : c = "actors".toList
  · rw [if_pos h1]
    decide
  · rw [if_neg h1]
    by_cases h2 : c = "cards".toList
    · rw [if_pos h2]
      decide
    · rw [if_neg h2]
      by_cases h3 : c = "combats".toList
      · rw [if_pos h3]
        decide
      · rw [if_neg h3]
        by_cases h4 : c = "delta".toList
        · rw [if_pos h4]
          decide
        · rw [if_neg h4]
          by_cases h5 : c = "items".toList
          · rw [if_pos h5]
            decide
          · rw [if_neg h5]
            by_cases h6 : c = "journal".toList
            · rw [if_pos h6]
              decide
            · rw [if_neg h6]
              by_cases h7 : c = "playlists".toList
              · rw [if_pos h7]
                decide
              · rw [if_neg h7]
                by_cases h8 : c = "regions".toList
                · rw [if_pos h8]
                  decide
                · rw [if_neg h8]
                  by_cases h9 : c = "tables".toList
                  · rw [if_pos h9]
                    decide
                  · rw [if_neg h9]
                    by_cases h10 : c = "tokens".toList
                    · rw [if_pos h10]
                      decide
                    · rw [if_neg h10]
                      by_cases h11 : c = "scenes".toList
                      · rw [if_pos h11]
                        decide
                      · rw [if_neg h11]
                        decide

/-! ## Composite keys -/

theorem keyJoin_nil_left (c : Str) : keyJoin [[], c] = c := by
  by_cases h : c = []
  · subst h; rfl
  · simp [keyJoin, List.filter, h, joinChar]
    rw [show (List.isEmpty c = false) from by simpa [List.isEmpty_iff] using h]
    rfl

theorem keyJoin_cons2 (s t : Str) (hs : s ≠ []) (ht : t ≠ []) :
    keyJoin [s, t] = s ++ '.' :: t := by
  simp only [keyJoin, List.filter]
  rw [show (List.isEmpty s = false) from by simpa [List.isEmpty_iff] using hs,
    show (List.isEmpty t = false) from by simpa [List.isEmpty_iff] using ht]
  rfl

theorem split_mkKey (sub idv : Str) (hs : ¬ '!' ∈ sub) (hi : ¬ '!' ∈ idv) :
    splitChar '!' (mkKey sub idv) = [[], sub, idv] := by
  show splitChar '!' ('!' :: (sub ++ '!' :: idv)) = _
  rw [show splitChar '!' ('!' :: (sub ++ '!' :: idv)) =
      [] :: splitChar '!' (sub ++ '!' :: idv) from by simp [splitChar],
    splitChar_append_sep '!' sub idv hs, splitChar_not_mem '!' idv hi]

theorem parseKey_mkKey (sub idv : Str) (hs : ¬ '!' ∈ sub) (hi : ¬ '!' ∈ idv)
    (hsub : sub ≠ []) (hidv : idv ≠ []) :
    parseKey (mkKey sub idv) = some (sub, idv) := by
  simp only [parseKey, split_mkKey sub idv hs hi]
  rw [show (List.isEmpty sub = false) from by simpa [List.isEmpty_iff] using hsub,
    show (List.isEmpty idv = false) from by simpa [List.isEmpty_iff] using hidv]
  rfl

theorem strStarts_stop (pre c i : Str) (hpre : ¬ '!' ∈ pre) :
    strStarts pre (c ++ '!' :: i) = strStarts pre c := by
  induction pre generalizing c with
  | nil => rfl
  | cons a as ih =>
    cases c with
    | nil =>
      have ha : (a == '!') = false := by
        simp only [beq_eq_false_iff_ne]
        intro h
        exact hpre (h ▸ List.mem_cons_self a as)
      simp [strStarts, ha]
    | cons b bs =>
      show (a == b && strStarts as (bs ++ '!' :: i)) = (a == b && strStarts as bs)
      rw [ih bs (fun h => hpre (List.mem_cons_of_mem a h))]

/-! ## Concrete scenarios: the single-actor compile, the backend dispatch,
and adventure expansion -/

/-- C2: compiling the single source document of scenario A into an empty
sorted store succeeds and stores exactly the keys bang-actors-bang-aaa and
bang-actors.items-bang-aaa.i1; the former's items field is the array of the
single id reference and its effects field the empty array, and neither
stored value contains a _key field. -/
theorem c2_compile_single_actor :
    compileRun 10 [] [srcDocA] =
      ([("!actors!aaa".toList, storedActorA), ("!actors.items!aaa.i1".toList, storedItemA)],
        none) ∧
    jGet storedActorA "items".toList = some (.arr [.str "i1".toList]) ∧
    jGet storedActorA "effects".toList = some (.arr []) ∧
    jGet storedActorA sKey = none ∧ jGet storedItemA sKey = none :=
  ⟨rfl, rfl, rfl, rfl, rfl⟩

/-- C7: the backend dispatch of extractPack with nedb set runs the log-store
extraction and then, missing an else, unconditionally the sorted-store
extraction on the same source; the sorted store is opened on the .db source
path. -/
theorem c7_backends_nedb :
    extractBackendsUsed true = [Backend.logStore, Backend.sortedStore] ∧
    (extractBackendsUsed true).contains Backend.sortedStore = true :=
  ⟨rfl, rfl⟩

/-- C8 (counterexample): expanding the adventure of scenario E writes the
embedded item to Sword_Item_i1.json (the default embedded filename carries
an underscore-joined document-type suffix when the folders option is off),
so no file named Sword_i1.json is produced. -/
theorem c8_counterexample :
    extractAdventure advDocE false [] 10 =
      .ok [("Sword_Item_i1.json".toList, itemDocE), ("Intro_adv1.json".toList, advOutE)] ∧
    (["Sword_Item_i1.json".toList, "Intro_adv1.json".toList].contains
      "Sword_i1.json".toList) = false :=
  ⟨rfl, rfl⟩

/-- C8 (amended): extracting the adventure of scenario E with
expandAdventures on, folders off and json serialization produces the file
Intro_adv1.json whose items field holds exactly the relative path of the
emitted item file, and a sibling file of that name, Sword_Item_i1.json,
containing the item document. -/
theorem c8_adventure_expansion :
    extractAdventure advDocE false [] 10 =
      .ok [("Sword_Item_i1.json".toList, itemDocE), ("Intro_adv1.json".toList, advOutE)] ∧
    jGet advOutE "items".toList = some (.arr [.str "Sword_Item_i1.json".toList]) :=
  ⟨rfl, rfl⟩

/-! ## Duplicate keys abort the sorted-store compile -/

theorem except_map_ok {E α β : Type} (f : α → β) (a : α) :
    (Except.ok a : Except E α).map f = .ok (f a) := rfl

theorem except_map_error {E α β : Type} (f : α → β) (e : E) :
    (Except.error e : Except E α).map f = .error e := rfl

theorem contains_eq_mem {α : Type} [DecidableEq α] (l : List α) (a : α) :
    l.contains a = decide (a ∈ l) := by
  induction l with
  | nil => simp
  | cons x t ih => simp [List.contains_cons, ih, beq_iff_eq, eq_comm]

theorem stWalkElems_append
    (walk : J → Str → List (Option J) → Except CErr (List (Option J)))
    (hwalk : ∀ e nm acc, walk e nm acc = (walk e nm []).map (acc ++ ·)) (nm : Str) :
    ∀ (l : List J) (acc : List (Option J)),
      stWalkElems walk nm l acc = (stWalkElems walk nm l []).map (acc ++ ·) := by
  intro l
  induction l with
  | nil =>
    intro acc
    show (Except.ok acc : Except CErr (List (Option J))) =
      (Except.ok ([] : List (Option J))).map (acc ++ ·)
    rw [except_map_ok]
    simp
  | cons e es ih =>
    intro acc
    have lhs : stWalkElems walk nm (e :: es) acc =
        (walk e nm acc >>= fun st' => stWalkElems walk nm es st') := rfl
    have rhs : stWalkElems walk nm (e :: es) [] =
        (walk e nm [] >>= fun st' => stWalkElems walk nm es st') := rfl
    rw [lhs, rhs, hwalk e nm acc]
    cases h0 : walk e nm [] with
    | error err => rfl
    | ok ks1 =>
      rw [except_map_ok, except_ok_bind, except_ok_bind, ih (acc ++ ks1), ih ks1]
      cases h1 : stWalkElems walk nm es [] with
      | error err => rfl
      | ok ks2 =>
        rw [except_map_ok, except_map_ok, except_map_ok]
        simp [List.append_assoc]

theorem except_pure_append (acc : List (Option J)) :
    (Except.ok acc : Except CErr (List (Option J))) =
      (Except.ok ([] : List (Option J))).map (acc ++ ·) := by
  rw [except_map_ok]
  simp

theorem stWalkRows_append
    (walk : J → Str → List (Option J) → Except CErr (List (Option J)))
    (hwalk : ∀ e nm acc, walk e nm acc = (walk e nm []).map (acc ++ ·)) (doc : J) :
    ∀ (rows : List (Str × Bool)) (acc : List (Option J)),
      stWalkRows walk doc rows acc = (stWalkRows walk doc rows []).map (acc ++ ·) := by
  intro rows
  induction rows with
  | nil => intro acc; exact except_pure_append acc
  | cons nb rest ih =>
    intro acc
    obtain ⟨nm, ar⟩ := nb
    have hsingle : ∀ (ev? : Option J),
        (∀ acc', stWalkRows walk doc ((nm, ar) :: rest) acc' =
          (if truthyO ev? = true then
            (walk (ev?.getD J.null) nm acc' >>= fun st' => stWalkRows walk doc rest st')
           else (pure acc' >>= fun st' => stWalkRows walk doc rest st'))) →
        stWalkRows walk doc ((nm, ar) :: rest) acc =
          (stWalkRows walk doc ((nm, ar) :: rest) []).map (acc ++ ·) := by
      intro ev? hred
      rw [hred acc, hred []]
      cases ht : truthyO ev? with
      | false =>
        rw [bool_if_false, bool_if_false, except_pure_bind, except_pure_bind, ih acc, ih []]
      | true =>
        rw [bool_if_true, bool_if_true, hwalk (ev?.getD .null) nm acc]
        cases h0 : walk (ev?.getD .null) nm [] with
        | error err => rfl
        | ok ks1 =>
          rw [except_map_ok, except_ok_bind, except_ok_bind, ih (acc ++ ks1), ih ks1]
          cases h1 : stWalkRows walk doc rest [] with
          | error err => rfl
          | ok ks2 =>
            rw [except_map_ok, except_map_ok, except_map_ok]
            simp [List.append_assoc]
    cases ar with
    | true =>
      cases hg : jGet doc nm with
      | none => exact hsingle none (fun acc' => by simp only [stWalkRows, hg])
      | some v =>
        cases v with
        | arr l =>
          have e1 : stWalkRows walk doc ((nm, true) :: rest) acc =
              (stWalkElems walk nm l acc >>= fun st' => stWalkRows walk doc rest st') := by
            simp only [stWalkRows, hg]
          have e2 : stWalkRows walk doc ((nm, true) :: rest) [] =
              (stWalkElems walk nm l [] >>= fun st' => stWalkRows walk doc rest st') := by
            simp only [stWalkRows, hg]
          rw [e1, e2, stWalkElems_append walk hwalk nm l acc]
          cases h0 : stWalkElems walk nm l [] with
          | error err => rfl
          | ok ks1 =>
            rw [except_map_ok, except_ok_bind, except_ok_bind, ih (acc ++ ks1), ih ks1]
            cases h1 : stWalkRows walk doc rest [] with
            | error err => rfl
            | ok ks2 =>
              rw [except_map_ok, except_map_ok, except_map_ok]
              simp [List.append_assoc]
        | null => exact hsingle (some .null) (fun acc' => by simp only [stWalkRows, hg])
        | bool b =>
          exact hsingle (some (.bool b)) (fun acc' => by simp only [stWalkRows, hg])
        | num n =>
          exact hsingle (some (.num n)) (fun acc' => by simp only [stWalkRows, hg])
        | str s2 =>
          exact hsingle (some (.str s2)) (fun acc' => by simp only [stWalkRows, hg])
        | obj f =>
          exact hsingle (some (.obj f)) (fun acc' => by simp only [stWalkRows, hg])
    | false =>
      cases hg : jGet doc nm with
      | none => exact hsingle none (fun acc' => by simp only [stWalkRows, hg])
      | some v =>
        cases v with
        | arr l =>
          exact hsingle (some (.arr l)) (fun acc' => by simp only [stWalkRows, hg])
        | null => exact hsingle (some .null) (fun acc' => by simp only [stWalkRows, hg])
        | bool b =>
          exact hsingle (some (.bool b)) (fun acc' => by simp only [stWalkRows, hg])
        | num n =>
          exact hsingle (some (.num n)) (fun acc' => by simp only [stWalkRows, hg])
        | str s2 =>
          exact hsingle (some (.str s2)) (fun acc' => by simp only [stWalkRows, hg])
        | obj f =>
          exact hsingle (some (.obj f)) (fun acc' => by simp only [stWalkRows, hg])

theorem walkKeysSt_append : ∀ (fuel : Nat) (doc : J) (c : Str) (acc : List (Option J)),
    walkKeysSt fuel doc c acc = (walkKeysSt fuel doc c []).map (acc ++ ·) := by
  intro fuel
  induction fuel with
  | zero => intro doc c acc; rfl
  | succ n ih =>
    intro doc c acc
    have lhs : ∀ acc', walkKeysSt (n+1) doc c acc' =
        (match jGet doc sKey with
         | some (.str _) =>
           stWalkRows (walkKeysSt n) (jDel doc sKey) (HIERARCHY c) (acc' ++ [jGet doc sKey])
         | _ => throw CErr.typeErr) := fun acc' => rfl
    rw [lhs acc, lhs []]
    cases hk : jGet doc sKey with
    | none => rfl
    | some kv =>
      cases kv with
      | str s =>
        rw [stWalkRows_append (walkKeysSt n) ih (jDel doc sKey) (HIERARCHY c)
            (acc ++ [some (J.str s)]),
          stWalkRows_append (walkKeysSt n) ih (jDel doc sKey) (HIERARCHY c)
            ([] ++ [some (J.str s)])]
        cases h0 : stWalkRows (walkKeysSt n) (jDel doc sKey) (HIERARCHY c) [] with
        | error err => rfl
        | ok ks =>
          rw [except_map_ok, except_map_ok, except_map_ok]
          simp
      | null => rfl
      | bool b => rfl
      | num m => rfl
      | arr l => rfl
      | obj f => rfl

theorem perm_shuffle {α : Type} (a b c : List α) :
    List.Perm ((a ++ b) ++ c) (b ++ (a.reverse ++ c)) := by
  have h1 : List.Perm ((a ++ b) ++ c) ((b ++ a) ++ c) :=
    (List.perm_append_comm).append_right c
  have h2 : List.Perm ((b ++ a) ++ c) (b ++ (a.reverse ++ c)) := by
    rw [List.append_assoc]
    exact List.Perm.append_left b ((List.reverse_perm a).symm.append_right c)
  exact h1.trans h2

theorem nodup_outer_of_append {α : Type} {a b c : List α} (h : ((a ++ b) ++ c).Nodup) :
    (a ++ c).Nodup := by
  have hs : List.Sublist (a ++ c) ((a ++ b) ++ c) := by
    rw [List.append_assoc]
    exact (List.sublist_append_right b c).append_left a
  exact hs.nodup h

/-- The dichotomy transported through the element loop: if the key
enumeration of a list of embedded documents succeeds, the pack walk over the
same list either extends the seen set by exactly those keys (when they are
fresh and distinct) or throws a duplicate-key error (when they are not). -/
theorem stWalkElems_dichotomy
    (walkP : J → Str → (List (Option J) × List (Str × J)) →
      Except CErr (List (Option J) × List (Str × J)))
    (walkK : J → Str → List (Option J) → Except CErr (List (Option J)))
    (hK : ∀ e nm acc, walkK e nm acc = (walkK e nm []).map (acc ++ ·))
    (hPK : ∀ e nm ks, walkK e nm [] = .ok ks → ∀ seen batch,
      ((ks ++ seen).Nodup →
        ∃ b, walkP e nm (seen, batch) = .ok (ks.reverse ++ seen, batch ++ b))
      ∧ (seen.Nodup → ¬ (ks ++ seen).Nodup →
        ∃ k, walkP e nm (seen, batch) = .error (.dup k)))
    (nm : Str) :
    ∀ (l : List J) (ks : List (Option J)), stWalkElems walkK nm l [] = .ok ks →
      ∀ seen batch,
      ((ks ++ seen).Nodup →
        ∃ b, stWalkElems walkP nm l (seen, batch) = .ok (ks.reverse ++ seen, batch ++ b))
      ∧ (seen.Nodup → ¬ (ks ++ seen).Nodup →
        ∃ k, stWalkElems walkP nm l (seen, batch) = .error (.dup k)) := by
  intro l
  induction l with
  | nil =>
    intro ks hks seen batch
    have hks' : ks = [] := by
      have : (Except.ok ([] : List (Option J)) : Except CErr _) = .ok ks := hks
      cases this
      rfl
    subst hks'
    constructor
    · intro _
      exact ⟨[], by simp [stWalkElems]; rfl⟩
    · intro hseen hnd
      exact absurd (by simpa using hseen) hnd
  | cons e es ih =>
    intro ks hks seen batch
    have hstep : (walkK e nm [] >>= fun st' => stWalkElems walkK nm es st') = .ok ks := hks
    cases h0 : walkK e nm [] with
    | error err => rw [h0, except_error_bind] at hstep; cases hstep
    | ok ks1 =>
      rw [h0, except_ok_bind, stWalkElems_append walkK hK nm es ks1] at hstep
      cases h1 : stWalkElems walkK nm es [] with
      | error err => rw [h1] at hstep; cases hstep
      | ok ks2 =>
        rw [h1, except_map_ok] at hstep
        have hks2 : ks = ks1 ++ ks2 := by cases hstep; rfl
        subst hks2
        constructor
        · intro hnd
          have hnd1 : (ks1 ++ seen).Nodup := nodup_outer_of_append (by simpa using hnd)
          obtain ⟨b1, hb1⟩ := ((hPK e nm ks1 h0 seen batch).1) hnd1
          have hnd2 : (ks2 ++ (ks1.reverse ++ seen)).Nodup :=
            ((perm_shuffle ks1 ks2 seen).nodup_iff).mp (by simpa using hnd)
          obtain ⟨b2, hb2⟩ :=
            ((ih ks2 h1 (ks1.reverse ++ seen) (batch ++ b1)).1) hnd2
          refine ⟨b1 ++ b2, ?_⟩
          show (walkP e nm (seen, batch) >>= fun st' => stWalkElems walkP nm es st') = _
          rw [hb1, except_ok_bind, hb2]
          simp [List.append_assoc]
        · intro hseen hnd
          by_cases hnd1 : (ks1 ++ seen).Nodup
          · obtain ⟨b1, hb1⟩ := ((hPK e nm ks1 h0 seen batch).1) hnd1
            have hseen' : (ks1.reverse ++ seen).Nodup := by
              have : List.Perm (ks1 ++ seen) (ks1.reverse ++ seen) :=
                ((List.reverse_perm ks1).symm.append_right seen)
              exact (this.nodup_iff).mp hnd1
            have hnd2 : ¬ (ks2 ++ (ks1.reverse ++ seen)).Nodup := by
              intro hcon
              exact hnd (by
                have := ((perm_shuffle ks1 ks2 seen).nodup_iff).mpr hcon
                simpa using this)
            obtain ⟨k, hk⟩ :=
              ((ih ks2 h1 (ks1.reverse ++ seen) (batch ++ b1)).2) hseen' hnd2
            refine ⟨k, ?_⟩
            show (walkP e nm (seen, batch) >>= fun st' => stWalkElems walkP nm es st') = _
            rw [hb1, except_ok_bind, hk]
          · obtain ⟨k, hk⟩ := ((hPK e nm ks1 h0 seen batch).2) hseen hnd1
            refine ⟨k, ?_⟩
            show (walkP e nm (seen, batch) >>= fun st' => stWalkElems walkP nm es st') = _
            rw [hk, except_error_bind]

theorem dichot_congr
    (F G : List (Option J) × List (Str × J) →
      Except CErr (List (Option J) × List (Str × J)))
    (h : ∀ st, F st = G st) (ks : List (Option J)) (hd : dichot F ks) : dichot G ks := by
  intro seen batch
  refine ⟨fun hnd => ?_, fun hseen hnd => ?_⟩
  · obtain ⟨b, hb⟩ := (hd seen batch).1 hnd
    exact ⟨b, (h (seen, batch)).symm.trans hb⟩
  · obtain ⟨k, hk⟩ := (hd seen batch).2 hseen hnd
    exact ⟨k, (h (seen, batch)).symm.trans hk⟩

theorem dichot_pure :
    dichot (fun st => (pure st : Except CErr (List (Option J) × List (Str × J)))) [] := by
  intro seen batch
  refine ⟨fun _ => ⟨[], by show Except.ok (seen, batch) = _; simp⟩, fun hseen hnd => ?_⟩
  exact absurd (by simpa using hseen) hnd

theorem dichot_comp
    (FP GP : List (Option J) × List (Str × J) →
      Except CErr (List (Option J) × List (Str × J)))
    (FK GK : List (Option J) → Except CErr (List (Option J)))
    (hGapp : ∀ acc, GK acc = (GK []).map (acc ++ ·))
    (hF : ∀ ks, FK [] = .ok ks → dichot FP ks)
    (hG : ∀ ks, GK [] = .ok ks → dichot GP ks) :
    ∀ ks, (FK [] >>= GK) = .ok ks → dichot (fun st => FP st >>= GP) ks := by
  intro ks hks
  cases h0 : FK [] with
  | error err => rw [h0, except_error_bind] at hks; cases hks
  | ok ks1 =>
    rw [h0, except_ok_bind, hGapp ks1] at hks
    cases h1 : GK [] with
    | error err => rw [h1] at hks; cases hks
    | ok ks2 =>
      rw [h1, except_map_ok] at hks
      have hks2 : ks = ks1 ++ ks2 := by cases hks; rfl
      subst hks2
      intro seen batch
      constructor
      · intro hnd
        have hnd1 : (ks1 ++ seen).Nodup := nodup_outer_of_append (by simpa using hnd)
        obtain ⟨b1, hb1⟩ := (hF ks1 h0 seen batch).1 hnd1
        have hnd2 : (ks2 ++ (ks1.reverse ++ seen)).Nodup :=
          ((perm_shuffle ks1 ks2 seen).nodup_iff).mp (by simpa using hnd)
        obtain ⟨b2, hb2⟩ := (hG ks2 h1 (ks1.reverse ++ seen) (batch ++ b1)).1 hnd2
        refine ⟨b1 ++ b2, ?_⟩
        show (FP (seen, batch) >>= GP) = _
        rw [hb1, except_ok_bind, hb2]
        simp [List.append_assoc]
      · intro hseen hnd
        by_cases hnd1 : (ks1 ++ seen).Nodup
        · obtain ⟨b1, hb1⟩ := (hF ks1 h0 seen batch).1 hnd1
          have hseen' : (ks1.reverse ++ seen).Nodup := by
            have hp : List.Perm (ks1 ++ seen) (ks1.reverse ++ seen) :=
              ((List.reverse_perm ks1).symm.append_right seen)
            exact (hp.nodup_iff).mp hnd1
          have hnd2 : ¬ (ks2 ++ (ks1.reverse ++ seen)).Nodup := by
            intro hcon
            exact hnd (by
              have := ((perm_shuffle ks1 ks2 seen).nodup_iff).mpr hcon
              simpa using this)
          obtain ⟨k, hk⟩ := (hG ks2 h1 (ks1.reverse ++ seen) (batch ++ b1)).2 hseen' hnd2
          refine ⟨k, ?_⟩
          show (FP (seen, batch) >>= GP) = _
          rw [hb1, except_ok_bind, hk]
        · obtain ⟨k, hk⟩ := (hF ks1 h0 seen batch).2 hseen hnd1
          refine ⟨k, ?_⟩
          show (FP (seen, batch) >>= GP) = _
          rw [hk, except_error_bind]

/-- The dichotomy transported through the per-document row loop of
applyHierarchy: if the key enumeration over the catalog rows succeeds, the
pack walk over the same rows either records exactly those keys or throws a
duplicate-key error. -/
theorem stWalkRows_dichotomy
    (walkP : J → Str → List (Option J) × List (Str × J) →
      Except CErr (List (Option J) × List (Str × J)))
    (walkK : J → Str → List (Option J) → Except CErr (List (Option J)))
    (hK : ∀ e nm acc, walkK e nm acc = (walkK e nm []).map (acc ++ ·))
    (hPK : ∀ e nm ks, walkK e nm [] = .ok ks → dichot (walkP e nm) ks)
    (doc : J) :
    ∀ (rows : List (Str × Bool)) (ks : List (Option J)),
      stWalkRows walkK doc rows [] = .ok ks → dichot (stWalkRows walkP doc rows) ks := by
  intro rows
  induction rows with
  | nil =>
    intro ks hks
    have hks' : ks = [] := by
      have h0 : (Except.ok ([] : List (Option J)) : Except CErr _) = .ok ks := hks
      cases h0
      rfl
    subst hks'
    exact dichot_congr _ _ (fun st => rfl) [] dichot_pure
  | cons nb rest ih =>
    obtain ⟨nm, ar⟩ := nb
    have hsingle : ∀ (ev? : Option J),
        (∀ acc', stWalkRows walkK doc ((nm, ar) :: rest) acc' =
          (if truthyO ev? = true then
            (walkK (ev?.getD J.null) nm acc' >>= fun a => stWalkRows walkK doc rest a)
           else (pure acc' >>= fun a => stWalkRows walkK doc rest a))) →
        (∀ st, stWalkRows walkP doc ((nm, ar) :: rest) st =
          (if truthyO ev? = true then
            (walkP (ev?.getD J.null) nm st >>= fun s => stWalkRows walkP doc rest s)
           else (pure st >>= fun s => stWalkRows walkP doc rest s))) →
        ∀ ks, stWalkRows walkK doc ((nm, ar) :: rest) [] = .ok ks →
          dichot (stWalkRows walkP doc ((nm, ar) :: rest)) ks := by
      intro ev? hredK hredP ks hks
      cases ht : truthyO ev? with
      | false =>
        rw [hredK [], ht, bool_if_false, except_pure_bind] at hks
        refine dichot_congr _ _ (fun st => ?_) ks (ih ks hks)
        rw [hredP st, ht, bool_if_false, except_pure_bind]
      | true =>
        rw [hredK [], ht, bool_if_true] at hks
        have hd := dichot_comp (walkP (ev?.getD J.null) nm)
          (fun s => stWalkRows walkP doc rest s)
          (walkK (ev?.getD J.null) nm) (fun a => stWalkRows walkK doc rest a)
          (fun acc => stWalkRows_append walkK hK doc rest acc)
          (fun ks1 h1 => hPK (ev?.getD J.null) nm ks1 h1)
          (fun ks2 h2 => ih ks2 h2) ks hks
        refine dichot_congr _ _ (fun st => ?_) ks hd
        rw [hredP st, ht, bool_if_true]
    intro ks hks
    cases ar with
    | true =>
      cases hg : jGet doc nm with
      | none =>
        exact hsingle none (fun acc' => by simp only [stWalkRows, hg])
          (fun st => by simp only [stWalkRows, hg]) ks hks
      | some v =>
        cases v with
        | arr l =>
          have eK : ∀ acc', stWalkRows walkK doc ((nm, true) :: rest) acc' =
              (stWalkElems walkK nm l acc' >>= fun a => stWalkRows walkK doc rest a) := by
            intro acc'; simp only [stWalkRows, hg]
          have eP : ∀ st, stWalkRows walkP doc ((nm, true) :: rest) st =
              (stWalkElems walkP nm l st >>= fun s => stWalkRows walkP doc rest s) := by
            intro st; simp only [stWalkRows, hg]
          rw [eK []] at hks
          have hd := dichot_comp (stWalkElems walkP nm l)
            (fun s => stWalkRows walkP doc rest s)
            (stWalkElems walkK nm l) (fun a => stWalkRows walkK doc rest a)
            (fun acc => stWalkRows_append walkK hK doc rest acc)
            (fun ks1 h1 seen batch =>
              stWalkElems_dichotomy walkP walkK hK
                (fun e nm2 ks0 h0 seen0 batch0 => hPK e nm2 ks0 h0 seen0 batch0)
                nm l ks1 h1 seen batch)
            (fun ks2 h2 => ih ks2 h2) ks hks
          refine dichot_congr _ _ (fun st => ?_) ks hd
          rw [eP st]
        | null =>
          exact hsingle (some .null) (fun acc' => by simp only [stWalkRows, hg])
            (fun st => by simp only [stWalkRows, hg]) ks hks
        | bool b =>
          exact hsingle (some (.bool b)) (fun acc' => by simp only [stWalkRows, hg])
            (fun st => by simp only [stWalkRows, hg]) ks hks
        | num n =>
          exact hsingle (some (.num n)) (fun acc' => by simp only [stWalkRows, hg])
            (fun st => by simp only [stWalkRows, hg]) ks hks
        | str s2 =>
          exact hsingle (some (.str s2)) (fun acc' => by simp only [stWalkRows, hg])
            (fun st => by simp only [stWalkRows, hg]) ks hks
        | obj f =>
          exact hsingle (some (.obj f)) (fun acc' => by simp only [stWalkRows, hg])
            (fun st => by simp only [stWalkRows, hg]) ks hks
    | false =>
      cases hg : jGet doc nm with
      | none =>
        exact hsingle none (fun acc' => by simp only [stWalkRows, hg])
          (fun st => by simp only [stWalkRows, hg]) ks hks
      | some v =>
        cases v with
        | arr l =>
          exact hsingle (some (.arr l)) (fun acc' => by simp only [stWalkRows, hg])
            (fun st => by simp only [stWalkRows, hg]) ks hks
        | null =>
          exact hsingle (some .null) (fun acc' => by simp only [stWalkRows, hg])
            (fun st => by simp only [stWalkRows, hg]) ks hks
        | bool b =>
          exact hsingle (some (.bool b)) (fun acc' => by simp only [stWalkRows, hg])
            (fun st => by simp only [stWalkRows, hg]) ks hks
        | num n =>
          exact hsingle (some (.num n)) (fun acc' => by simp only [stWalkRows, hg])
            (fun st => by simp only [stWalkRows, hg]) ks hks
        | str s2 =>
          exact hsingle (some (.str s2)) (fun acc' => by simp only [stWalkRows, hg])
            (fun st => by simp only [stWalkRows, hg]) ks hks
        | obj f =>
          exact hsingle (some (.obj f)) (fun acc' => by simp only [stWalkRows, hg])
            (fun st => by simp only [stWalkRows, hg]) ks hks

theorem throw_eq_error {α : Type} (e : CErr) : (throw e : Except CErr α) = .error e := rfl

theorem contains_opt_eq_mem (l : List (Option J)) (a : Option J) :
    l.contains a = decide (a ∈ l) := by
  induction l with
  | nil => rfl
  | cons x t ih => simp [List.contains_cons, ih, beq_iff_eq, eq_comm]

/-- The per-document dichotomy of the pack walk: whenever the key
enumeration of a document succeeds, the packDoc walk over the same document
either succeeds, recording exactly the enumerated keys and appending the
corresponding puts to the batch, or throws a duplicate-key error. -/
theorem packWalk_dichotomy : ∀ (fuel : Nat) (doc : J) (c : Str) (ks : List (Option J)),
    walkKeysSt fuel doc c [] = .ok ks → dichot (packWalk fuel doc c) ks := by
  intro fuel
  induction fuel with
  | zero =>
    intro doc c ks hks
    simp [walkKeysSt] at hks
  | succ fuel ih =>
    intro doc c ks hks
    cases hkey : jGet doc sKey with
    | none => simp only [walkKeysSt, hkey] at hks; cases hks
    | some kv =>
      cases kv with
      | null => simp only [walkKeysSt, hkey] at hks; cases hks
      | bool b => simp only [walkKeysSt, hkey] at hks; cases hks
      | num n => simp only [walkKeysSt, hkey] at hks; cases hks
      | arr l => simp only [walkKeysSt, hkey] at hks; cases hks
      | obj f => simp only [walkKeysSt, hkey] at hks; cases hks
      | str s =>
        simp only [walkKeysSt, hkey, List.nil_append] at hks
        rw [stWalkRows_append (walkKeysSt fuel) (walkKeysSt_append fuel)
          (jDel doc sKey) (HIERARCHY c) [some (J.str s)]] at hks
        cases h1 : stWalkRows (walkKeysSt fuel) (jDel doc sKey) (HIERARCHY c) [] with
        | error err => rw [h1, except_map_error] at hks; cases hks
        | ok rest =>
          rw [h1, except_map_ok] at hks
          have hks' : ks = some (J.str s) :: rest := by cases hks; rfl
          subst hks'
          have hrows := stWalkRows_dichotomy (packWalk fuel) (walkKeysSt fuel)
            (walkKeysSt_append fuel) ih (jDel doc sKey) (HIERARCHY c) rest h1
          intro seen batch
          cases hc : seen.contains (some (J.str s)) with
          | true =>
            have hmem : some (J.str s) ∈ seen := by
              have h2 := contains_opt_eq_mem seen (some (J.str s))
              rw [hc] at h2
              exact of_decide_eq_true h2.symm
            have e1 : packWalk (fuel+1) doc c (seen, batch) =
                .error (.dup (some (J.str s))) := by
              simp only [packWalk, hkey]
              rw [hc, bool_if_true]
              rfl
            constructor
            · intro hnd
              exfalso
              have hnotm : some (J.str s) ∉ rest ++ seen :=
                (List.nodup_cons.mp (by simpa using hnd)).1
              exact hnotm (List.mem_append.mpr (Or.inr hmem))
            · intro _ _
              exact ⟨some (J.str s), e1⟩
          | false =>
            have hmem : some (J.str s) ∉ seen := by
              intro hm
              have h2 := contains_opt_eq_mem seen (some (J.str s))
              rw [hc, decide_eq_true hm] at h2
              cases h2
            have e2 : packWalk (fuel+1) doc c (seen, batch) =
                stWalkRows (packWalk fuel) (jDel doc sKey) (HIERARCHY c)
                  (some (J.str s) :: seen,
                   batch ++ [(s, mapHierarchyP (fun d _ => (jGet d sId).getD .null)
                     (jDel doc sKey) c)]) := by
              simp only [packWalk, hkey]
              rw [hc, bool_if_false, except_pure_bind]
            constructor
            · intro hnd
              have hp : List.Perm (rest ++ (some (J.str s) :: seen))
                  (some (J.str s) :: (rest ++ seen)) := List.perm_middle
              have hnd2 : (rest ++ (some (J.str s) :: seen)).Nodup :=
                (hp.nodup_iff).mpr (by simpa using hnd)
              obtain ⟨b, hb⟩ := (hrows (some (J.str s) :: seen)
                (batch ++ [(s, mapHierarchyP (fun d _ => (jGet d sId).getD .null)
                  (jDel doc sKey) c)])).1 hnd2
              refine ⟨(s, mapHierarchyP (fun d _ => (jGet d sId).getD .null)
                (jDel doc sKey) c) :: b, ?_⟩
              rw [e2, hb]
              simp [List.append_assoc]
            · intro hseen hnd
              have hseen' : (some (J.str s) :: seen).Nodup :=
                List.nodup_cons.mpr ⟨hmem, hseen⟩
              have hnd2 : ¬ (rest ++ (some (J.str s) :: seen)).Nodup := by
                intro hcon
                have hp : List.Perm (rest ++ (some (J.str s) :: seen))
                    (some (J.str s) :: (rest ++ seen)) := List.perm_middle
                exact hnd (by simpa using (hp.nodup_iff).mp hcon)
              obtain ⟨k, hk⟩ := (hrows (some (J.str s) :: seen)
                (batch ++ [(s, mapHierarchyP (fun d _ => (jGet d sId).getD .null)
                  (jDel doc sKey) c)])).2 hseen' hnd2
              exact ⟨k, by rw [e2]; exact hk⟩

theorem map_append_bind
    (F G : List (Option J) → Except CErr (List (Option J)))
    (hF : ∀ acc, F acc = (F []).map (acc ++ ·))
    (hG : ∀ acc, G acc = (G []).map (acc ++ ·)) :
    ∀ acc, (F acc >>= G) = (F [] >>= G).map (acc ++ ·) := by
  intro acc
  rw [hF acc]
  cases h0 : F [] with
  | error e => rfl
  | ok ks1 =>
    rw [except_map_ok, except_ok_bind, except_ok_bind, hG (acc ++ ks1), hG ks1]
    cases h1 : G [] with
    | error e => rfl
    | ok ks2 =>
      rw [except_map_ok, except_map_ok, except_map_ok]
      simp [List.append_assoc]

/-- The key enumeration across files appends to its accumulator. -/
theorem walkKeysFilesSt_append : ∀ (fuel : Nat) (files : List J) (acc : List (Option J)),
    walkKeysFilesSt fuel files acc = (walkKeysFilesSt fuel files []).map (acc ++ ·) := by
  intro fuel files
  induction files with
  | nil => intro acc; exact except_pure_append acc
  | cons doc files ih =>
    intro acc
    have hskip : (∀ a, walkKeysFilesSt fuel (doc :: files) a =
        (pure a >>= fun a' => walkKeysFilesSt fuel files a')) →
        walkKeysFilesSt fuel (doc :: files) acc =
          (walkKeysFilesSt fuel (doc :: files) []).map (acc ++ ·) := by
      intro hred
      rw [hred acc, hred [], except_pure_bind, except_pure_bind]
      exact ih acc
    have hwk : ∀ (d : J) (c : Str), (∀ a, walkKeysFilesSt fuel (doc :: files) a =
        (walkKeysSt fuel d c a >>= fun a' => walkKeysFilesSt fuel files a')) →
        walkKeysFilesSt fuel (doc :: files) acc =
          (walkKeysFilesSt fuel (doc :: files) []).map (acc ++ ·) := by
      intro d c hred
      rw [hred acc, hred []]
      exact map_append_bind (walkKeysSt fuel d c) (fun a' => walkKeysFilesSt fuel files a')
        (walkKeysSt_append fuel d c) (fun a' => ih a') acc
    have herr : ∀ (e : CErr), (∀ a, walkKeysFilesSt fuel (doc :: files) a =
        Except.error e) →
        walkKeysFilesSt fuel (doc :: files) acc =
          (walkKeysFilesSt fuel (doc :: files) []).map (acc ++ ·) := by
      intro e hred
      rw [hred acc, hred [], except_map_error]
    cases hkey : jGet doc sKey with
    | none => exact hskip (fun a => by simp only [walkKeysFilesSt, hkey])
    | some kv =>
      cases htr : truthy kv with
      | false =>
        refine hskip (fun a => ?_)
        simp only [walkKeysFilesSt, hkey]
        rw [htr, bool_if_false]
      | true =>
        cases kv with
        | null => cases htr
        | bool b =>
          refine herr CErr.typeErr (fun a => ?_)
          simp only [walkKeysFilesSt, hkey]
          rw [htr, bool_if_true, throw_eq_error, except_error_bind]
        | num n =>
          refine herr CErr.typeErr (fun a => ?_)
          simp only [walkKeysFilesSt, hkey]
          rw [htr, bool_if_true, throw_eq_error, except_error_bind]
        | arr l =>
          refine herr CErr.typeErr (fun a => ?_)
          simp only [walkKeysFilesSt, hkey]
          rw [htr, bool_if_true, throw_eq_error, except_error_bind]
        | obj f =>
          refine herr CErr.typeErr (fun a => ?_)
          simp only [walkKeysFilesSt, hkey]
          rw [htr, bool_if_true, throw_eq_error, except_error_bind]
        | str k =>
          cases hstart : strStarts "!adventures".toList k with
          | false =>
            refine hwk doc (findCollection k) (fun a => ?_)
            simp only [walkKeysFilesSt, hkey]
            rw [htr, bool_if_true, hstart, bool_if_false, except_pure_bind]
          | true =>
            cases hr : reconstructAdventure doc with
            | error e =>
              refine herr e (fun a => ?_)
              simp only [walkKeysFilesSt, hkey]
              rw [htr, bool_if_true, hstart, bool_if_true, hr, except_error_bind]
            | ok d =>
              refine hwk d (findCollection k) (fun a => ?_)
              simp only [walkKeysFilesSt, hkey]
              rw [htr, bool_if_true, hstart, bool_if_true, hr, except_ok_bind]

/-- The dichotomy of the whole per-file compile loop against the key
enumeration across files. -/
theorem compileFiles_dichotomy : ∀ (fuel : Nat) (files : List J) (ks : List (Option J)),
    walkKeysFilesSt fuel files [] = .ok ks → dichot (compileFiles fuel files) ks := by
  intro fuel files
  induction files with
  | nil =>
    intro ks hks
    have hks' : ks = [] := by
      have h0 : (Except.ok ([] : List (Option J)) : Except CErr _) = .ok ks := hks
      cases h0
      rfl
    subst hks'
    exact dichot_congr _ _ (fun st => rfl) [] dichot_pure
  | cons doc files ih =>
    intro ks hks
    have hskip : (∀ a, walkKeysFilesSt fuel (doc :: files) a =
        (pure a >>= fun a' => walkKeysFilesSt fuel files a')) →
        (∀ st, compileFiles fuel (doc :: files) st =
          (pure st >>= fun st' => compileFiles fuel files st')) →
        dichot (compileFiles fuel (doc :: files)) ks := by
      intro hredK hredP
      rw [hredK [], except_pure_bind] at hks
      refine dichot_congr _ _ (fun st => ?_) ks (ih ks hks)
      rw [hredP st, except_pure_bind]
    have hwk : ∀ (d : J) (c : Str), (∀ a, walkKeysFilesSt fuel (doc :: files) a =
        (walkKeysSt fuel d c a >>= fun a' => walkKeysFilesSt fuel files a')) →
        (∀ st, compileFiles fuel (doc :: files) st =
          (packWalk fuel d c st >>= fun st' => compileFiles fuel files st')) →
        dichot (compileFiles fuel (doc :: files)) ks := by
      intro d c hredK hredP
      rw [hredK []] at hks
      have hd := dichot_comp (packWalk fuel d c)
        (fun st' => compileFiles fuel files st')
        (walkKeysSt fuel d c) (fun a' => walkKeysFilesSt fuel files a')
        (fun a' => walkKeysFilesSt_append fuel files a')
        (fun ks1 h1 => packWalk_dichotomy fuel d c ks1 h1)
        (fun ks2 h2 => ih ks2 h2) ks hks
      refine dichot_congr _ _ (fun st => ?_) ks hd
      rw [hredP st]
    cases hkey : jGet doc sKey with
    | none =>
      exact hskip (fun a => by simp only [walkKeysFilesSt, hkey])
        (fun st => by simp only [compileFiles, hkey])
    | some kv =>
      cases htr : truthy kv with
      | false =>
        refine hskip (fun a => ?_) (fun st => ?_)
        · simp only [walkKeysFilesSt, hkey]
          rw [htr, bool_if_false]
        · simp only [compileFiles, hkey]
          rw [htr, bool_if_false]
      | true =>
        cases kv with
        | null => cases htr
        | bool b =>
          exfalso
          rw [show walkKeysFilesSt fuel (doc :: files) [] = .error CErr.typeErr by
            simp only [walkKeysFilesSt, hkey]
            rw [htr, bool_if_true, throw_eq_error, except_error_bind]] at hks
          cases hks
        | num n =>
          exfalso
          rw [show walkKeysFilesSt fuel (doc :: files) [] = .error CErr.typeErr by
            simp only [walkKeysFilesSt, hkey]
            rw [htr, bool_if_true, throw_eq_error, except_error_bind]] at hks
          cases hks
        | arr l =>
          exfalso
          rw [show walkKeysFilesSt fuel (doc :: files) [] = .error CErr.typeErr by
            simp only [walkKeysFilesSt, hkey]
            rw [htr, bool_if_true, throw_eq_error, except_error_bind]] at hks
          cases hks
        | obj f =>
          exfalso
          rw [show walkKeysFilesSt fuel (doc :: files) [] = .error CErr.typeErr by
            simp only [walkKeysFilesSt, hkey]
            rw [htr, bool_if_true, throw_eq_error, except_error_bind]] at hks
          cases hks
        | str k =>
          cases hstart : strStarts "!adventures".toList k with
          | false =>
            refine hwk doc (findCollection k) (fun a => ?_) (fun st => ?_)
            · simp only [walkKeysFilesSt, hkey]
              rw [htr, bool_if_true, hstart, bool_if_false, except_pure_bind]
            · simp only [compileFiles, hkey]
              rw [htr, bool_if_true, hstart, bool_if_false, except_pure_bind]
          | true =>
            cases hr : reconstructAdventure doc with
            | error e =>
              exfalso
              rw [show walkKeysFilesSt fuel (doc :: files) [] = .error e by
                simp only [walkKeysFilesSt, hkey]
                rw [htr, bool_if_true, hstart, bool_if_true, hr, except_error_bind]] at hks
              cases hks
            | ok d =>
              refine hwk d (findCollection k) (fun a => ?_) (fun st => ?_)
              · simp only [walkKeysFilesSt, hkey]
                rw [htr, bool_if_true, hstart, bool_if_true, hr, except_ok_bind]
              · simp only [compileFiles, hkey]
                rw [htr, bool_if_true, hstart, bool_if_true, hr, except_ok_bind]

/-- C3: for every sorted-store compile in which two walked entries (primary
or embedded, across all source files) bear the same _key — that is, the key
enumeration of the walk succeeds but lists some key twice — the compile
fails with a duplicate-key error and the store is returned exactly as it
was: the batch is written only after the whole walk, so no entry is added,
removed, or modified. -/
theorem c3_duplicate_key (fuel : Nat) (store : List (Str × J)) (files : List J)
    (ks : List (Option J)) (hks : walkKeysFiles fuel files = .ok ks)
    (hdup : ¬ ks.Nodup) :
    ∃ k, compileRun fuel store files = (store, some (.dup k)) := by
  have hd := compileFiles_dichotomy fuel files ks hks
  obtain ⟨k, hk⟩ := (hd [] []).2 List.nodup_nil (by simpa using hdup)
  refine ⟨k, ?_⟩
  have hcc : compileClassicLevel fuel store files = .error (.dup k) := by
    unfold compileClassicLevel
    rw [hk, except_error_bind]
  unfold compileRun
  rw [hcc]

theorem c3_duplicate_key_witness :
    walkKeysFiles 2 c3files = .ok c3ks ∧
    decide c3ks.Nodup = false ∧
    ∃ k, compileRun 2 c3store c3files = (c3store, some (.dup k)) :=
  ⟨rfl, rfl, c3_duplicate_key 2 c3store c3files c3ks rfl (by decide)⟩

/-- The exact success shape of the element loop: when every element's walk
records its keys and appends its puts, the loop over the whole list records
the concatenation in order. -/
theorem stWalkElems_entries
    (walk : J → Str → List (Option J) × List (Str × J) →
      Except CErr (List (Option J) × List (Str × J))) (nm : Str) :
    ∀ (l : List J) (kps : List (List (Option J) × List (Str × J))),
      List.Forall₂ (fun e kp => ∀ seen batch, (kp.1 ++ seen).Nodup →
        walk e nm (seen, batch) = .ok (kp.1.reverse ++ seen, batch ++ kp.2)) l kps →
      ∀ seen batch, ((kps.map Prod.fst).flatten ++ seen).Nodup →
        stWalkElems walk nm l (seen, batch) =
          .ok ((kps.map Prod.fst).flatten.reverse ++ seen,
               batch ++ (kps.map Prod.snd).flatten) := by
  intro l kps hf
  induction hf with
  | nil =>
    intro seen batch _
    show Except.ok (seen, batch) = _
    simp
  | cons he hrest ih =>
    intro seen batch hnd
    rename_i e kp es kps2
    have hnd1 : (kp.1 ++ seen).Nodup := nodup_outer_of_append (by simpa using hnd)
    have hnd2 : ((kps2.map Prod.fst).flatten ++ (kp.1.reverse ++ seen)).Nodup :=
      ((perm_shuffle kp.1 (kps2.map Prod.fst).flatten seen).nodup_iff).mp (by simpa using hnd)
    show (walk e nm (seen, batch) >>= fun st => stWalkElems walk nm es st) = _
    rw [he seen batch hnd1, except_ok_bind, ih (kp.1.reverse ++ seen) (batch ++ kp.2) hnd2]
    simp [List.append_assoc]

/-- The exact success shape of the row loop of the pack walk. -/
theorem stWalkRows_entries
    (walk : J → Str → List (Option J) × List (Str × J) →
      Except CErr (List (Option J) × List (Str × J))) (doc : J) :
    ∀ (rows : List (Str × Bool)) (kps : List (List (Option J) × List (Str × J))),
      List.Forall₂ (fun (nb : Str × Bool) kp => ∀ seen batch, (kp.1 ++ seen).Nodup →
        (match nb.2, jGet doc nb.1 with
         | true, some (.arr l) => stWalkElems walk nb.1 l (seen, batch)
         | _, ev => if truthyO ev then walk (ev.getD .null) nb.1 (seen, batch)
             else pure (seen, batch))
        = .ok (kp.1.reverse ++ seen, batch ++ kp.2)) rows kps →
      ∀ seen batch, ((kps.map Prod.fst).flatten ++ seen).Nodup →
        stWalkRows walk doc rows (seen, batch) =
          .ok ((kps.map Prod.fst).flatten.reverse ++ seen,
               batch ++ (kps.map Prod.snd).flatten) := by
  intro rows kps hf
  induction hf with
  | nil =>
    intro seen batch _
    show Except.ok (seen, batch) = _
    simp
  | cons he hrest ih =>
    intro seen batch hnd
    rename_i nb kp rest kps2
    obtain ⟨nm, ar⟩ := nb
    have hnd1 : (kp.1 ++ seen).Nodup := nodup_outer_of_append (by simpa using hnd)
    have hnd2 : ((kps2.map Prod.fst).flatten ++ (kp.1.reverse ++ seen)).Nodup :=
      ((perm_shuffle kp.1 (kps2.map Prod.fst).flatten seen).nodup_iff).mp (by simpa using hnd)
    have hstep := he seen batch hnd1
    have htail := ih (kp.1.reverse ++ seen) (batch ++ kp.2) hnd2
    have hone : ∀ (ev? : Option J),
        (stWalkRows walk doc ((nm, ar) :: rest) (seen, batch) =
          (if truthyO ev? = true then
            (walk (ev?.getD J.null) nm (seen, batch) >>= fun st =>
              stWalkRows walk doc rest st)
           else (pure (seen, batch) >>= fun st => stWalkRows walk doc rest st))) →
        ((if truthyO ev? = true then walk (ev?.getD J.null) nm (seen, batch)
          else pure (seen, batch)) = .ok (kp.1.reverse ++ seen, batch ++ kp.2)) →
        stWalkRows walk doc ((nm, ar) :: rest) (seen, batch) =
          .ok (((kp :: kps2).map Prod.fst).flatten.reverse ++ seen,
               batch ++ ((kp :: kps2).map Prod.snd).flatten) := by
      intro ev? hred hstep2
      cases ht : truthyO ev? with
      | true =>
        rw [ht, bool_if_true] at hred hstep2
        rw [hred, hstep2, except_ok_bind, htail]
        simp [List.append_assoc]
      | false =>
        rw [ht, bool_if_false] at hred hstep2
        have hkp : ((seen, batch) : List (Option J) × List (Str × J)) =
            (kp.1.reverse ++ seen, batch ++ kp.2) := Except.ok.inj hstep2
        rw [hred, except_pure_bind, hkp, htail]
        simp [List.append_assoc]
    cases ar with
    | true =>
      cases hg : jGet doc nm with
      | none =>
        rw [hg] at hstep
        exact hone none (by simp only [stWalkRows, hg]) hstep
      | some v =>
        rw [hg] at hstep
        cases v with
        | arr l =>
          have e1 : stWalkRows walk doc ((nm, true) :: rest) (seen, batch) =
              (stWalkElems walk nm l (seen, batch) >>= fun st =>
                stWalkRows walk doc rest st) := by
            simp only [stWalkRows, hg]
          rw [e1, show (match true, some (J.arr l) with
            | true, some (J.arr l2) => stWalkElems walk nm l2 (seen, batch)
            | _, ev => if truthyO ev then walk (ev.getD J.null) nm (seen, batch)
                else pure (seen, batch)) = stWalkElems walk nm l (seen, batch)
            from rfl] at *
          rw [hstep, except_ok_bind, htail]
          simp [List.append_assoc]
        | null => exact hone (some .null) (by simp only [stWalkRows, hg]) hstep
        | bool b => exact hone (some (.bool b)) (by simp only [stWalkRows, hg]) hstep
        | num n => exact hone (some (.num n)) (by simp only [stWalkRows, hg]) hstep
        | str s2 => exact hone (some (.str s2)) (by simp only [stWalkRows, hg]) hstep
        | obj f => exact hone (some (.obj f)) (by simp only [stWalkRows, hg]) hstep
    | false =>
      cases hg : jGet doc nm with
      | none =>
        rw [hg] at hstep
        exact hone none (by simp only [stWalkRows, hg]) hstep
      | some v =>
        rw [hg] at hstep
        cases v with
        | arr l => exact hone (some (.arr l)) (by simp only [stWalkRows, hg]) hstep
        | null => exact hone (some .null) (by simp only [stWalkRows, hg]) hstep
        | bool b => exact hone (some (.bool b)) (by simp only [stWalkRows, hg]) hstep
        | num n => exact hone (some (.num n)) (by simp only [stWalkRows, hg]) hstep
        | str s2 => exact hone (some (.str s2)) (by simp only [stWalkRows, hg]) hstep
        | obj f => exact hone (some (.obj f)) (by simp only [stWalkRows, hg]) hstep

/-! ## The extract walk on a well-formed subtree -/

theorem mapM_list_ok (fn : J → Except CErr J) (g : J → J) :
    ∀ l : List J, (∀ e ∈ l, fn e = .ok (g e)) → l.mapM fn = .ok (l.map g) := by
  intro l
  induction l with
  | nil => intro _; rfl
  | cons e es ih =>
    intro h
    rw [List.mapM_cons, h e (List.mem_cons_self e es), except_ok_bind,
      ih (fun x hx => h x (List.mem_cons_of_mem e hx)), except_ok_bind]
    rfl

theorem mapM_id_pure (g : J → J) :
    ∀ l : List J, (l.mapM (m := Id) (fun e => pure (g e))) = (l.map g : Id (List J)) := by
  intro l
  induction l with
  | nil => rfl
  | cons e es ih => rw [List.mapM_cons, ih]; rfl

theorem unpackElemsWith_ok (walk : J → Str → Except CErr J) (nm : Str) (g : J → J) :
    ∀ l : List J, (∀ e ∈ l, walk e nm = .ok (g e)) →
      unpackElemsWith walk nm l = .ok (l.map g) := by
  intro l
  induction l with
  | nil => intro _; rfl
  | cons e es ih =>
    intro h
    show (walk e nm >>= fun e2 => unpackElemsWith walk nm es >>= fun es2 =>
      pure (e2 :: es2)) = _
    rw [h e (List.mem_cons_self e es), except_ok_bind,
      ih (fun x hx => h x (List.mem_cons_of_mem e hx)), except_ok_bind]
    rfl

/-- A monadic row fold equals the slotwise rewrite when every step writes
its own slot, reading the untouched original value. -/
theorem foldlM_rows_ok (F : J → (Str × Bool) → Except CErr J)
    (G : (Str × Bool) → J → J) (v0 : J) :
    ∀ (rows : List (Str × Bool)) (d : J),
      (∀ nb ∈ rows, jGet d nb.1 = jGet v0 nb.1) →
      (∀ nb ∈ rows, (jGet v0 nb.1).isSome = true) →
      (∀ d2 nb, nb ∈ rows → jGet d2 nb.1 = jGet v0 nb.1 →
        F d2 nb = .ok (jSet d2 nb.1 (G nb ((jGet d2 nb.1).getD .null)))) →
      (rows.map Prod.fst).Nodup →
      rows.foldlM F d = .ok (slotWrite G rows d) := by
  intro rows
  induction rows with
  | nil => intro d _ _ _ _; rfl
  | cons r rest ih =>
    intro d hslots hpres hF hnd
    have hnd2 : r.1 ∉ rest.map Prod.fst ∧ (rest.map Prod.fst).Nodup := by
      rw [List.map_cons] at hnd
      exact List.nodup_cons.mp hnd
    rw [List.foldlM_cons,
      hF d r (List.mem_cons_self r rest) (hslots r (List.mem_cons_self r rest)),
      except_ok_bind, slotWrite_cons]
    apply ih
    · intro nb hnb
      rw [jGet_jSet_ne_any d r.1 nb.1 _ (fun he => hnd2.1 (he ▸ List.mem_map_of_mem
        Prod.fst hnb))]
      exact hslots nb (List.mem_cons_of_mem r hnb)
    · intro nb hnb
      exact hpres nb (List.mem_cons_of_mem r hnb)
    · intro d2 nb hnb hd2
      exact hF d2 nb (List.mem_cons_of_mem r hnb) hd2
    · exact hnd2.2

/-- unpackRowsWith equals the slotwise rewrite when every row's walk
succeeds pointwise with the values the rewrite assigns. -/
theorem unpackRowsWith_ok (walk : J → Str → Except CErr J)
    (G : (Str × Bool) → J → J) (v0 : J) :
    ∀ (rows : List (Str × Bool)) (d : J),
      (∀ nb ∈ rows, jGet d nb.1 = jGet v0 nb.1) →
      (∀ nb ∈ rows, (jGet v0 nb.1).isSome = true) →
      (rows.map Prod.fst).Nodup →
      (∀ nb ∈ rows, ∀ s, jGet v0 nb.1 = some s →
        ((nb.2 = true ∧ ∃ l l2, s = .arr l ∧ G nb s = .arr l2 ∧
          unpackElemsWith walk nb.1 l = .ok l2)
         ∨ (truthy s = false ∧ G nb s = s)
         ∨ (nb.2 = false ∧ truthy s = true ∧ walk s nb.1 = .ok (G nb s)))) →
      unpackRowsWith walk d rows = .ok (slotWrite G rows d) := by
  intro rows
  induction rows with
  | nil => intro d _ _ _ _; rfl
  | cons r rest ih =>
    obtain ⟨nm, ar⟩ := r
    intro d hslots hpres hnd hcases
    have hnd2 : nm ∉ rest.map Prod.fst ∧ (rest.map Prod.fst).Nodup := by
      rw [List.map_cons] at hnd
      exact List.nodup_cons.mp hnd
    have hmem : (nm, ar) ∈ (nm, ar) :: rest := List.mem_cons_self _ _
    have hr := hslots (nm, ar) hmem
    have hrp := hpres (nm, ar) hmem
    obtain ⟨s, hs⟩ : ∃ s, jGet v0 nm = some s := by
      cases hg : jGet v0 nm with
      | none => rw [show jGet v0 (nm, ar).1 = jGet v0 nm from rfl, hg] at hrp; cases hrp
      | some s => exact ⟨s, rfl⟩
    have hdr : jGet d nm = some s := by
      rw [show jGet d (nm, ar).1 = jGet d nm from rfl] at hr
      rw [hr, hs]
    have hrest : ∀ (d2 : J), jGet d2 nm = some (G (nm, ar) s) →
        (∀ nb ∈ rest, jGet d2 nb.1 = jGet d nb.1) →
        unpackRowsWith walk d2 rest = .ok (slotWrite G rest d2) := by
      intro d2 _ hd2
      apply ih d2
      · intro nb hnb
        rw [hd2 nb hnb]
        exact hslots nb (List.mem_cons_of_mem _ hnb)
      · intro nb hnb
        exact hpres nb (List.mem_cons_of_mem _ hnb)
      · exact hnd2.2
      · intro nb hnb s2 hs2
        exact hcases nb (List.mem_cons_of_mem _ hnb) s2 hs2
    have hset : slotWrite G ((nm, ar) :: rest) d =
        slotWrite G rest (jSet d nm (G (nm, ar) s)) := by
      rw [slotWrite_cons]
      show slotWrite G rest (jSet d nm (G (nm, ar) ((jGet d nm).getD J.null))) = _
      rw [hdr]
      rfl
    have hslotsj : ∀ nb ∈ rest, jGet (jSet d nm (G (nm, ar) s)) nb.1 = jGet d nb.1 := by
      intro nb hnb
      exact jGet_jSet_ne_any d nm nb.1 _
        (fun he => hnd2.1 (he ▸ List.mem_map_of_mem Prod.fst hnb))
    have hgetj : jGet (jSet d nm (G (nm, ar) s)) nm = some (G (nm, ar) s) :=
      jGet_jSet_self_any d nm _ (by rw [hdr]; rfl)
    rcases hcases (nm, ar) hmem s hs with
      ⟨har, l, l2, hsl, hGl, hel⟩ | ⟨hfal, hGs⟩ | ⟨har, htr, hw⟩
    · have har2 : ar = true := har
      subst har2
      subst hsl
      have e1 : unpackRowsWith walk d ((nm, true) :: rest) =
          (unpackElemsWith walk nm l >>= fun l2 =>
            (pure (jSet d nm (J.arr l2)) >>= fun y => unpackRowsWith walk y rest)) := by
        simp only [unpackRowsWith, hdr]
      rw [e1, hel, except_ok_bind, except_pure_bind, hset,
        show G (nm, true) (J.arr l) = J.arr l2 from hGl]
      exact hrest (jSet d nm (J.arr l2))
        (by rw [hGl]; exact jGet_jSet_self_any d nm _ (by rw [hdr]; rfl))
        (fun nb hnb => jGet_jSet_ne_any d nm nb.1 _
          (fun he => hnd2.1 (he ▸ List.mem_map_of_mem Prod.fst hnb)))
    · have hsame : jSet d nm (G (nm, ar) s) = d := by
        rw [hGs]
        exact jSet_of_jGet_eq d nm s hdr
      have hskip : unpackRowsWith walk d ((nm, ar) :: rest) =
          unpackRowsWith walk d rest := by
        cases ar with
        | false =>
          have e1 : unpackRowsWith walk d ((nm, false) :: rest) =
              (if truthyO (some s) = true then
                (walk ((some s).getD J.null) nm >>= fun c =>
                  (pure (jSet d nm c) >>= fun y => unpackRowsWith walk y rest))
               else (pure d >>= fun y => unpackRowsWith walk y rest)) := by
            simp only [unpackRowsWith, hdr]
          rw [e1, show truthyO (some s) = truthy s from rfl, hfal, bool_if_false,
            except_pure_bind]
        | true =>
          cases s with
          | arr l => rw [show truthy (J.arr l) = true from rfl] at hfal; cases hfal
          | obj f => rw [show truthy (J.obj f) = true from rfl] at hfal; cases hfal
          | null =>
            have e1 : unpackRowsWith walk d ((nm, true) :: rest) =
                (if truthyO (some J.null) = true then
                  (walk ((some J.null).getD J.null) nm >>= fun c =>
                    (pure (jSet d nm c) >>= fun y => unpackRowsWith walk y rest))
                 else (pure d >>= fun y => unpackRowsWith walk y rest)) := by
              simp only [unpackRowsWith, hdr]
            rw [e1, show truthyO (some J.null) = false from rfl, bool_if_false,
              except_pure_bind]
          | bool b =>
            have e1 : unpackRowsWith walk d ((nm, true) :: rest) =
                (if truthyO (some (J.bool b)) = true then
                  (walk ((some (J.bool b)).getD J.null) nm >>= fun c =>
                    (pure (jSet d nm c) >>= fun y => unpackRowsWith walk y rest))
                 else (pure d >>= fun y => unpackRowsWith walk y rest)) := by
              simp only [unpackRowsWith, hdr]
            rw [e1, show truthyO (some (J.bool b)) = truthy (J.bool b) from rfl, hfal,
              bool_if_false, except_pure_bind]
          | num n =>
            have e1 : unpackRowsWith walk d ((nm, true) :: rest) =
                (if truthyO (some (J.num n)) = true then
                  (walk ((some (J.num n)).getD J.null) nm >>= fun c =>
                    (pure (jSet d nm c) >>= fun y => unpackRowsWith walk y rest))
                 else (pure d >>= fun y => unpackRowsWith walk y rest)) := by
              simp only [unpackRowsWith, hdr]
            rw [e1, show truthyO (some (J.num n)) = truthy (J.num n) from rfl, hfal,
              bool_if_false, except_pure_bind]
          | str s2 =>
            have e1 : unpackRowsWith walk d ((nm, true) :: rest) =
                (if truthyO (some (J.str s2)) = true then
                  (walk ((some (J.str s2)).getD J.null) nm >>= fun c =>
                    (pure (jSet d nm c) >>= fun y => unpackRowsWith walk y rest))
                 else (pure d >>= fun y => unpackRowsWith walk y rest)) := by
              simp only [unpackRowsWith, hdr]
            rw [e1, show truthyO (some (J.str s2)) = truthy (J.str s2) from rfl, hfal,
              bool_if_false, except_pure_bind]
      rw [hskip, hset, hsame]
      exact hrest d (by rw [hsame] at hgetj; exact hgetj)
        (by intro nb hnb; rfl)
    · have har2 : ar = false := har
      subst har2
      have e1 : unpackRowsWith walk d ((nm, false) :: rest) =
          (if truthyO (some s) = true then
            (walk ((some s).getD J.null) nm >>= fun c =>
              (pure (jSet d nm c) >>= fun y => unpackRowsWith walk y rest))
           else (pure d >>= fun y => unpackRowsWith walk y rest)) := by
        simp only [unpackRowsWith, hdr]
      rw [e1, show truthyO (some s) = truthy s from rfl, htr, bool_if_true]
      show (walk s nm >>= fun c => (pure (jSet d nm c) >>= fun y =>
        unpackRowsWith walk y rest)) = _
      rw [hw, except_ok_bind, except_pure_bind, hset]
      exact hrest _ hgetj hslotsj

/-- mapHierarchy with the id-stripping callback is the slotwise stripT
rewrite. -/
theorem mapHierarchyP_strip_rows :
    ∀ (rows : List (Str × Bool)) (d : J),
      Id.run (rows.foldlM (m := Id) (fun d nb =>
        match nb.2, jGet d nb.1 with
        | true, some (.arr l) => do
            let l2 ← l.mapM (m := Id) (fun e => pure ((jGet e sId).getD .null))
            pure (jSet d nb.1 (.arr l2))
        | true, _ => pure (jSet d nb.1 (.arr []))
        | false, ev =>
            if truthyO ev then do
              let v2 ← (pure ((jGet (ev.getD .null) sId).getD .null) : Id J)
              pure (jSet d nb.1 v2)
            else pure (jSet d nb.1 .null)) d) = slotWrite stripT rows d := by
  intro rows
  induction rows with
  | nil => intro d; rfl
  | cons r rest ih =>
    obtain ⟨nm, ar⟩ := r
    intro d
    have hstep : (match (nm, ar).2, jGet d (nm, ar).1 with
        | true, some (.arr l) => do
            let l2 ← l.mapM (m := Id) (fun e => pure ((jGet e sId).getD .null))
            pure (jSet d (nm, ar).1 (.arr l2))
        | true, _ => pure (jSet d (nm, ar).1 (.arr []))
        | false, ev =>
            if truthyO ev then do
              let v2 ← (pure ((jGet (ev.getD .null) sId).getD .null) : Id J)
              pure (jSet d (nm, ar).1 v2)
            else pure (jSet d (nm, ar).1 .null))
        = (pure (jSet d nm (stripT (nm, ar) ((jGet d nm).getD .null))) : Id J) := by
      cases ar with
      | true =>
        cases hg : jGet d nm with
        | none => rfl
        | some v =>
          cases v with
          | arr l =>
            show (do
              let l2 ← l.mapM (m := Id) (fun e => pure ((jGet e sId).getD J.null))
              pure (jSet d nm (J.arr l2)) : Id J) = _
            rw [mapM_id_pure]
            rfl
          | null => rfl
          | bool b => rfl
          | num n => rfl
          | str s => rfl
          | obj f => rfl
      | false =>
        cases hg : jGet d nm with
        | none => rfl
        | some v =>
          show (if truthyO (some v) = true then (do
              let v2 ← (pure ((jGet ((some v).getD J.null) sId).getD J.null) : Id J)
              pure (jSet d nm v2)) else pure (jSet d nm J.null)) = _
          cases ht : truthy v with
          | true =>
            rw [show truthyO (some v) = truthy v from rfl, ht, bool_if_true]
            show (pure (jSet d nm ((jGet v sId).getD J.null)) : Id J) = _
            rw [show stripT (nm, false) ((some v).getD J.null)
              = (jGet v sId).getD J.null from by
                show (if truthy v = true then (jGet v sId).getD J.null else J.null) = _
                rw [ht, bool_if_true]]
          | false =>
            rw [show truthyO (some v) = truthy v from rfl, ht, bool_if_false]
            rw [show stripT (nm, false) ((some v).getD J.null) = J.null from by
              show (if truthy v = true then (jGet v sId).getD J.null else J.null) = _
              rw [ht, bool_if_false]]
    show Id.run ((match (nm, ar).2, jGet d (nm, ar).1 with
        | true, some (.arr l) => do
            let l2 ← l.mapM (m := Id) (fun e => pure ((jGet e sId).getD .null))
            pure (jSet d (nm, ar).1 (.arr l2))
        | true, _ => pure (jSet d (nm, ar).1 (.arr []))
        | false, ev =>
            if truthyO ev then do
              let v2 ← (pure ((jGet (ev.getD .null) sId).getD .null) : Id J)
              pure (jSet d (nm, ar).1 v2)
            else pure (jSet d (nm, ar).1 .null)) >>= fun d2 =>
          rest.foldlM (m := Id) _ d2) = _
    rw [hstep, slotWrite_cons]
    exact ih (jSet d nm (stripT (nm, ar) ((jGet d nm).getD .null)))

theorem contains_char_eq_mem (s : Str) (c : Char) : s.contains c = decide (c ∈ s) := by
  induction s with
  | nil => rfl
  | cons x t ih => simp [List.contains_cons, ih, beq_iff_eq, eq_comm]

theorem validAt_obj {P : List (Str × J)} {fuel : Nat} {sub idv myId c : Str} {v : J}
    (hv : validAt P (fuel+1) sub idv myId c v = true) : ∃ fields, v = .obj fields := by
  cases v with
  | obj f => exact ⟨f, rfl⟩
  | null => simp [validAt] at hv
  | bool b => simp [validAt] at hv
  | num n => simp [validAt] at hv
  | str s => simp [validAt] at hv
  | arr l => simp [validAt] at hv

/-- Destructuring of the subtree well-formedness predicate at an object. -/
theorem validAt_destruct (P : List (Str × J)) (fuel : Nat) (sub idv myId c : Str)
    (fields : List (Str × J))
    (hv : validAt P (fuel+1) sub idv myId c (.obj fields) = true) :
    getAssoc fields sKey = none ∧
    getAssoc fields sId = some (.str myId) ∧
    myId ≠ [] ∧ ¬ '!' ∈ myId ∧
    ∀ nb ∈ HIERARCHY c,
      (nb.2 = true → ∃ l, getAssoc fields nb.1 = some (.arr l) ∧
        ∀ e ∈ l, ∃ cid cv, e = J.str cid ∧ cid ≠ [] ∧
          getAssoc P (mkKey (sub ++ '.' :: nb.1) (idv ++ '.' :: cid)) = some cv ∧
          validAt P fuel (sub ++ '.' :: nb.1) (idv ++ '.' :: cid) cid nb.1 cv = true)
      ∧ (nb.2 = false → getAssoc fields nb.1 = some .null ∨
          ∃ cid cv, getAssoc fields nb.1 = some (.str cid) ∧ cid ≠ [] ∧
            getAssoc P (mkKey (sub ++ '.' :: nb.1) (idv ++ '.' :: cid)) = some cv ∧
            validAt P fuel (sub ++ '.' :: nb.1) (idv ++ '.' :: cid) cid nb.1 cv = true) := by
  simp only [validAt] at hv
  rw [Bool.and_eq_true, Bool.and_eq_true, Bool.and_eq_true, Bool.and_eq_true] at hv
  obtain ⟨⟨⟨⟨h1, h2⟩, h3⟩, h4⟩, h5⟩ := hv
  refine ⟨Option.isNone_iff_eq_none.mp h1, eq_of_beq h2, ?_, ?_, ?_⟩
  · intro he
    rw [he] at h3
    cases h3
  · intro hmem
    rw [show hasChar '!' myId = true from by
      rw [hasChar, contains_char_eq_mem, decide_eq_true hmem]] at h4
    cases h4
  · intro nb hnb
    have hrow := List.all_eq_true.mp h5 nb hnb
    constructor
    · intro har
      rw [har, bool_if_true] at hrow
      cases hg : getAssoc fields nb.1 with
      | none => rw [hg] at hrow; cases hrow
      | some w =>
        rw [hg] at hrow
        cases w with
        | arr l =>
          refine ⟨l, rfl, ?_⟩
          intro e he
          have helem := List.all_eq_true.mp hrow e he
          cases e with
          | str cid =>
            rw [Bool.and_eq_true] at helem
            obtain ⟨hcid, hres⟩ := helem
            cases hl : getAssoc P (mkKey (sub ++ '.' :: nb.1) (idv ++ '.' :: cid)) with
            | none => rw [hl] at hres; cases hres
            | some cv =>
              rw [hl] at hres
              refine ⟨cid, cv, rfl, ?_, hl, hres⟩
              intro hce
              rw [hce] at hcid
              cases hcid
          | null => cases helem
          | bool b => cases helem
          | num n => cases helem
          | arr l2 => cases helem
          | obj f => cases helem
        | null => cases hrow
        | bool b => cases hrow
        | num n => cases hrow
        | str s => cases hrow
        | obj f => cases hrow
    · intro har
      rw [har, bool_if_false] at hrow
      cases hg : getAssoc fields nb.1 with
      | none => rw [hg] at hrow; cases hrow
      | some w =>
        rw [hg] at hrow
        cases w with
        | null => exact Or.inl rfl
        | str cid =>
          rw [Bool.and_eq_true] at hrow
          obtain ⟨hcid, hres⟩ := hrow
          cases hl : getAssoc P (mkKey (sub ++ '.' :: nb.1) (idv ++ '.' :: cid)) with
          | none => rw [hl] at hres; cases hres
          | some cv =>
            rw [hl] at hres
            refine Or.inr ⟨cid, cv, rfl, ?_, hl, hres⟩
            intro hce
            rw [hce] at hcid
            cases hcid
        | bool b => cases hrow
        | num n => cases hrow
        | arr l => cases hrow
        | obj f => cases hrow

theorem validAt_idStr {P : List (Str × J)} {fuel : Nat} {sub idv myId c : Str} {v : J}
    (hv : validAt P (fuel+1) sub idv myId c v = true) : jIdStr v = myId := by
  obtain ⟨fields, rfl⟩ := validAt_obj hv
  obtain ⟨_, hid, _, _, _⟩ := validAt_destruct P fuel sub idv myId c fields hv
  show (match jGet (J.obj fields) sId with
    | some (.str s) => s
    | _ => ([] : Str)) = myId
  rw [show jGet (J.obj fields) sId = getAssoc fields sId from rfl, hid]

theorem validAt_obj2 {P : List (Str × J)} {fuel : Nat} {sub idv myId c : Str} {v : J}
    (hv : validAt P fuel sub idv myId c v = true) : ∃ fields, v = .obj fields := by
  cases fuel with
  | zero => rw [show validAt P 0 sub idv myId c v = false from rfl] at hv; cases hv
  | succ f => exact validAt_obj hv

theorem validAt_idStr2 {P : List (Str × J)} {fuel : Nat} {sub idv myId c : Str} {v : J}
    (hv : validAt P fuel sub idv myId c v = true) : jIdStr v = myId := by
  cases fuel with
  | zero => rw [show validAt P 0 sub idv myId c v = false from rfl] at hv; cases hv
  | succ f => exact validAt_idStr hv

theorem forall2_map_self {α β : Type} (R : α → β → Prop) (f : α → β) :
    ∀ l : List α, (∀ a ∈ l, R a (f a)) → List.Forall₂ R l (l.map f) := by
  intro l
  induction l with
  | nil => intro _; exact List.Forall₂.nil
  | cons a t ih =>
    intro h
    exact List.Forall₂.cons (h a (List.mem_cons_self a t))
      (ih (fun x hx => h x (List.mem_cons_of_mem a hx)))

theorem map_id_of_mem {α : Type} (f : α → α) : ∀ l : List α,
    (∀ a ∈ l, f a = a) → l.map f = l := by
  intro l
  induction l with
  | nil => intro _; rfl
  | cons a t ih =>
    intro h
    rw [List.map_cons, h a (List.mem_cons_self a t),
      ih (fun x hx => h x (List.mem_cons_of_mem a hx))]

theorem map_flatten_map {α β γ : Type} (f : α → List β) (g : β → γ) (l : List α) :
    ((l.map f).flatten).map g = (l.map (fun a => (f a).map g)).flatten := by
  rw [List.map_flatten, List.map_map]
  rfl

theorem forall2_map_map {α β γ : Type} (R : β → γ → Prop) (f : α → β) (g : α → γ) :
    ∀ l : List α, (∀ a ∈ l, R (f a) (g a)) → List.Forall₂ R (l.map f) (l.map g) := by
  intro l
  induction l with
  | nil => intro _; exact List.Forall₂.nil
  | cons a t ih =>
    intro h
    exact List.Forall₂.cons (h a (List.mem_cons_self a t))
      (ih (fun x hx => h x (List.mem_cons_of_mem a hx)))

/-- The central subtree lemma: a well-formed stored subtree unpacks to its
inflation, the inflation carries the composite key and the id, and the pack
walk over the inflation re-emits exactly the subtree's keys with the store's
own values. -/
theorem subtree_main (P : List (Str × J)) :
    ∀ (fuel : Nat) (sub idv myId c : Str) (v : J),
      validAt P fuel sub idv myId c v = true →
      sub ≠ [] → idv ≠ [] →
      ((∀ pre : Str × Str, keyJoin [pre.1, c] = sub →
          keyJoin [pre.2, jIdStr v] = idv →
          unpackDoc P fuel v c pre = .ok (inflate P fuel sub idv c v))
       ∧ jGet (inflate P fuel sub idv c v) sKey = some (.str (mkKey sub idv))
       ∧ jGet (inflate P fuel sub idv c v) sId = some (.str myId)
       ∧ (getAssoc P (mkKey sub idv) = some v →
          ∀ seen batch,
            (((subKeys P fuel sub idv c v).map (fun k => some (J.str k))) ++ seen).Nodup →
            packWalk fuel (inflate P fuel sub idv c v) c (seen, batch) =
              .ok ((((subKeys P fuel sub idv c v).map (fun k => some (J.str k))).reverse
                    ++ seen),
                   batch ++ (subKeys P fuel sub idv c v).map
                     (fun k => (k, (getAssoc P k).getD J.null))))) := by
  intro fuel
  induction fuel with
  | zero =>
    intro sub idv myId c v hv
    rw [show validAt P 0 sub idv myId c v = false from rfl] at hv
    cases hv
  | succ fuel ih =>
    intro sub idv myId c v hv hsub hidv
    obtain ⟨fields, rfl⟩ := validAt_obj hv
    obtain ⟨hkeyN, hidF, hmyne, hmybang, hrows⟩ :=
      validAt_destruct P fuel sub idv myId c fields hv
    have hhn := hierarchy_names c
    have hnodup := hierarchy_nodup c
    have hslotv : ∀ nb ∈ HIERARCHY c, ∃ sv, getAssoc fields nb.1 = some sv := by
      intro nb hnb
      rcases hrows nb hnb with ⟨htru, hfal⟩
      cases har : nb.2 with
      | true =>
        obtain ⟨l, hg, _⟩ := htru har
        exact ⟨_, hg⟩
      | false =>
        rcases hfal har with hg | ⟨cid, cv, hg, _⟩
        · exact ⟨_, hg⟩
        · exact ⟨_, hg⟩
    have hpres : ∀ nb ∈ HIERARCHY c, (jGet (J.obj fields) nb.1).isSome = true := by
      intro nb hnb
      obtain ⟨sv, hg⟩ := hslotv nb hnb
      show (getAssoc fields nb.1).isSome = true
      rw [hg]
      rfl
    have hv1slots : ∀ nb ∈ HIERARCHY c,
        jGet (jSet (J.obj fields) sKey (.str (mkKey sub idv))) nb.1
          = getAssoc fields nb.1 :=
      fun nb hnb => jGet_jSet_ne_any _ sKey nb.1 _ (fun he => (hhn nb hnb).2.2.1 he)
    have hpres1 : ∀ nb ∈ HIERARCHY c,
        (jGet (jSet (J.obj fields) sKey (.str (mkKey sub idv))) nb.1).isSome = true := by
      intro nb hnb
      rw [hv1slots nb hnb]
      obtain ⟨sv, hg⟩ := hslotv nb hnb
      rw [hg]
      rfl
    have hinf : inflate P (fuel+1) sub idv c (J.obj fields) =
        slotWrite (inflTW (inflate P fuel) sub idv) (HIERARCHY c)
          (slotWrite (resolveT P sub idv) (HIERARCHY c)
            (jSet (J.obj fields) sKey (.str (mkKey sub idv)))) := rfl
    have hB : jGet (inflate P (fuel+1) sub idv c (J.obj fields)) sKey
        = some (.str (mkKey sub idv)) := by
      rw [hinf,
        slotWrite_read_ne _ _ _ sKey (fun nb hnb => (hhn nb hnb).2.2.1),
        slotWrite_read_ne _ _ _ sKey (fun nb hnb => (hhn nb hnb).2.2.1)]
      exact getAssoc_setAssoc_self fields sKey _
    have hC : jGet (inflate P (fuel+1) sub idv c (J.obj fields)) sId
        = some (.str myId) := by
      rw [hinf,
        slotWrite_read_ne _ _ _ sId (fun nb hnb => (hhn nb hnb).2.2.2.1),
        slotWrite_read_ne _ _ _ sId (fun nb hnb => (hhn nb hnb).2.2.2.1),
        jGet_jSet_ne_any _ sKey sId _ (show sId ≠ sKey from by decide)]
      exact hidF
    -- the resolution pass
    have hres : ∀ (d0 : J), (∀ nb ∈ HIERARCHY c, jGet d0 nb.1 = getAssoc fields nb.1) →
        (mapHierarchyM (fun e nm =>
          match e with
          | .str cid =>
            (match getAssoc P (mkKey (sub ++ '.' :: nm) (idv ++ '.' :: cid)) with
             | some cv => pure cv
             | none => throw CErr.notFound)
          | _ => throw CErr.notFound) d0 c : Except CErr J)
          = .ok (slotWrite (resolveT P sub idv) (HIERARCHY c) d0) := by
      intro d0 hd0
      show (HIERARCHY c).foldlM _ d0 = _
      refine foldlM_rows_ok _ _ d0 (HIERARCHY c) d0 (fun nb _ => rfl) ?_ ?_ hnodup
      · intro nb hnb
        rw [hd0 nb hnb]
        obtain ⟨sv, hg⟩ := hslotv nb hnb
        rw [hg]
        rfl
      · intro d2 nb hnb hd2
        obtain ⟨nm, ar⟩ := nb
        have hdv : jGet d2 nm = getAssoc fields nm := by
          rw [show jGet d2 (nm, ar).1 = jGet d2 nm from rfl] at hd2
          rw [hd2]
          exact hd0 (nm, ar) hnb
        rcases hrows (nm, ar) hnb with ⟨htru, hfal⟩
        cases ar with
        | true =>
          obtain ⟨l, hg, helems⟩ := htru rfl
          have hdl : jGet d2 nm = some (J.arr l) := by rw [hdv, hg]
          have hok : ∀ e ∈ l, (match e with
              | J.str cid =>
                (match getAssoc P (mkKey (sub ++ '.' :: nm) (idv ++ '.' :: cid)) with
                 | some cv => (pure cv : Except CErr J)
                 | none => throw CErr.notFound)
              | _ => throw CErr.notFound)
              = .ok (resolveFn P sub idv e nm) := by
            intro e he
            obtain ⟨cid, cv, he2, hcid, hlk, hcv⟩ := helems e he
            subst he2
            show (match getAssoc P (mkKey (sub ++ '.' :: nm) (idv ++ '.' :: cid)) with
              | some cv => (pure cv : Except CErr J)
              | none => throw CErr.notFound) = _
            rw [hlk]
            show Except.ok cv = _
            rw [show resolveFn P sub idv (J.str cid) nm = cv from by
              show (getAssoc P (mkKey (sub ++ '.' :: nm) (idv ++ '.' :: cid))).getD J.null
                = cv
              rw [hlk]
              rfl]
          show (match (nm, true).2, jGet d2 (nm, true).1 with
            | true, some (.arr l) => do
                let l2 ← l.mapM (fun e =>
                  match e with
                  | J.str cid =>
                    (match getAssoc P (mkKey (sub ++ '.' :: nm) (idv ++ '.' :: cid)) with
                     | some cv => (pure cv : Except CErr J)
                     | none => throw CErr.notFound)
                  | _ => throw CErr.notFound)
                pure (jSet d2 (nm, true).1 (.arr l2))
            | true, _ => pure (jSet d2 (nm, true).1 (.arr []))
            | false, ev =>
                if truthyO ev then do
                  let v2 ← (match ev.getD .null with
                    | J.str cid =>
                      (match getAssoc P (mkKey (sub ++ '.' :: nm) (idv ++ '.' :: cid)) with
                       | some cv => (pure cv : Except CErr J)
                       | none => throw CErr.notFound)
                    | _ => throw CErr.notFound)
                  pure (jSet d2 (nm, true).1 v2)
                else pure (jSet d2 (nm, true).1 .null)) = _
          rw [show jGet d2 (nm, true).1 = some (J.arr l) from hdl]
          show (do
            let l2 ← l.mapM (fun e =>
              match e with
              | J.str cid =>
                (match getAssoc P (mkKey (sub ++ '.' :: nm) (idv ++ '.' :: cid)) with
                 | some cv => (pure cv : Except CErr J)
                 | none => throw CErr.notFound)
              | _ => throw CErr.notFound)
            pure (jSet d2 nm (.arr l2))) = _
          rw [mapM_list_ok _ (fun e => resolveFn P sub idv e nm) l hok, except_ok_bind]
          show Except.ok (jSet d2 nm (J.arr (l.map (fun e => resolveFn P sub idv e nm))))
            = _
          rfl
        | false =>
          rcases hfal rfl with hg | ⟨cid, cv, hg, hcid, hlk, hcv⟩
          · have hdl : jGet d2 nm = some J.null := by rw [hdv, hg]
            show (match (nm, false).2, jGet d2 (nm, false).1 with
              | true, some (.arr l) => do
                  let l2 ← l.mapM (fun e =>
                    match e with
                    | J.str cid =>
                      (match getAssoc P (mkKey (sub ++ '.' :: nm) (idv ++ '.' :: cid)) with
                       | some cv => (pure cv : Except CErr J)
                       | none => throw CErr.notFound)
                    | _ => throw CErr.notFound)
                  pure (jSet d2 (nm, false).1 (.arr l2))
              | true, _ => pure (jSet d2 (nm, false).1 (.arr []))
              | false, ev =>
                  if truthyO ev then do
                    let v2 ← (match ev.getD .null with
                      | J.str cid =>
                        (match getAssoc P (mkKey (sub ++ '.' :: nm)
                            (idv ++ '.' :: cid)) with
                         | some cv => (pure cv : Except CErr J)
                         | none => throw CErr.notFound)
                      | _ => throw CErr.notFound)
                    pure (jSet d2 (nm, false).1 v2)
                  else pure (jSet d2 (nm, false).1 .null)) = _
            rw [show jGet d2 (nm, false).1 = some J.null from hdl]
            show (if truthyO (some J.null) = true then _ else pure (jSet d2 nm J.null)) = _
            rw [show truthyO (some J.null) = false from rfl, bool_if_false]
            show Except.ok (jSet d2 nm J.null) = _
            rfl
          · have hdl : jGet d2 nm = some (J.str cid) := by rw [hdv, hg]
            have htr : truthy (J.str cid) = true := by
              show (!cid.isEmpty) = true
              rw [show cid.isEmpty = false from by simpa [List.isEmpty_iff] using hcid]
              rfl
            show (match (nm, false).2, jGet d2 (nm, false).1 with
              | true, some (.arr l) => do
                  let l2 ← l.mapM (fun e =>
                    match e with
                    | J.str cid =>
                      (match getAssoc P (mkKey (sub ++ '.' :: nm) (idv ++ '.' :: cid)) with
                       | some cv => (pure cv : Except CErr J)
                       | none => throw CErr.notFound)
                    | _ => throw CErr.notFound)
                  pure (jSet d2 (nm, false).1 (.arr l2))
              | true, _ => pure (jSet d2 (nm, false).1 (.arr []))
              | false, ev =>
                  if truthyO ev then do
                    let v2 ← (match ev.getD .null with
                      | J.str cid =>
                        (match getAssoc P (mkKey (sub ++ '.' :: nm)
                            (idv ++ '.' :: cid)) with
                         | some cv => (pure cv : Except CErr J)
                         | none => throw CErr.notFound)
                      | _ => throw CErr.notFound)
                    pure (jSet d2 (nm, false).1 v2)
                  else pure (jSet d2 (nm, false).1 .null)) = _
            rw [show jGet d2 (nm, false).1 = some (J.str cid) from hdl]
            show (if truthyO (some (J.str cid)) = true then (do
                let v2 ← (match getAssoc P (mkKey (sub ++ '.' :: nm)
                    (idv ++ '.' :: cid)) with
                  | some cv => (pure cv : Except CErr J)
                  | none => throw CErr.notFound)
                pure (jSet d2 nm v2))
              else pure (jSet d2 nm J.null)) = _
            rw [show truthyO (some (J.str cid)) = truthy (J.str cid) from rfl, htr,
              bool_if_true, hlk, except_pure_bind]
            show Except.ok (jSet d2 nm cv) = _
            rw [show resolveT P sub idv (nm, false) ((some (J.str cid)).getD J.null)
              = cv from by
                show (if truthy (J.str cid) = true
                  then resolveFn P sub idv (J.str cid) nm else J.null) = cv
                rw [htr, bool_if_true]
                show (getAssoc P (mkKey (sub ++ '.' :: nm) (idv ++ '.' :: cid))).getD
                  J.null = cv
                rw [hlk]
                rfl]
    -- the slot values of the resolved document
    have hv2read : ∀ nb ∈ HIERARCHY c,
        jGet (slotWrite (resolveT P sub idv) (HIERARCHY c)
          (jSet (J.obj fields) sKey (.str (mkKey sub idv)))) nb.1
        = some (resolveT P sub idv nb ((getAssoc fields nb.1).getD J.null)) := by
      intro nb hnb
      rw [slotWrite_read_mem _ _ _ nb hnodup hnb hpres1, hv1slots nb hnb]
    -- the recursion pass
    have hrec : unpackRowsWith (fun e nm => unpackDoc P fuel e nm (sub, idv))
        (slotWrite (resolveT P sub idv) (HIERARCHY c)
          (jSet (J.obj fields) sKey (.str (mkKey sub idv)))) (HIERARCHY c)
      = .ok (slotWrite (inflTW (inflate P fuel) sub idv) (HIERARCHY c)
          (slotWrite (resolveT P sub idv) (HIERARCHY c)
            (jSet (J.obj fields) sKey (.str (mkKey sub idv))))) := by
      refine unpackRowsWith_ok _ _
        (slotWrite (resolveT P sub idv) (HIERARCHY c)
          (jSet (J.obj fields) sKey (.str (mkKey sub idv)))) (HIERARCHY c) _
        (fun nb _ => rfl) ?_ hnodup ?_
      · intro nb hnb
        rw [hv2read nb hnb]
        rfl
      · intro nb hnb s2 hs2
        rw [hv2read nb hnb] at hs2
        have hs2e : resolveT P sub idv nb ((getAssoc fields nb.1).getD J.null) = s2 :=
          Option.some.inj hs2
        obtain ⟨nm, ar⟩ := nb
        have hnm : nm ≠ [] := (hhn (nm, ar) hnb).1
        have hkjs : keyJoin [sub, nm] = sub ++ '.' :: nm := keyJoin_cons2 sub nm hsub hnm
        rcases hrows (nm, ar) hnb with ⟨htru, hfal⟩
        cases ar with
        | true =>
          obtain ⟨l, hg, helems⟩ := htru rfl
          rw [show getAssoc fields (nm, true).1 = getAssoc fields nm from rfl] at hg
          have hgd : ((getAssoc fields (nm, true).1).getD J.null) = J.arr l := by
            rw [show getAssoc fields (nm, true).1 = getAssoc fields nm from rfl, hg]
            rfl
          rw [hgd] at hs2e
          have hs2arr : s2 = J.arr (l.map (fun e => resolveFn P sub idv e nm)) := by
            rw [← hs2e]
            rfl
          refine Or.inl ⟨rfl, l.map (fun e => resolveFn P sub idv e nm),
            (l.map (fun e => resolveFn P sub idv e nm)).map (fun e =>
              inflate P fuel (keyJoin [sub, nm]) (keyJoin [idv, jIdStr e]) nm e),
            hs2arr, ?_, ?_⟩
          · rw [hs2arr]
            rfl
          · apply unpackElemsWith_ok
            intro e2 he2
            obtain ⟨e, hel, he2eq⟩ := List.mem_map.mp he2
            obtain ⟨cid, cv, heq, hcid, hlk, hcv⟩ := helems e hel
            subst heq
            have hrfe : resolveFn P sub idv (J.str cid) nm = cv := by
              show (getAssoc P (mkKey (sub ++ '.' :: nm) (idv ++ '.' :: cid))).getD
                J.null = cv
              rw [show mkKey (sub ++ '.' :: (nm, true).1) (idv ++ '.' :: cid)
                = mkKey (sub ++ '.' :: nm) (idv ++ '.' :: cid) from rfl] at hlk
              rw [hlk]
              rfl
            rw [← he2eq, hrfe]
            have hids : jIdStr cv = cid := validAt_idStr2 hcv
            have ihc := ih (sub ++ '.' :: nm) (idv ++ '.' :: cid) cid nm cv hcv
              (by simp) (by simp)
            rw [show keyJoin [sub, nm] = sub ++ '.' :: nm from hkjs,
              show keyJoin [idv, jIdStr cv] = idv ++ '.' :: cid from by
                rw [hids]
                exact keyJoin_cons2 idv cid hidv hcid]
            exact ihc.1 (sub, idv) (by rw [show (sub, idv).1 = sub from rfl]; exact hkjs)
              (by
                rw [show (sub, idv).2 = idv from rfl, hids]
                exact keyJoin_cons2 idv cid hidv hcid)
        | false =>
          rcases hfal rfl with hg | ⟨cid, cv, hg, hcid, hlk, hcv⟩
          · rw [show getAssoc fields (nm, false).1 = getAssoc fields nm from rfl] at hg
            have hgd : ((getAssoc fields (nm, false).1).getD J.null) = J.null := by
              rw [show getAssoc fields (nm, false).1 = getAssoc fields nm from rfl, hg]
              rfl
            rw [hgd] at hs2e
            have hs2n : s2 = J.null := by
              rw [← hs2e]
              rfl
            refine Or.inr (Or.inl ⟨by rw [hs2n]; rfl, ?_⟩)
            rw [hs2n]
            rfl
          · rw [show getAssoc fields (nm, false).1 = getAssoc fields nm from rfl] at hg
            have htr : truthy (J.str cid) = true := by
              show (!cid.isEmpty) = true
              rw [show cid.isEmpty = false from by simpa [List.isEmpty_iff] using hcid]
              rfl
            have hgd : ((getAssoc fields (nm, false).1).getD J.null) = J.str cid := by
              rw [show getAssoc fields (nm, false).1 = getAssoc fields nm from rfl, hg]
              rfl
            rw [hgd] at hs2e
            have hs2c : s2 = cv := by
              rw [← hs2e]
              show (if truthy (J.str cid) = true
                then resolveFn P sub idv (J.str cid) nm else J.null) = cv
              rw [htr, bool_if_true]
              show (getAssoc P (mkKey (sub ++ '.' :: nm) (idv ++ '.' :: cid))).getD
                J.null = cv
              rw [show mkKey (sub ++ '.' :: (nm, false).1) (idv ++ '.' :: cid)
                = mkKey (sub ++ '.' :: nm) (idv ++ '.' :: cid) from rfl] at hlk
              rw [hlk]
              rfl
            obtain ⟨cf, hcf⟩ := validAt_obj2 hcv
            have hids : jIdStr cv = cid := validAt_idStr2 hcv
            have ihc := ih (sub ++ '.' :: nm) (idv ++ '.' :: cid) cid nm cv hcv
              (by simp) (by simp)
            refine Or.inr (Or.inr ⟨rfl, by rw [hs2c, hcf]; rfl, ?_⟩)
            rw [hs2c]
            show unpackDoc P fuel cv nm (sub, idv) = .ok (inflTW (inflate P fuel) sub idv
              (nm, false) cv)
            rw [show inflTW (inflate P fuel) sub idv (nm, false) cv
              = inflate P fuel (keyJoin [sub, nm]) (keyJoin [idv, jIdStr cv]) nm cv from by
                show (if truthy cv = true then inflate P fuel (keyJoin [sub, nm])
                  (keyJoin [idv, jIdStr cv]) nm cv else cv) = _
                rw [show truthy cv = true from by rw [hcf]; rfl, bool_if_true]]
            rw [show keyJoin [sub, nm] = sub ++ '.' :: nm from hkjs,
              show keyJoin [idv, jIdStr cv] = idv ++ '.' :: cid from by
                rw [hids]
                exact keyJoin_cons2 idv cid hidv hcid]
            exact ihc.1 (sub, idv) (by rw [show (sub, idv).1 = sub from rfl]; exact hkjs)
              (by
                rw [show (sub, idv).2 = idv from rfl, hids]
                exact keyJoin_cons2 idv cid hidv hcid)
    -- conclusion A
    have hA : ∀ pre : Str × Str, keyJoin [pre.1, c] = sub →
        keyJoin [pre.2, jIdStr (J.obj fields)] = idv →
        unpackDoc P (fuel+1) (J.obj fields) c pre
          = .ok (inflate P (fuel+1) sub idv c (J.obj fields)) := by
      intro pre hp1 hp2
      have e1 : unpackDoc P (fuel+1) (J.obj fields) c pre =
          (pure (jSet (J.obj fields) sKey (.str (mkKey (keyJoin [pre.1, c])
              (keyJoin [pre.2, jIdStr (J.obj fields)])))) >>= fun d1 =>
            mapHierarchyM (fun e nm =>
              match e with
              | .str cid =>
                (match getAssoc P (mkKey (keyJoin [pre.1, c] ++ '.' :: nm)
                    (keyJoin [pre.2, jIdStr (J.obj fields)] ++ '.' :: cid)) with
                 | some cv => pure cv
                 | none => throw CErr.notFound)
              | _ => throw CErr.notFound) d1 c >>= fun d2 =>
              unpackRowsWith (fun e nm => unpackDoc P fuel e nm
                (keyJoin [pre.1, c], keyJoin [pre.2, jIdStr (J.obj fields)]))
                d2 (HIERARCHY c)) := by
        simp only [unpackDoc]
      rw [e1, hp1, hp2, except_pure_bind,
        hres (jSet (J.obj fields) sKey (.str (mkKey sub idv))) hv1slots,
        except_ok_bind, hrec, hinf]
    refine ⟨hA, hB, hC, ?_⟩
    intro hPv seen batch hnd
    have hdel0 : jDel (jSet (J.obj fields) sKey (J.str (mkKey sub idv))) sKey
        = J.obj fields := congrArg J.obj (delAssoc_setAssoc_absent fields sKey _ hkeyN)
    have hdel : jDel (inflate P (fuel+1) sub idv c (J.obj fields)) sKey
        = slotWrite (fun nb s => inflTW (inflate P fuel) sub idv nb
            (resolveT P sub idv nb s)) (HIERARCHY c) (J.obj fields) := by
      rw [hinf,
        slotWrite_jDel_comm _ _ _ sKey (fun nb hnb => (hhn nb hnb).2.2.1),
        slotWrite_jDel_comm _ _ _ sKey (fun nb hnb => (hhn nb hnb).2.2.1),
        hdel0,
        slotWrite_comp (resolveT P sub idv) (inflTW (inflate P fuel) sub idv)
          (HIERARCHY c) (J.obj fields) hnodup hpres]
    have hdslot : ∀ nb ∈ HIERARCHY c,
        jGet (jDel (inflate P (fuel+1) sub idv c (J.obj fields)) sKey) nb.1
          = some (inflTW (inflate P fuel) sub idv nb
              (resolveT P sub idv nb ((getAssoc fields nb.1).getD J.null))) := by
      intro nb hnb
      rw [hdel, slotWrite_read_mem _ _ _ nb hnodup hnb hpres]
      rfl
    have hvalue : mapHierarchyP (fun d _ => (jGet d sId).getD .null)
        (jDel (inflate P (fuel+1) sub idv c (J.obj fields)) sKey) c = J.obj fields := by
      rw [hdel]
      rw [show mapHierarchyP (fun d _ => (jGet d sId).getD .null)
          (slotWrite (fun nb s => inflTW (inflate P fuel) sub idv nb
            (resolveT P sub idv nb s)) (HIERARCHY c) (J.obj fields)) c
          = slotWrite stripT (HIERARCHY c)
            (slotWrite (fun nb s => inflTW (inflate P fuel) sub idv nb
              (resolveT P sub idv nb s)) (HIERARCHY c) (J.obj fields))
        from mapHierarchyP_strip_rows (HIERARCHY c) _]
      rw [slotWrite_comp _ stripT (HIERARCHY c) (J.obj fields) hnodup hpres]
      apply slotWrite_id _ _ _ hpres
      intro nb hnb
      obtain ⟨nm, ar⟩ := nb
      have hnm : nm ≠ [] := (hhn (nm, ar) hnb).1
      have hkjs : keyJoin [sub, nm] = sub ++ '.' :: nm := keyJoin_cons2 sub nm hsub hnm
      rcases hrows (nm, ar) hnb with ⟨htru, hfal⟩
      cases ar with
      | true =>
        obtain ⟨l, hg, helems⟩ := htru rfl
        have hgd : ((jGet (J.obj fields) (nm, true).1).getD J.null) = J.arr l := by
          rw [show jGet (J.obj fields) (nm, true).1 = getAssoc fields nm from rfl, hg]
          rfl
        rw [hgd]
        show J.arr ((((l.map (fun e => resolveFn P sub idv e nm)).map
            (fun e => inflate P fuel (keyJoin [sub, nm])
              (keyJoin [idv, jIdStr e]) nm e)).map
            (fun e => (jGet e sId).getD J.null))) = J.arr l
        rw [List.map_map, List.map_map]
        refine congrArg J.arr (map_id_of_mem _ l ?_)
        intro e hel
        obtain ⟨cid, cv, heq, hcid, hlk, hcv⟩ := helems e hel
        subst heq
        rw [show mkKey (sub ++ '.' :: (nm, true).1) (idv ++ '.' :: cid)
          = mkKey (sub ++ '.' :: nm) (idv ++ '.' :: cid) from rfl] at hlk
        have hids : jIdStr cv = cid := validAt_idStr2 hcv
        have ihc := ih (sub ++ '.' :: nm) (idv ++ '.' :: cid) cid nm cv hcv
          (by simp) (by simp)
        have hrfe : resolveFn P sub idv (J.str cid) nm = cv := by
          show (getAssoc P (mkKey (sub ++ '.' :: nm) (idv ++ '.' :: cid))).getD
            J.null = cv
          rw [hlk]
          rfl
        show (jGet (inflate P fuel (keyJoin [sub, nm])
          (keyJoin [idv, jIdStr (resolveFn P sub idv (J.str cid) nm)]) nm
          (resolveFn P sub idv (J.str cid) nm)) sId).getD J.null = J.str cid
        rw [hrfe, hids, hkjs, keyJoin_cons2 idv cid hidv hcid, ihc.2.2.1]
        rfl
      | false =>
        rcases hfal rfl with hg | ⟨cid, cv, hg, hcid, hlk, hcv⟩
        · have hgd : ((jGet (J.obj fields) (nm, false).1).getD J.null) = J.null := by
            rw [show jGet (J.obj fields) (nm, false).1 = getAssoc fields nm from rfl, hg]
            rfl
          rw [hgd]
          rfl
        · have hgd : ((jGet (J.obj fields) (nm, false).1).getD J.null) = J.str cid := by
            rw [show jGet (J.obj fields) (nm, false).1 = getAssoc fields nm from rfl, hg]
            rfl
          rw [hgd]
          rw [show mkKey (sub ++ '.' :: (nm, false).1) (idv ++ '.' :: cid)
            = mkKey (sub ++ '.' :: nm) (idv ++ '.' :: cid) from rfl] at hlk
          have htr : truthy (J.str cid) = true := by
            show (!cid.isEmpty) = true
            rw [show cid.isEmpty = false from by
              simpa [List.isEmpty_iff] using hcid]
            rfl
          have hids : jIdStr cv = cid := validAt_idStr2 hcv
          obtain ⟨cf, hcf⟩ := validAt_obj2 hcv
          have ihc := ih (sub ++ '.' :: nm) (idv ++ '.' :: cid) cid nm cv hcv
            (by simp) (by simp)
          have e1 : resolveT P sub idv (nm, false) (J.str cid) = cv := by
            show (if truthy (J.str cid) = true
              then resolveFn P sub idv (J.str cid) nm else J.null) = cv
            rw [htr, bool_if_true]
            show (getAssoc P (mkKey (sub ++ '.' :: nm) (idv ++ '.' :: cid))).getD
              J.null = cv
            rw [hlk]
            rfl
          have e2 : inflTW (inflate P fuel) sub idv (nm, false) cv
              = inflate P fuel (sub ++ '.' :: nm) (idv ++ '.' :: cid) nm cv := by
            show (if truthy cv = true then inflate P fuel (keyJoin [sub, nm])
              (keyJoin [idv, jIdStr cv]) nm cv else cv) = _
            rw [show truthy cv = true from by rw [hcf]; rfl, bool_if_true,
              hkjs, hids, keyJoin_cons2 idv cid hidv hcid]
          show stripT (nm, false) (inflTW (inflate P fuel) sub idv (nm, false)
            (resolveT P sub idv (nm, false) (J.str cid))) = J.str cid
          rw [e1, e2]
          obtain ⟨g, hobj⟩ := jGet_some_obj
            (inflate P fuel (sub ++ '.' :: nm) (idv ++ '.' :: cid) nm cv) sKey
            (by rw [ihc.2.1]; rfl)
          show (if truthy (inflate P fuel (sub ++ '.' :: nm) (idv ++ '.' :: cid) nm cv)
              = true
            then (jGet (inflate P fuel (sub ++ '.' :: nm) (idv ++ '.' :: cid) nm cv)
              sId).getD J.null
            else J.null) = J.str cid
          rw [show truthy (inflate P fuel (sub ++ '.' :: nm) (idv ++ '.' :: cid) nm cv)
            = true from by rw [hobj]; rfl, bool_if_true, ihc.2.2.1]
          rfl
    have hsk : subKeys P (fuel+1) sub idv c (J.obj fields)
        = mkKey sub idv ::
          ((HIERARCHY c).map (rowSubKeys P fuel sub idv (J.obj fields))).flatten := rfl
    rw [hsk, List.map_cons, List.cons_append] at hnd
    have hndp := List.nodup_cons.mp hnd
    have hc0 : seen.contains (some (J.str (mkKey sub idv))) = false := by
      rw [contains_opt_eq_mem]
      exact decide_eq_false (fun hm => hndp.1 (List.mem_append.mpr (Or.inr hm)))
    have e2 : packWalk (fuel+1) (inflate P (fuel+1) sub idv c (J.obj fields)) c
        (seen, batch)
        = stWalkRows (packWalk fuel)
            (jDel (inflate P (fuel+1) sub idv c (J.obj fields)) sKey) (HIERARCHY c)
            (some (J.str (mkKey sub idv)) :: seen,
             batch ++ [(mkKey sub idv, mapHierarchyP (fun d _ => (jGet d sId).getD .null)
               (jDel (inflate P (fuel+1) sub idv c (J.obj fields)) sKey) c)]) := by
      simp only [packWalk, hB]
      rw [hc0, bool_if_false, except_pure_bind]
    have hrowsOK : ∀ nb ∈ HIERARCHY c, ∀ s2 b2,
        ((rowSubKeys P fuel sub idv (J.obj fields) nb).map (fun k => some (J.str k))
          ++ s2).Nodup →
        (match nb.2, jGet (jDel (inflate P (fuel+1) sub idv c (J.obj fields)) sKey) nb.1
          with
         | true, some (.arr l) => stWalkElems (packWalk fuel) nb.1 l (s2, b2)
         | _, ev => if truthyO ev then packWalk fuel (ev.getD .null) nb.1 (s2, b2)
             else pure (s2, b2))
        = .ok (((rowSubKeys P fuel sub idv (J.obj fields) nb).map
            (fun k => some (J.str k))).reverse ++ s2,
          b2 ++ (rowSubKeys P fuel sub idv (J.obj fields) nb).map
            (fun k => (k, (getAssoc P k).getD J.null))) := by
      intro nb hnb s2 b2 hnds
      obtain ⟨nm, ar⟩ := nb
      have hnm : nm ≠ [] := (hhn (nm, ar) hnb).1
      have hkjs : keyJoin [sub, nm] = sub ++ '.' :: nm := keyJoin_cons2 sub nm hsub hnm
      rcases hrows (nm, ar) hnb with ⟨htru, hfal⟩
      cases ar with
      | true =>
        obtain ⟨l, hg, helems⟩ := htru rfl
        have hgd : ((getAssoc fields (nm, true).1).getD J.null) = J.arr l := by
          rw [show getAssoc fields (nm, true).1 = getAssoc fields nm from rfl, hg]
          rfl
        have hsl : jGet (jDel (inflate P (fuel+1) sub idv c (J.obj fields)) sKey)
            (nm, true).1
            = some (J.arr ((l.map (fun e => resolveFn P sub idv e nm)).map
                (fun e => inflate P fuel (keyJoin [sub, nm])
                  (keyJoin [idv, jIdStr e]) nm e))) := by
          rw [hdslot (nm, true) hnb, hgd]
          rfl
        rw [hsl]
        have hrs : rowSubKeys P fuel sub idv (J.obj fields) (nm, true)
            = (l.map (elemSubKeys P fuel sub idv nm)).flatten := by
          show (match jGet (J.obj fields) nm with
            | some (.arr l2) =>
              (l2.map (fun e => elemSubKeys P fuel sub idv nm e)).flatten
            | _ => []) = _
          rw [show jGet (J.obj fields) nm = some (J.arr l) from hg]
        rw [hrs] at hnds ⊢
        show stWalkElems (packWalk fuel) nm
            ((l.map (fun e => resolveFn P sub idv e nm)).map
              (fun e => inflate P fuel (keyJoin [sub, nm])
                (keyJoin [idv, jIdStr e]) nm e)) (s2, b2) = _
        rw [List.map_map]
        show stWalkElems (packWalk fuel) nm
            (l.map (fun e => inflate P fuel (keyJoin [sub, nm])
              (keyJoin [idv, jIdStr (resolveFn P sub idv e nm)]) nm
              (resolveFn P sub idv e nm))) (s2, b2) = _
        have hpe : ∀ e ∈ l, ∀ s3 b3,
            (((elemSubKeys P fuel sub idv nm e).map (fun k => some (J.str k)))
              ++ s3).Nodup →
            packWalk fuel (inflate P fuel (keyJoin [sub, nm])
              (keyJoin [idv, jIdStr (resolveFn P sub idv e nm)]) nm
              (resolveFn P sub idv e nm)) nm (s3, b3)
            = .ok ((((elemSubKeys P fuel sub idv nm e).map
                  (fun k => some (J.str k))).reverse) ++ s3,
                b3 ++ (elemSubKeys P fuel sub idv nm e).map
                  (fun k => (k, (getAssoc P k).getD J.null))) := by
          intro e hel s3 b3 hnd3
          obtain ⟨cid, cv, heq, hcid, hlk, hcv⟩ := helems e hel
          subst heq
          rw [show mkKey (sub ++ '.' :: (nm, true).1) (idv ++ '.' :: cid)
            = mkKey (sub ++ '.' :: nm) (idv ++ '.' :: cid) from rfl] at hlk
          have hids : jIdStr cv = cid := validAt_idStr2 hcv
          have ihc := ih (sub ++ '.' :: nm) (idv ++ '.' :: cid) cid nm cv hcv
            (by simp) (by simp)
          have hrfe : resolveFn P sub idv (J.str cid) nm = cv := by
            show (getAssoc P (mkKey (sub ++ '.' :: nm) (idv ++ '.' :: cid))).getD
              J.null = cv
            rw [hlk]
            rfl
          have hesk : elemSubKeys P fuel sub idv nm (J.str cid)
              = subKeys P fuel (sub ++ '.' :: nm) (idv ++ '.' :: cid) nm cv := by
            show subKeys P fuel (sub ++ '.' :: nm) (idv ++ '.' :: cid) nm
              ((getAssoc P (mkKey (sub ++ '.' :: nm) (idv ++ '.' :: cid))).getD
                J.null) = _
            rw [hlk]
            rfl
          rw [hesk] at hnd3
          rw [hrfe, hids, hkjs, keyJoin_cons2 idv cid hidv hcid, hesk]
          exact ihc.2.2.2 hlk s3 b3 hnd3
        have hflKe : ((l.map (elemSubKeys P fuel sub idv nm)).flatten).map
            (fun k => some (J.str k))
            = ((l.map (fun e =>
                ((elemSubKeys P fuel sub idv nm e).map (fun k => some (J.str k)),
                 (elemSubKeys P fuel sub idv nm e).map
                   (fun k => (k, (getAssoc P k).getD J.null))))).map Prod.fst).flatten := by
          rw [map_flatten_map, List.map_map]
          rfl
        have hflEe : ((l.map (elemSubKeys P fuel sub idv nm)).flatten).map
            (fun k => (k, (getAssoc P k).getD J.null))
            = ((l.map (fun e =>
                ((elemSubKeys P fuel sub idv nm e).map (fun k => some (J.str k)),
                 (elemSubKeys P fuel sub idv nm e).map
                   (fun k => (k, (getAssoc P k).getD J.null))))).map Prod.snd).flatten := by
          rw [map_flatten_map, List.map_map]
          rfl
        rw [hflKe] at hnds
        rw [stWalkElems_entries (packWalk fuel) nm
          (l.map (fun e => inflate P fuel (keyJoin [sub, nm])
            (keyJoin [idv, jIdStr (resolveFn P sub idv e nm)]) nm
            (resolveFn P sub idv e nm)))
          (l.map (fun e =>
            ((elemSubKeys P fuel sub idv nm e).map (fun k => some (J.str k)),
             (elemSubKeys P fuel sub idv nm e).map
               (fun k => (k, (getAssoc P k).getD J.null)))))
          (forall2_map_map _ _ _ l hpe) s2 b2 hnds, ← hflKe, ← hflEe]
      | false =>
        rcases hfal rfl with hg | ⟨cid, cv, hg, hcid, hlk, hcv⟩
        · have hgd : ((getAssoc fields (nm, false).1).getD J.null) = J.null := by
            rw [show getAssoc fields (nm, false).1 = getAssoc fields nm from rfl, hg]
            rfl
          have hsl : jGet (jDel (inflate P (fuel+1) sub idv c (J.obj fields)) sKey)
              (nm, false).1 = some J.null := by
            rw [hdslot (nm, false) hnb, hgd]
            rfl
          rw [hsl]
          have hrs : rowSubKeys P fuel sub idv (J.obj fields) (nm, false) = [] := by
            show (match jGet (J.obj fields) nm with
              | some (.str cid2) =>
                subKeys P fuel (sub ++ '.' :: nm) (idv ++ '.' :: cid2) nm
                  ((getAssoc P (mkKey (sub ++ '.' :: nm)
                    (idv ++ '.' :: cid2))).getD .null)
              | _ => []) = []
            rw [show jGet (J.obj fields) nm = some J.null from hg]
          rw [hrs]
          show (if truthyO (some J.null) = true
            then packWalk fuel ((some J.null).getD J.null) nm (s2, b2)
            else pure (s2, b2)) = _
          rw [show truthyO (some J.null) = false from rfl, bool_if_false]
          show Except.ok (s2, b2) = _
          simp
        · rw [show mkKey (sub ++ '.' :: (nm, false).1) (idv ++ '.' :: cid)
            = mkKey (sub ++ '.' :: nm) (idv ++ '.' :: cid) from rfl] at hlk
          have hgd : ((getAssoc fields (nm, false).1).getD J.null) = J.str cid := by
            rw [show getAssoc fields (nm, false).1 = getAssoc fields nm from rfl, hg]
            rfl
          have htr : truthy (J.str cid) = true := by
            show (!cid.isEmpty) = true
            rw [show cid.isEmpty = false from by
              simpa [List.isEmpty_iff] using hcid]
            rfl
          have hids : jIdStr cv = cid := validAt_idStr2 hcv
          obtain ⟨cf, hcf⟩ := validAt_obj2 hcv
          have ihc := ih (sub ++ '.' :: nm) (idv ++ '.' :: cid) cid nm cv hcv
            (by simp) (by simp)
          have e1 : resolveT P sub idv (nm, false) (J.str cid) = cv := by
            show (if truthy (J.str cid) = true
              then resolveFn P sub idv (J.str cid) nm else J.null) = cv
            rw [htr, bool_if_true]
            show (getAssoc P (mkKey (sub ++ '.' :: nm) (idv ++ '.' :: cid))).getD
              J.null = cv
            rw [hlk]
            rfl
          have e3 : inflTW (inflate P fuel) sub idv (nm, false) cv
              = inflate P fuel (sub ++ '.' :: nm) (idv ++ '.' :: cid) nm cv := by
            show (if truthy cv = true then inflate P fuel (keyJoin [sub, nm])
              (keyJoin [idv, jIdStr cv]) nm cv else cv) = _
            rw [show truthy cv = true from by rw [hcf]; rfl, bool_if_true,
              hkjs, hids, keyJoin_cons2 idv cid hidv hcid]
          have hsl : jGet (jDel (inflate P (fuel+1) sub idv c (J.obj fields)) sKey)
              (nm, false).1
              = some (inflate P fuel (sub ++ '.' :: nm) (idv ++ '.' :: cid) nm cv) := by
            rw [hdslot (nm, false) hnb, hgd]
            rw [show inflTW (inflate P fuel) sub idv (nm, false)
              (resolveT P sub idv (nm, false) (J.str cid))
              = inflTW (inflate P fuel) sub idv (nm, false) cv from by rw [e1], e3]
          rw [hsl]
          have hrs : rowSubKeys P fuel sub idv (J.obj fields) (nm, false)
              = subKeys P fuel (sub ++ '.' :: nm) (idv ++ '.' :: cid) nm cv := by
            show (match jGet (J.obj fields) nm with
              | some (.str cid2) =>
                subKeys P fuel (sub ++ '.' :: nm) (idv ++ '.' :: cid2) nm
                  ((getAssoc P (mkKey (sub ++ '.' :: nm)
                    (idv ++ '.' :: cid2))).getD .null)
              | _ => []) = _
            rw [show jGet (J.obj fields) nm = some (J.str cid) from hg]
            show subKeys P fuel (sub ++ '.' :: nm) (idv ++ '.' :: cid) nm
              ((getAssoc P (mkKey (sub ++ '.' :: nm) (idv ++ '.' :: cid))).getD
                J.null) = _
            rw [hlk]
            rfl
          rw [hrs] at hnds ⊢
          obtain ⟨g, hobj⟩ := jGet_some_obj
            (inflate P fuel (sub ++ '.' :: nm) (idv ++ '.' :: cid) nm cv) sKey
            (by rw [ihc.2.1]; rfl)
          show (if truthyO (some (inflate P fuel (sub ++ '.' :: nm)
              (idv ++ '.' :: cid) nm cv)) = true
            then packWalk fuel ((some (inflate P fuel (sub ++ '.' :: nm)
              (idv ++ '.' :: cid) nm cv)).getD J.null) nm (s2, b2)
            else pure (s2, b2)) = _
          rw [show truthyO (some (inflate P fuel (sub ++ '.' :: nm)
            (idv ++ '.' :: cid) nm cv)) = true from by
              show truthy (inflate P fuel (sub ++ '.' :: nm)
                (idv ++ '.' :: cid) nm cv) = true
              rw [hobj]
              rfl, bool_if_true]
          exact ihc.2.2.2 hlk s2 b2 hnds
    have hwalk := stWalkRows_entries (packWalk fuel)
      (jDel (inflate P (fuel+1) sub idv c (J.obj fields)) sKey) (HIERARCHY c)
      ((HIERARCHY c).map (fun nb =>
        ((rowSubKeys P fuel sub idv (J.obj fields) nb).map (fun k => some (J.str k)),
         (rowSubKeys P fuel sub idv (J.obj fields) nb).map
           (fun k => (k, (getAssoc P k).getD J.null)))))
      (forall2_map_self _ _ (HIERARCHY c) hrowsOK)
    have hflK : (((HIERARCHY c).map (rowSubKeys P fuel sub idv (J.obj fields))).flatten).map
        (fun k => some (J.str k))
        = (((HIERARCHY c).map (fun nb =>
            ((rowSubKeys P fuel sub idv (J.obj fields) nb).map (fun k => some (J.str k)),
             (rowSubKeys P fuel sub idv (J.obj fields) nb).map
               (fun k => (k, (getAssoc P k).getD J.null))))).map Prod.fst).flatten := by
      rw [map_flatten_map, List.map_map]
      rfl
    have hflE : (((HIERARCHY c).map (rowSubKeys P fuel sub idv (J.obj fields))).flatten).map
        (fun k => (k, (getAssoc P k).getD J.null))
        = (((HIERARCHY c).map (fun nb =>
            ((rowSubKeys P fuel sub idv (J.obj fields) nb).map (fun k => some (J.str k)),
             (rowSubKeys P fuel sub idv (J.obj fields) nb).map
               (fun k => (k, (getAssoc P k).getD J.null))))).map Prod.snd).flatten := by
      rw [map_flatten_map, List.map_map]
      rfl
    have hndW : (((((HIERARCHY c).map (fun nb =>
        ((rowSubKeys P fuel sub idv (J.obj fields) nb).map (fun k => some (J.str k)),
         (rowSubKeys P fuel sub idv (J.obj fields) nb).map
           (fun k => (k, (getAssoc P k).getD J.null))))).map Prod.fst).flatten)
        ++ (some (J.str (mkKey sub idv)) :: seen)).Nodup := by
      rw [← hflK]
      exact (List.perm_middle.nodup_iff).mpr hnd
    rw [e2, hvalue, hwalk (some (J.str (mkKey sub idv)) :: seen)
      (batch ++ [(mkKey sub idv, J.obj fields)]) hndW]
    rw [hsk, ← hflK, ← hflE, List.map_cons, List.map_cons, List.reverse_cons, hPv]
    simp [List.append_assoc]

/-! ## From the subtree lemma to the whole pipeline -/

theorem map_eq_map_of_mem {α β : Type} (f g : α → β) : ∀ l : List α,
    (∀ a ∈ l, f a = g a) → l.map f = l.map g := by
  intro l
  induction l with
  | nil => intro _; rfl
  | cons a t ih =>
    intro h
    rw [List.map_cons, List.map_cons, h a (List.mem_cons_self a t),
      ih (fun x hx => h x (List.mem_cons_of_mem a hx))]

theorem splitChar_ne_nil (c : Char) : ∀ s : Str, splitChar c s ≠ [] := by
  intro s
  induction s with
  | nil => simp [splitChar]
  | cons a rest ih =>
    by_cases h : a = c
    · simp [splitChar, h]
    · simp only [splitChar, if_neg h]
      cases hs : splitChar c rest with
      | nil => simp
      | cons x t => simp

theorem splitChar_no_sep (c : Char) : ∀ (s : Str), ∀ p ∈ splitChar c s, c ∉ p := by
  intro s
  induction s with
  | nil =>
    intro p hp
    simp only [splitChar, List.mem_singleton] at hp
    subst hp
    simp
  | cons a rest ih =>
    intro p hp
    by_cases h : a = c
    · rw [show splitChar c (a :: rest) = [] :: splitChar c rest from by
        simp [splitChar, h]] at hp
      rcases List.mem_cons.mp hp with he | hm
      · subst he; simp
      · exact ih p hm
    · simp only [splitChar, if_neg h] at hp
      cases hs : splitChar c rest with
      | nil => exact absurd hs (splitChar_ne_nil c rest)
      | cons x t =>
        rw [hs] at hp
        rcases List.mem_cons.mp hp with he | hm
        · subst he
          intro hc
          rcases List.mem_cons.mp hc with he2 | hm2
          · exact h he2.symm
          · exact ih x (hs ▸ List.mem_cons_self x t) hm2
        · exact ih p (hs ▸ List.mem_cons_of_mem x hm)

theorem joinChar_cons (c : Char) (x : Str) (s : List Str) (h : s ≠ []) :
    joinChar c (x :: s) = x ++ c :: joinChar c s := by
  cases s with
  | nil => exact absurd rfl h
  | cons y t => rfl

theorem joinChar_splitChar (c : Char) : ∀ s : Str, joinChar c (splitChar c s) = s := by
  intro s
  induction s with
  | nil => rfl
  | cons a rest ih =>
    by_cases h : a = c
    · rw [show splitChar c (a :: rest) = [] :: splitChar c rest from by
        simp [splitChar, h],
        joinChar_cons c [] _ (splitChar_ne_nil c rest), ih, h]
      rfl
    · simp only [splitChar, if_neg h]
      cases hs : splitChar c rest with
      | nil => exact absurd hs (splitChar_ne_nil c rest)
      | cons x t =>
        cases t with
        | nil =>
          rw [hs] at ih
          show a :: x = a :: rest
          rw [show joinChar c [x] = x from rfl] at ih
          rw [ih]
        | cons y t2 =>
          rw [hs] at ih
          rw [joinChar_cons c x (y :: t2) (by simp)] at ih
          show (a :: x) ++ c :: joinChar c (y :: t2) = a :: rest
          rw [show (a :: x) ++ c :: joinChar c (y :: t2)
            = a :: (x ++ c :: joinChar c (y :: t2)) from rfl, ih]

theorem parseKey_inv (k c i : Str) (h : parseKey k = some (c, i)) :
    k = mkKey c i ∧ ¬ '!' ∈ c ∧ ¬ '!' ∈ i ∧ c ≠ [] ∧ i ≠ [] := by
  cases hs : splitChar '!' k with
  | nil => exact absurd hs (splitChar_ne_nil '!' k)
  | cons e rest =>
    cases rest with
    | nil =>
      simp only [parseKey, hs] at h
      cases h
    | cons c2 rest2 =>
      cases rest2 with
      | nil =>
        simp only [parseKey, hs] at h
        cases h
      | cons i2 rest3 =>
        cases rest3 with
        | cons z rest4 =>
          simp only [parseKey, hs] at h
          cases h
        | nil =>
          simp only [parseKey, hs] at h
          split at h
          case isTrue hcond =>
            have hpair := Option.some.inj h
            have hc2 : c2 = c := congrArg Prod.fst hpair
            have hi2 : i2 = i := congrArg Prod.snd hpair
            rw [← hc2, ← hi2]
            have he : e = [] := by
              have h1 := (Bool.and_eq_true _ _).mp hcond
              have h2 := (Bool.and_eq_true _ _).mp h1.1
              exact of_decide_eq_true h2.1
            subst he
            have hcne : c2 ≠ [] := by
              have h1 := (Bool.and_eq_true _ _).mp hcond
              have h2 := (Bool.and_eq_true _ _).mp h1.1
              simpa [List.isEmpty_iff] using h2.2
            have hine : i2 ≠ [] := by
              have h1 := (Bool.and_eq_true _ _).mp hcond
              simpa [List.isEmpty_iff] using h1.2
            refine ⟨?_, ?_, ?_, hcne, hine⟩
            · rw [← joinChar_splitChar '!' k, hs]
              rfl
            · exact splitChar_no_sep '!' k c2 (by rw [hs]; simp)
            · exact splitChar_no_sep '!' k i2 (by rw [hs]; simp)
          case isFalse => cases h

theorem foldlM_id_except {α : Type} (f : J → α → Except CErr J) : ∀ (l : List α) (d : J),
    (∀ a ∈ l, f d a = .ok d) → l.foldlM f d = .ok d := by
  intro l
  induction l with
  | nil => intro d _; rfl
  | cons a t ih =>
    intro d h
    show (f d a >>= fun d2 => t.foldlM f d2) = _
    rw [h a (List.mem_cons_self a t), except_ok_bind]
    exact ih d (fun x hx => h x (List.mem_cons_of_mem a hx))

theorem getAssoc_none_of_not_mem (k : Str) : ∀ (f : List (Str × J)),
    k ∉ f.map Prod.fst → getAssoc f k = none := by
  intro f
  induction f with
  | nil => intro _; rfl
  | cons e t ih =>
    intro h
    obtain ⟨k2, v2⟩ := e
    have hne : k2 ≠ k := by
      intro he
      exact h (by rw [List.map_cons]; exact he ▸ List.mem_cons_self k2 _)
    show (if k2 = k then some v2 else getAssoc t k) = none
    rw [if_neg hne]
    exact ih (fun hm => h (by rw [List.map_cons]; exact List.mem_cons_of_mem k2 hm))

theorem getAssoc_of_mem_nodup (k : Str) (v : J) : ∀ (f : List (Str × J)),
    (f.map Prod.fst).Nodup → (k, v) ∈ f → getAssoc f k = some v := by
  intro f
  induction f with
  | nil => intro _ h; cases h
  | cons e t ih =>
    intro hnd hm
    obtain ⟨k2, v2⟩ := e
    rw [List.map_cons] at hnd
    have hnd2 := List.nodup_cons.mp hnd
    rcases List.mem_cons.mp hm with he | hm2
    · rw [show k = k2 from congrArg Prod.fst he,
        show v = v2 from congrArg Prod.snd he]
      show (if k2 = k2 then some v2 else getAssoc t k2) = some v2
      rw [if_pos rfl]
    · have hne : k2 ≠ k := by
        intro he2
        apply hnd2.1
        have hmm := List.mem_map_of_mem Prod.fst hm2
        rw [he2]
        exact hmm
      show (if k2 = k then some v2 else getAssoc t k) = some v
      rw [if_neg hne]
      exact ih hnd2.2 hm2

theorem mem_of_getAssoc (k : Str) (v : J) : ∀ (f : List (Str × J)),
    getAssoc f k = some v → (k, v) ∈ f := by
  intro f
  induction f with
  | nil => intro h; cases h
  | cons e t ih =>
    intro h
    obtain ⟨k2, v2⟩ := e
    by_cases he : k2 = k
    · subst he
      rw [show getAssoc ((k2, v2) :: t) k2 = some v2 from by
        show (if k2 = k2 then some v2 else getAssoc t k2) = some v2
        rw [if_pos rfl]] at h
      rw [show v = v2 from (Option.some.inj h).symm]
      exact List.mem_cons_self _ _
    · rw [show getAssoc ((k2, v2) :: t) k = getAssoc t k from by
        show (if k2 = k then some v2 else getAssoc t k) = _
        rw [if_neg he]] at h
      exact List.mem_cons_of_mem _ (ih h)

theorem setAssoc_append_absent (k : Str) (v : J) : ∀ (f : List (Str × J)),
    getAssoc f k = none → setAssoc f k v = f ++ [(k, v)] := by
  intro f
  induction f with
  | nil => intro _; rfl
  | cons e t ih =>
    intro h
    obtain ⟨k2, v2⟩ := e
    have hne : k2 ≠ k := by
      intro he
      subst he
      rw [show getAssoc ((k2, v2) :: t) k2 = some v2 from by
        show (if k2 = k2 then some v2 else getAssoc t k2) = some v2
        rw [if_pos rfl]] at h
      cases h
    rw [show getAssoc ((k2, v2) :: t) k = getAssoc t k from by
      show (if k2 = k then some v2 else getAssoc t k) = _
      rw [if_neg hne]] at h
    show (if k2 = k then (k, v) :: t else (k2, v2) :: setAssoc t k v) = _
    rw [if_neg hne, ih h]
    rfl

theorem applyBatch_append : ∀ (puts acc : List (Str × J)),
    (acc.map Prod.fst ++ puts.map Prod.fst).Nodup →
    applyBatch acc puts = acc ++ puts := by
  intro puts
  induction puts with
  | nil => intro acc _; simp [applyBatch]
  | cons e t ih =>
    intro acc hnd
    obtain ⟨k, v⟩ := e
    have hknotin : k ∉ acc.map Prod.fst := by
      intro hm
      rw [List.map_cons] at hnd
      have hd := (List.nodup_append.mp hnd).2.2
      exact hd hm (List.mem_cons_self k _)
    show applyBatch (setAssoc acc k v) t = _
    rw [setAssoc_append_absent k v acc (getAssoc_none_of_not_mem k acc hknotin)]
    have hnd2 : ((acc ++ [(k, v)]).map Prod.fst ++ t.map Prod.fst).Nodup := by
      rw [List.map_append, List.append_assoc]
      simpa [List.map_cons] using hnd
    rw [ih (acc ++ [(k, v)]) hnd2, List.append_assoc]
    rfl

theorem nodup_map_some_str (ks : List Str) (h : ks.Nodup) :
    (ks.map (fun k => some (J.str k))).Nodup := by
  refine h.map ?_
  intro a b hab
  injection hab with h2
  injection h2

theorem jGet_inflate_other (P : List (Str × J)) (fuel : Nat) (sub idv c : Str) (v : J)
    (k : Str) (h1 : ∀ nb ∈ HIERARCHY c, nb.1 ≠ k) (h2 : k ≠ sKey) :
    jGet (inflate P (fuel+1) sub idv c v) k = jGet v k := by
  show jGet (slotWrite (inflTW (inflate P fuel) sub idv) (HIERARCHY c)
    (slotWrite (resolveT P sub idv) (HIERARCHY c)
      (jSet v sKey (.str (mkKey sub idv))))) k = _
  rw [slotWrite_read_ne _ _ _ k h1, slotWrite_read_ne _ _ _ k h1,
    jGet_jSet_ne_any v sKey k _ h2]

theorem primaryFileName_pred (doc v : J) (k i : Str) (hn : nameOK v = true)
    (he : jGet doc sName = jGet v sName) :
    primaryFileName doc k i = .ok (predFileName k i v) := by
  simp only [primaryFileName, predFileName, he]
  cases hg : jGet v sName with
  | none => rfl
  | some w =>
    cases w with
    | str s =>
      show (if s.isEmpty = true then (pure (k ++ ".json".toList) : Except CErr Str)
        else pure (getSafeFilename s ++ '_' :: i ++ ".json".toList))
        = Except.ok (if s.isEmpty = true then k ++ ".json".toList
          else getSafeFilename s ++ '_' :: i ++ ".json".toList)
      cases hs : s.isEmpty with
      | true =>
        rw [bool_if_true, bool_if_true]
        rfl
      | false =>
        rw [bool_if_false, bool_if_false]
        rfl
    | null => rfl
    | bool b =>
      simp only [nameOK, hg] at hn
      show (if truthy (J.bool b) = true then (throw CErr.typeErr : Except CErr Str)
        else pure (k ++ ".json".toList)) = Except.ok (k ++ ".json".toList)
      rw [show truthy (J.bool b) = false from by
        cases b with
        | true => cases hn
        | false => rfl, bool_if_false]
      rfl
    | num n =>
      simp only [nameOK, hg] at hn
      show (if truthy (J.num n) = true then (throw CErr.typeErr : Except CErr Str)
        else pure (k ++ ".json".toList)) = Except.ok (k ++ ".json".toList)
      rw [show truthy (J.num n) = false from by simpa using hn, bool_if_false]
      rfl
    | arr l =>
      simp only [nameOK, hg] at hn
      cases hn
    | obj f =>
      simp only [nameOK, hg] at hn
      cases hn

theorem reconstructAdventure_id (doc : J)
    (h : ∀ coll ∈ ADVENTURE_DOCS, ∃ l, jGet doc coll = some (.arr l) ∧
      l.all (fun e => match e with | .str _ => false | _ => true) = true) :
    reconstructAdventure doc = .ok doc := by
  apply foldlM_id_except
  intro coll hcoll
  obtain ⟨l, hg, hall⟩ := h coll hcoll
  show (match jGet doc coll with
    | some (.arr l2) =>
        if l2.any (fun e => match e with | .str _ => true | _ => false)
        then throw CErr.fileRead
        else pure (jSet doc coll (.arr l2))
    | some (.str s) =>
        if s.isEmpty then pure (jSet doc coll (.arr [])) else throw CErr.fileRead
    | some .null => pure (jSet doc coll (.arr []))
    | none => pure (jSet doc coll (.arr []))
    | some _ => throw CErr.typeErr) = Except.ok doc
  rw [hg]
  show (if l.any (fun e => match e with | J.str _ => true | _ => false) = true
    then (throw CErr.fileRead : Except CErr J)
    else pure (jSet doc coll (.arr l))) = Except.ok doc
  have hany : l.any (fun e => match e with | J.str _ => true | _ => false) = false := by
    cases hq : l.any (fun e => match e with | J.str _ => true | _ => false) with
    | false => rfl
    | true =>
      obtain ⟨e, hel, hpe⟩ := List.any_eq_true.mp hq
      have he2 := List.all_eq_true.mp hall e hel
      cases e with
      | str s2 => cases he2
      | null => cases hpe
      | bool b => cases hpe
      | num n => cases hpe
      | arr l2 => cases hpe
      | obj f2 => cases hpe
  rw [hany, bool_if_false, jSet_of_jGet_eq doc coll (.arr l) hg]
  rfl

theorem hierarchy_adventures (c : Str)
    (h : strStarts "adventures".toList c = true) : HIERARCHY c = [] := by
  simp only [HIERARCHY]
  by_cases h1 : c = "actors".toList
  · subst h1
    exact absurd h (by decide)
  · rw [if_neg h1]
    by_cases h2 : c = "cards".toList
    · subst h2
      exact absurd h (by decide)
    · rw [if_neg h2]
      by_cases h3 : c = "combats".toList
      · subst h3
        exact absurd h (by decide)
      · rw [if_neg h3]
        by_cases h4 : c = "delta".toList
        · subst h4
          exact absurd h (by decide)
        · rw [if_neg h4]
          by_cases h5 : c = "items".toList
          · subst h5
            exact absurd h (by decide)
          · rw [if_neg h5]
            by_cases h6 : c = "journal".toList
            · subst h6
              exact absurd h (by decide)
            · rw [if_neg h6]
              by_cases h7 : c = "playlists".toList
              · subst h7
                exact absurd h (by decide)
              · rw [if_neg h7]
                by_cases h8 : c = "regions".toList
                · subst h8
                  exact absurd h (by decide)
                · rw [if_neg h8]
                  by_cases h9 : c = "tables".toList
                  · subst h9
                    exact absurd h (by decide)
                  · rw [if_neg h9]
                    by_cases h10 : c = "tokens".toList
                    · subst h10
                      exact absurd h (by decide)
                    · rw [if_neg h10]
                      by_cases h11 : c = "scenes".toList
                      · subst h11
                        exact absurd h (by decide)
                      · rw [if_neg h11]

theorem strStarts_adv_key (c i : Str) :
    strStarts "!adventures".toList (mkKey c i) = strStarts "adventures".toList c := by
  show (('!' : Char) == '!' && strStarts "adventures".toList (c ++ '!' :: i)) = _
  rw [strStarts_stop "adventures".toList c i (by decide)]
  simp

/-! ## buildFolderMap: termination and the ancestor paths -/

theorem fdIter_none (m : List (Option J × FolderDesc)) : ∀ n, fdIter m n none = none := by
  intro n
  induction n with
  | zero => rfl
  | succ n ih => exact ih

theorem fdIter_add (m : List (Option J × FolderDesc)) :
    ∀ (a b : Nat) (d? : Option FolderDesc),
      fdIter m (a + b) d? = fdIter m b (fdIter m a d?) := by
  intro a
  induction a with
  | zero =>
    intro b d?
    rw [Nat.zero_add]
    rfl
  | succ a ih =>
    intro b d?
    have h1 : a + 1 + b = (a + b) + 1 := by omega
    rw [h1]
    show fdIter m (a + b) (d?.bind (fdStep m)) = _
    rw [ih b (d?.bind (fdStep m))]
    rfl

theorem lookupFD_mem {m : List (Option J × FolderDesc)} {k : Option J} {d : FolderDesc}
    (h : lookupFD m k = some d) : d ∈ m.map Prod.snd := by
  unfold lookupFD at h
  cases hf : m.find? (fun e => e.1 == k) with
  | none => rw [hf] at h; cases h
  | some e =>
    rw [hf] at h
    have he : e ∈ m := List.mem_of_find?_eq_some hf
    have h2 : e.2 = d := by cases h; rfl
    exact h2 ▸ List.mem_map_of_mem Prod.snd he

theorem fdIter_some_mem {m : List (Option J × FolderDesc)} :
    ∀ (n : Nat) (d? : Option FolderDesc) (d : FolderDesc),
      fdIter m (n+1) d? = some d → d ∈ m.map Prod.snd := by
  intro n
  induction n with
  | zero =>
    intro d? d h
    cases d? with
    | none => rw [show fdIter m 1 none = none from rfl] at h; cases h
    | some d0 => exact lookupFD_mem h
  | succ n ih =>
    intro d? d h
    exact ih (d?.bind (fdStep m)) d h

/-- Pigeonhole: under acyclicity of the parent references, every parent
chain starting at a looked-up descriptor reaches the root within the size of
the map. -/
theorem chain_reaches_none {m : List (Option J × FolderDesc)}
    (hacyc : ∀ d ∈ m.map Prod.snd, ∀ n, fdIter m (n+1) (some d) ≠ some d)
    (k : Option J) : ∃ n ≤ m.length, fdIter m n (lookupFD m k) = none := by
  by_contra hcon
  push_neg at hcon
  have hsome : ∀ n, n ≤ m.length →
      ∃ d, fdIter m n (lookupFD m k) = some d ∧ d ∈ m.map Prod.snd := by
    intro n hn
    cases hit : fdIter m n (lookupFD m k) with
    | none => exact absurd hit (hcon n hn)
    | some d =>
      refine ⟨d, rfl, ?_⟩
      cases n with
      | zero => exact lookupFD_mem hit
      | succ n2 => exact fdIter_some_mem n2 _ d hit
  have key : ∀ i j, i < j → j ≤ m.length →
      (fdIter m i (lookupFD m k)).getD ⟨[], none, none, []⟩ =
      (fdIter m j (lookupFD m k)).getD ⟨[], none, none, []⟩ → False := by
    intro i j hlt hj hfe
    obtain ⟨di, hdi, hdim⟩ := hsome i (le_trans (le_of_lt hlt) hj)
    obtain ⟨dj, hdj, _⟩ := hsome j hj
    rw [hdi, hdj] at hfe
    simp only [Option.getD_some] at hfe
    have hsplit : fdIter m j (lookupFD m k) = fdIter m (j - i) (some di) := by
      rw [← hdi, ← fdIter_add]
      congr 1
      omega
    have hcycle : fdIter m (j - i) (some di) = some di := by
      rw [← hsplit, hdj, hfe]
    have h2 := hacyc di hdim (j - i - 1)
    rw [show j - i - 1 + 1 = j - i by omega] at h2
    exact h2 hcycle
  have hcard : ((m.map Prod.snd).toFinset).card < (Finset.range (m.length + 1)).card := by
    rw [Finset.card_range]
    exact Nat.lt_succ_of_le (le_trans (List.toFinset_card_le _) (by simp))
  have hmap : ∀ i ∈ Finset.range (m.length + 1),
      (fdIter m i (lookupFD m k)).getD ⟨[], none, none, []⟩ ∈ (m.map Prod.snd).toFinset := by
    intro i hi
    obtain ⟨d, hd, hdm⟩ := hsome i (Nat.lt_succ_iff.mp (Finset.mem_range.mp hi))
    rw [hd]
    simpa using hdm
  obtain ⟨i, hi, j, hj, hij, heq⟩ :=
    Finset.exists_ne_map_eq_of_card_lt_of_maps_to hcard hmap
  rcases lt_or_gt_of_ne hij with hlt | hgt
  · exact key i j hlt (Nat.lt_succ_iff.mp (Finset.mem_range.mp hj)) heq
  · exact key j i hgt (Nat.lt_succ_iff.mp (Finset.mem_range.mp hi)) heq.symm

theorem ancestorNames_of_none {m : List (Option J × FolderDesc)} :
    ∀ (fuel n : Nat) (d? : Option FolderDesc), n ≤ fuel → fdIter m n d? = none →
      ∃ ns, ancestorNames m fuel d? = some ns := by
  intro fuel
  induction fuel with
  | zero =>
    intro n d? hn h
    cases d? with
    | none => exact ⟨[], rfl⟩
    | some d =>
      have hn0 : n = 0 := Nat.le_zero.mp hn
      subst hn0
      cases h
  | succ f ih =>
    intro n d? hn h
    cases d? with
    | none => exact ⟨[], rfl⟩
    | some d =>
      cases n with
      | zero => cases h
      | succ n2 =>
        obtain ⟨ns2, hns2⟩ := ih n2 (fdStep m d) (Nat.succ_le_succ_iff.mp hn) h
        exact ⟨ns2 ++ [d.fname], by simp [ancestorNames, hns2]⟩

theorem ancestorJoin_append (ns : List Str) (x own : Str) :
    ancestorJoin (ns ++ [x]) own = ancestorJoin ns (pathJoin [x, own]) := by
  simp [ancestorJoin, List.foldr_append]

/-- The parent-chain walk computes exactly the spec's ancestor join whenever
the ancestor chain fits in the fuel. -/
theorem folderPathLoop_ancestors {m : List (Option J × FolderDesc)} :
    ∀ (fuel : Nat) (d? : Option FolderDesc) (own : Str) (ns : List Str),
      ancestorNames m fuel d? = some ns →
      folderPathLoop m fuel own d? = some (ancestorJoin ns own) := by
  intro fuel
  induction fuel with
  | zero =>
    intro d? own ns h
    cases d? with
    | none => cases h; rfl
    | some d => cases h
  | succ f ih =>
    intro d? own ns h
    cases d? with
    | none => cases h; rfl
    | some d =>
      cases hns2 : ancestorNames m f (fdStep m d) with
      | none =>
        rw [show ancestorNames m (f+1) (some d) =
          (ancestorNames m f (fdStep m d)).map (fun ns => ns ++ [d.fname]) from rfl,
          hns2] at h
        cases h
      | some ns2 =>
        rw [show ancestorNames m (f+1) (some d) =
          (ancestorNames m f (fdStep m d)).map (fun ns => ns ++ [d.fname]) from rfl,
          hns2] at h
        have hns : ns = ns2 ++ [d.fname] := by cases h; rfl
        subst hns
        have hstep : folderPathLoop m (f+1) own (some d) =
            folderPathLoop m f (pathJoin [d.fname, own]) (fdStep m d) := rfl
        rw [hstep, ih (fdStep m d) (pathJoin [d.fname, own]) ns2 hns2, ancestorJoin_append]

theorem mapM_ok_forall2 {α β : Type} (f : α → Except Unit β) (P : α → β → Prop) :
    ∀ l : List α, (∀ e ∈ l, ∃ b, f e = .ok b ∧ P e b) →
      ∃ out, l.mapM f = .ok out ∧ List.Forall₂ P l out := by
  intro l
  induction l with
  | nil => intro _; exact ⟨[], rfl, List.Forall₂.nil⟩
  | cons x xs ih =>
    intro h
    obtain ⟨b, hb, hP⟩ := h x (List.mem_cons_self x xs)
    obtain ⟨bs, hbs, h2⟩ := ih (fun e he => h e (List.mem_cons_of_mem x he))
    refine ⟨b :: bs, ?_, List.Forall₂.cons hP h2⟩
    rw [List.mapM_cons, hb]
    show (Except.ok b >>= fun b => xs.mapM f >>= fun bs => pure (b :: bs)) = _
    rw [except_ok_bind, hbs, except_ok_bind]
    rfl

/-- C10: for every set of Folder documents whose parent references (the
folder field) form an acyclic graph over the set — no descriptor of the
derived map is a proper ancestor of itself — buildFolderMap terminates
(the parent-chain walk, which performs no cycle detection, needs no more
fuel than the size of the map) and maps each folder's id to a descriptor
whose path is the join of its ancestors' derived names from the root parent
down to the folder's own derived name. -/
theorem c10_folder_paths (folders : List J) (m : List (Option J × FolderDesc))
    (hm : folderMapPass1 folders = .ok m)
    (hacyc : ∀ d ∈ m.map Prod.snd, ∀ n, fdIter m (n+1) (some d) ≠ some d) :
    ∃ out, buildFolderMap folders false m.length = .ok out ∧
      List.Forall₂ (fun (e o : Option J × FolderDesc) =>
        o.1 = e.1 ∧ o.2.fname = e.2.fname ∧ o.2.ffolder = e.2.ffolder ∧
        o.2.ftype = e.2.ftype ∧
        ∃ ns, ancestorNames m m.length (lookupFD m e.2.ffolder) = some ns ∧
          o.2.fpath = ancestorJoin ns e.2.fname) m out := by
  unfold buildFolderMap
  rw [hm, except_ok_bind]
  apply mapM_ok_forall2
  intro e _
  obtain ⟨n, hn, hnone⟩ := chain_reaches_none hacyc e.2.ffolder
  obtain ⟨ns, hns⟩ := ancestorNames_of_none m.length n _ hn hnone
  have hploop := folderPathLoop_ancestors m.length (lookupFD m e.2.ffolder) e.2.fname ns hns
  refine ⟨(e.1, { e.2 with fpath := ancestorJoin ns e.2.fname }),
    by rw [hploop]; rfl, rfl, rfl, rfl, rfl, ns, hns, rfl⟩

theorem c10_folder_paths_witness :
    folderMapPass1 c10folders = .ok c10m ∧
    ∃ out, buildFolderMap c10folders false c10m.length = .ok out ∧
      List.Forall₂ (fun (e o : Option J × FolderDesc) =>
        o.1 = e.1 ∧ o.2.fname = e.2.fname ∧ o.2.ffolder = e.2.ffolder ∧
        o.2.ftype = e.2.ftype ∧
        ∃ ns, ancestorNames c10m c10m.length (lookupFD c10m e.2.ffolder) = some ns ∧
          o.2.fpath = ancestorJoin ns e.2.fname) c10m out :=
  ⟨rfl, c10_folder_paths c10folders c10m rfl (by
    intro d hd n
    simp only [c10m, List.map_cons, List.map_nil, List.mem_cons,
      List.not_mem_nil, or_false] at hd
    rcases hd with h | h <;> subst h
    · intro hc
      rw [show fdIter c10m (n+1)
          (some { fname := "Best_f1".toList, ffolder := none, ftype := none,
                  fpath := [] }) = fdIter c10m n none from rfl, fdIter_none] at hc
      cases hc
    · intro hc
      rw [show fdIter c10m (n+1)
          (some { fname := "Sub_f2".toList, ffolder := some (J.str "f1".toList),
                  ftype := none, fpath := [] }) =
          fdIter c10m n
            (some { fname := "Best_f1".toList, ffolder := none, ftype := none,
                    fpath := [] }) from rfl] at hc
      cases n with
      | zero => cases hc
      | succ k =>
        rw [show fdIter c10m (k+1)
            (some { fname := "Best_f1".toList, ffolder := none, ftype := none,
                    fpath := [] }) = fdIter c10m k none from rfl, fdIter_none] at hc
        cases hc)⟩

/-! ## The staging protocol of extractPack -/

theorem applyOps_writes_dest (s : FSState) (ws : List (Str × J)) :
    (applyOps s (ws.map (fun w => FSOp.writeTmp w.1 w.2))).dest = s.dest := by
  induction ws generalizing s with
  | nil => rfl
  | cons w t ih =>
      have : applyOps s ((w :: t).map (fun w => FSOp.writeTmp w.1 w.2)) =
          applyOps (applyOp s (FSOp.writeTmp w.1 w.2)) (t.map (fun w => FSOp.writeTmp w.1 w.2)) :=
        rfl
      rw [this, ih]
      rfl

/-- C4: when the backend extraction throws after staging any number of
outputs, the error propagates, the destination directory keeps exactly its
pre-operation contents, the staging directory is removed, and neither the
copy into dest nor the clean-mode removal of dest ever ran; on the
successful path the staged tree is copied into dest only after every output
has been staged, as the last operation before the staging directory is
removed. -/
theorem c4_staging_crash_safety (pre writes : List (Str × J)) (n : Nat) (clean : Bool)
    (s0 : FSState) (hdest : s0.dest = some pre) :
    (extractPackOps writes (some n) clean).2 = true ∧
    (applyOps s0 (extractPackOps writes (some n) clean).1).dest = some pre ∧
    (applyOps s0 (extractPackOps writes (some n) clean).1).tmp = none ∧
    ((extractPackOps writes (some n) clean).1.contains FSOp.cpTmpDest) = false ∧
    ((extractPackOps writes (some n) clean).1.contains FSOp.rmDest) = false ∧
    (extractPackOps writes none clean).1 =
      [FSOp.mkdirDest, FSOp.mkdirTmp] ++ writes.map (fun w => FSOp.writeTmp w.1 w.2) ++
        (if clean then [FSOp.rmDest] else []) ++ [FSOp.cpTmpDest, FSOp.rmTmp] := by
  have hops : (extractPackOps writes (some n) clean).1 =
      [FSOp.mkdirDest, FSOp.mkdirTmp] ++
        (writes.take n).map (fun w => FSOp.writeTmp w.1 w.2) ++ [FSOp.rmTmp] := rfl
  have hmid : applyOps s0 ([FSOp.mkdirDest, FSOp.mkdirTmp] ++
      (writes.take n).map (fun w => FSOp.writeTmp w.1 w.2) ++ [FSOp.rmTmp]) =
      applyOps (applyOps (applyOps s0 [FSOp.mkdirDest, FSOp.mkdirTmp])
        ((writes.take n).map (fun w => FSOp.writeTmp w.1 w.2))) [FSOp.rmTmp] := by
    simp [applyOps, List.foldl_append]
  have hdest2 : (applyOps s0 [FSOp.mkdirDest, FSOp.mkdirTmp]).dest = some pre := by
    simp [applyOps, applyOp, hdest]
  refine ⟨rfl, ?_, ?_, ?_, ?_, rfl⟩
  · rw [hops, hmid]
    have h3 := applyOps_writes_dest (applyOps s0 [FSOp.mkdirDest, FSOp.mkdirTmp]) (writes.take n)
    simp [applyOps, applyOp, hdest] at h3 ⊢
    exact h3
  · rw [hops, hmid]
    rfl
  · rw [hops]
    simp
    intro hmem
    rcases List.mem_map.mp (List.mem_of_mem_take hmem) with ⟨x, _, hx⟩
    simp at hx
  · rw [hops]
    simp
    intro hmem
    rcases List.mem_map.mp (List.mem_of_mem_take hmem) with ⟨x, _, hx⟩
    simp at hx

/-- C4 (witness): the crash-safety conclusions at a concrete state, with one
of two outputs staged before the failure. -/
theorem c4_staging_crash_safety_witness :
    (extractPackOps [("a.json".toList, J.null), ("b.json".toList, J.null)] (some 1) false).2
        = true ∧
    (applyOps ⟨some [("old.json".toList, J.bool true)], none⟩
      (extractPackOps [("a.json".toList, J.null), ("b.json".toList, J.null)]
        (some 1) false).1).dest = some [("old.json".toList, J.bool true)] ∧
    (applyOps ⟨some [("old.json".toList, J.bool true)], none⟩
      (extractPackOps [("a.json".toList, J.null), ("b.json".toList, J.null)]
        (some 1) false).1).tmp = none ∧
    ((extractPackOps [("a.json".toList, J.null), ("b.json".toList, J.null)]
      (some 1) false).1.contains FSOp.cpTmpDest) = false ∧
    ((extractPackOps [("a.json".toList, J.null), ("b.json".toList, J.null)]
      (some 1) false).1.contains FSOp.rmDest) = false ∧
    (extractPackOps [("a.json".toList, J.null), ("b.json".toList, J.null)] none false).1 =
      [FSOp.mkdirDest, FSOp.mkdirTmp] ++
        [("a.json".toList, J.null), ("b.json".toList, J.null)].map
          (fun w => FSOp.writeTmp w.1 w.2) ++
        (if false then [FSOp.rmDest] else []) ++ [FSOp.cpTmpDest, FSOp.rmTmp] :=
  c4_staging_crash_safety [("old.json".toList, J.bool true)]
    [("a.json".toList, J.null), ("b.json".toList, J.null)] 1 false
    ⟨some [("old.json".toList, J.bool true)], none⟩ rfl

/-! ## The overlay pairing of the volatile-diff gate -/

theorem overlayWalk_eq_overlaySpec (base : J) : ∀ (fuel : Nat) (a : J) (collection : Str)
    (i : Option Int),
    overlayWalk base fuel a collection i =
      overlaySpec base fuel a collection
        (match i with
         | none => some base
         | some k => if k < 0 then jGet base collection
                     else jIndexNum (jGet base collection) k) := by
  intro fuel
  induction fuel with
  | zero => intro a c i; rfl
  | succ n ih =>
    intro a c i
    have hsingle : ∀ (ev : J) (nm : Str),
        overlayWalk base n ev nm (some (-1)) = overlaySpec base n ev nm (jGet base nm) := by
      intro ev nm
      rw [ih ev nm (some (-1))]
      have hneg : ((-1 : Int) < 0) := by norm_num
      simp [hneg]
    have harr : ∀ nm : Str, (fun (ei : Nat × J) =>
        overlayWalk base n ei.2 nm (some (ei.1 : Int))) =
        (fun ei => overlaySpec base n ei.2 nm (jIndexNum (jGet base nm) (ei.1 : Int))) := by
      intro nm
      funext ei
      rw [ih ei.2 nm (some (ei.1 : Int))]
      have hpos : ¬ ((ei.1 : Int) < 0) := by omega
      simp [hpos]
    simp only [overlayWalk, overlaySpec, overlayFn]
    congr 1
    funext a'
    congr 1
    funext d nb
    simp only [hsingle, harr]

/-- C9: the overlay of the volatile-diff gate pairs each embedded document of
the candidate with the existing document's embedded document at the same
position: the i-th element of an array-arity embedded collection is paired
with the existing document's same-named collection field at index i, and a
single-arity slot with the existing document's field value; no matching by
_id is performed.  In particular, overlaying a candidate whose items are
reordered relative to the existing file copies the volatile stamps from the
positionally corresponding, differently-identified items. -/
theorem c9_overlay_positional :
    (∀ (base : J) (fuel : Nat) (a : J) (collection : Str),
      overlayWalk base fuel a collection none =
        overlaySpec base fuel a collection (some base)) ∧
    overlayWalk c9base 6 c9cand "actors".toList none = .ok c9result :=
  ⟨fun base fuel a collection => overlayWalk_eq_overlaySpec base fuel a collection none, rfl⟩

/-! ## The volatile-diff gate -/

/-- C5: for a candidate document (an object), with omitVolatile on and an
existing destination, the gate keeps the existing document exactly when the
existing file parses to a truthy document, both documents carry _stats, and
the volatile overlay makes the clone of the candidate deeply equal to the
existing document; in every other case, including a read or parse failure of
the existing file (fileContent none) and every throw inside the comparison,
the candidate is written. -/
theorem volatileKeep_some (doc base : J) (collection : Str) (fuel : Nat) :
    volatileKeep doc (some base) collection fuel =
      (match truthy base, inJ sStats doc, inJ sStats base with
       | true, .ok true, .ok true =>
         (match overlayWalk base fuel doc collection none with
          | .ok copy =>
            (match testEquality base copy 0 with
             | .ok b => b
             | .error _ => false)
          | .error _ => false)
       | _, _, _ => false) := rfl

theorem c5_volatile_gate (f : List (Str × J)) (fileContent : Option J)
    (collection : Str) (fuel : Nat) :
    checkVolatile (.obj f) true true fileContent collection fuel =
      .ok (if volatileKeep (.obj f) fileContent collection fuel
           then fileContent.getD (.obj f) else (.obj f)) := by
  have hstep : checkVolatile (.obj f) true true fileContent collection fuel =
      (if !(getAssoc f sStats).isSome then Except.ok (.obj f)
       else
         match checkVolatileTry (.obj f) fileContent collection fuel with
         | .ok r => .ok r
         | .error _ => .ok (.obj f)) := rfl
  have hinJ : inJ sStats (J.obj f) = .ok ((getAssoc f sStats).isSome) := rfl
  cases hds : (getAssoc f sStats).isSome with
  | false =>
    rw [hstep, hds]
    simp only [Bool.not_false, if_true]
    cases fileContent with
    | none => rfl
    | some base =>
      have hk : volatileKeep (.obj f) (some base) collection fuel = false := by
        rw [volatileKeep_some, hinJ, hds]
        cases truthy base with
        | false =>
          cases inJ sStats base with
          | error e => rfl
          | ok vb => cases vb <;> rfl
        | true =>
          cases inJ sStats base with
          | error e => rfl
          | ok vb => cases vb <;> rfl
      rw [hk]
      rfl
  | true =>
    rw [hstep, hds]
    simp only [Bool.not_true, Bool.false_eq_true, if_false]
    cases fileContent with
    | none => rfl
    | some base =>
      have htry : checkVolatileTry (.obj f) (some base) collection fuel =
          (if !truthy base then Except.ok (.obj f)
           else
             inJ sStats base >>= fun bs =>
               if !bs then Except.ok (.obj f)
               else
                 overlayWalk base fuel (.obj f) collection none >>= fun copy =>
                   testEquality base copy 0 >>= fun eq =>
                     Except.ok (if eq then base else (.obj f))) := rfl
      cases htb : truthy base with
      | false =>
        have hk : volatileKeep (.obj f) (some base) collection fuel = false := by
          rw [volatileKeep_some, hinJ, hds, htb]
        rw [htry, htb, hk]
        rfl
      | true =>
        rw [htry, htb]
        simp only [Bool.not_true, Bool.false_eq_true, if_false]
        cases hbs : inJ sStats base with
        | error e =>
          have hk : volatileKeep (.obj f) (some base) collection fuel = false := by
            rw [volatileKeep_some, hinJ, hds, htb, hbs]
          rw [except_error_bind, hk]
          rfl
        | ok bs =>
          rw [except_ok_bind]
          cases bs with
          | false =>
            have hk : volatileKeep (.obj f) (some base) collection fuel = false := by
              rw [volatileKeep_some, hinJ, hds, htb, hbs]
            rw [hk]
            rfl
          | true =>
            simp only [Bool.not_true, Bool.false_eq_true, if_false]
            cases hov : overlayWalk base fuel (.obj f) collection none with
            | error e =>
              have hk : volatileKeep (.obj f) (some base) collection fuel = false := by
                rw [volatileKeep_some, hinJ, hds, htb, hbs, hov]
              rw [except_error_bind, hk]
              rfl
            | ok copy =>
              rw [except_ok_bind]
              have hk0 : volatileKeep (.obj f) (some base) collection fuel =
                  (match testEquality base copy 0 with
                   | .ok b => b
                   | .error _ => false) := by
                rw [volatileKeep_some, hinJ, hds, htb, hbs, hov]
              cases heq : testEquality base copy 0 with
              | error e =>
                have hk : volatileKeep (.obj f) (some base) collection fuel = false := by
                  rw [hk0, heq]
                rw [except_error_bind, hk]
                rfl
              | ok b =>
                have hk : volatileKeep (.obj f) (some base) collection fuel = b := by
                  rw [hk0, heq]
                rw [except_ok_bind, hk]
                cases b <;> rfl

theorem extractEntries_ok (P : List (Str × J)) (F : Nat)
    (hstep : ∀ kv : Str × J, kv ∈ P → ∃ c i, parseKey kv.1 = some (c, i) ∧
      (hasChar '.' c = true ∨
        (unpackDoc P F kv.2 c ([], []) = .ok (inflate P F c i c kv.2) ∧
         primaryFileName (inflate P F c i c kv.2) kv.1 i
           = .ok (predFileName kv.1 i kv.2)))) :
    ∀ (Q : List (Str × J)) (files : List (Str × J)),
      (∀ kv ∈ Q, kv ∈ P) →
      (files.map Prod.fst
        ++ (Q.filter (fun kv : Str × J => isPrimaryKey kv.1)).map
          (fun kv : Str × J =>
            match parseKey kv.1 with
            | some (c, i) => predFileName kv.1 i kv.2
            | none => [])).Nodup →
      extractEntries P F Q files
        = .ok (files ++ (Q.filter (fun kv : Str × J => isPrimaryKey kv.1)).map
            (fun kv : Str × J =>
              match parseKey kv.1 with
              | some (c, i) => (predFileName kv.1 i kv.2, inflate P F c i c kv.2)
              | none => ([], J.null))) := by
  intro Q
  induction Q with
  | nil =>
    intro files _ _
    show Except.ok files = _
    simp
  | cons kv rest ih =>
    intro files hmem hnd
    obtain ⟨c, i, hpk, hstep2⟩ := hstep kv (hmem kv (List.mem_cons_self kv rest))
    obtain ⟨hkey, hbc, hbi, hcne, hine⟩ := parseKey_inv kv.1 c i hpk
    have hsp : splitChar '!' kv.1 = [[], c, i] := by
      rw [hkey]
      exact split_mkKey c i hbc hbi
    have hcol : (splitChar '!' kv.1).getD 1 [] = c := by rw [hsp]; rfl
    have hid2 : (splitChar '!' kv.1).getD 2 [] = i := by rw [hsp]; rfl
    have hprim : isPrimaryKey kv.1 = (!hasChar '.' c) := by
      simp only [isPrimaryKey, hpk]
    simp only [extractEntries]
    rw [hcol, hid2]
    cases hdotc : hasChar '.' c with
    | true =>
      rw [bool_if_true]
      have hpf : isPrimaryKey kv.1 = false := by rw [hprim, hdotc]; rfl
      have hfil : (kv :: rest).filter (fun kv2 => isPrimaryKey kv2.1)
          = rest.filter (fun kv2 => isPrimaryKey kv2.1) := by
        rw [List.filter_cons, hpf]
        simp
      rw [hfil] at hnd ⊢
      exact ih files (fun x hx => hmem x (List.mem_cons_of_mem kv hx)) hnd
    | false =>
      rw [bool_if_false]
      rcases hstep2 with hdot2 | ⟨hup, hpf2⟩
      · rw [hdotc] at hdot2
        cases hdot2
      · rw [hup, except_ok_bind, hpf2, except_ok_bind]
        show extractEntries P F rest (setAssoc files (predFileName kv.1 i kv.2)
          (inflate P F c i c kv.2)) = _
        have hfil : (kv :: rest).filter (fun kv2 => isPrimaryKey kv2.1)
            = kv :: rest.filter (fun kv2 => isPrimaryKey kv2.1) := by
          rw [List.filter_cons,
            show isPrimaryKey kv.1 = true from by rw [hprim, hdotc]; rfl]
          simp
        rw [hfil] at hnd ⊢
        simp only [List.map_cons, hpk] at hnd ⊢
        have hnotin : predFileName kv.1 i kv.2 ∉ files.map Prod.fst := by
          have hd := (List.nodup_append.mp hnd).2.2
          intro hm
          exact hd hm (List.mem_cons_self _ _)
        rw [setAssoc_append_absent _ _ files
          (getAssoc_none_of_not_mem _ files hnotin)]
        have hnd2 : ((files ++ [(predFileName kv.1 i kv.2,
            inflate P F c i c kv.2)]).map Prod.fst
            ++ (rest.filter (fun kv2 : Str × J => isPrimaryKey kv2.1)).map
              (fun kv2 : Str × J =>
                match parseKey kv2.1 with
                | some (c2, i2) => predFileName kv2.1 i2 kv2.2
                | none => [])).Nodup := by
          rw [List.map_append, List.append_assoc]
          simpa using hnd
        rw [ih (files ++ [(predFileName kv.1 i kv.2, inflate P F c i c kv.2)])
          (fun x hx => hmem x (List.mem_cons_of_mem kv hx)) hnd2, List.append_assoc]
        rfl

theorem compileFiles_primaries (P : List (Str × J)) (F : Nat) :
    ∀ (p : List (Str × J)),
      (∀ kv : Str × J, kv ∈ p → ∃ c i, parseKey kv.1 = some (c, i) ∧
        jGet (inflate P F c i c kv.2) sKey = some (J.str (mkKey c i)) ∧
        findCollection (mkKey c i) = c ∧
        (strStarts "!adventures".toList (mkKey c i) = true →
          reconstructAdventure (inflate P F c i c kv.2)
            = .ok (inflate P F c i c kv.2)) ∧
        (∀ s2 b2,
          ((subKeys P F c i c kv.2).map (fun k => some (J.str k)) ++ s2).Nodup →
          packWalk F (inflate P F c i c kv.2) c (s2, b2)
            = .ok (((subKeys P F c i c kv.2).map
                  (fun k => some (J.str k))).reverse ++ s2,
                b2 ++ (subKeys P F c i c kv.2).map
                  (fun k => (k, (getAssoc P k).getD J.null))))) →
      ∀ seen batch,
        (((p.map (fun kv : Str × J =>
            match parseKey kv.1 with
            | some (c, i) => (subKeys P F c i c kv.2).map (fun k => some (J.str k))
            | none => [])).flatten) ++ seen).Nodup →
        compileFiles F (p.map (fun kv : Str × J =>
            match parseKey kv.1 with
            | some (c, i) => inflate P F c i c kv.2
            | none => J.null)) (seen, batch)
          = .ok (((p.map (fun kv : Str × J =>
                match parseKey kv.1 with
                | some (c, i) => (subKeys P F c i c kv.2).map
                    (fun k => some (J.str k))
                | none => [])).flatten).reverse ++ seen,
              batch ++ (p.map (fun kv : Str × J =>
                match parseKey kv.1 with
                | some (c, i) => (subKeys P F c i c kv.2).map
                    (fun k => (k, (getAssoc P k).getD J.null))
                | none => [])).flatten) := by
  intro p
  induction p with
  | nil =>
    intro _ seen batch _
    show Except.ok (seen, batch) = _
    simp
  | cons kv rest ih =>
    intro hstep seen batch hnd
    obtain ⟨c, i, hpk, hB2, hfc, hadv, hD⟩ :=
      hstep kv (List.mem_cons_self kv rest)
    simp only [List.map_cons, List.flatten_cons, hpk] at hnd ⊢
    have hnd1 : ((subKeys P F c i c kv.2).map (fun k => some (J.str k))
        ++ seen).Nodup := nodup_outer_of_append (by simpa using hnd)
    have hnd2 : (((rest.map (fun kv2 : Str × J =>
        match parseKey kv2.1 with
        | some (c2, i2) => (subKeys P F c2 i2 c2 kv2.2).map
            (fun k => some (J.str k))
        | none => [])).flatten)
        ++ (((subKeys P F c i c kv.2).map
            (fun k => some (J.str k))).reverse ++ seen)).Nodup :=
      ((perm_shuffle _ _ seen).nodup_iff).mp (by simpa using hnd)
    have htrK : truthy (J.str (mkKey c i)) = true := rfl
    have e1 : compileFiles F (inflate P F c i c kv.2 :: rest.map
        (fun kv2 : Str × J =>
          match parseKey kv2.1 with
          | some (c2, i2) => inflate P F c2 i2 c2 kv2.2
          | none => J.null)) (seen, batch)
        = (packWalk F (inflate P F c i c kv.2) c (seen, batch) >>= fun st2 =>
            compileFiles F (rest.map (fun kv2 : Str × J =>
              match parseKey kv2.1 with
              | some (c2, i2) => inflate P F c2 i2 c2 kv2.2
              | none => J.null)) st2) := by
      cases hstart : strStarts "!adventures".toList (mkKey c i) with
      | false =>
        simp only [compileFiles, hB2]
        rw [htrK, bool_if_true, hstart, bool_if_false, except_pure_bind, hfc]
      | true =>
        simp only [compileFiles, hB2]
        rw [htrK, bool_if_true, hstart, bool_if_true, hadv hstart,
          except_ok_bind, hfc]
    rw [e1, hD seen batch hnd1, except_ok_bind,
      ih (fun x hx => hstep x (List.mem_cons_of_mem kv hx)) _ _ hnd2]
    simp [List.append_assoc]

/-- C1: for every valid sorted-store pack, extracting with default options
writes one source file per primary entry (the inflated subtree under the
derived filename), and compiling those source documents into an empty pack
succeeds and produces a store whose (key, value) entries are exactly those
of the original pack, key by key. -/
theorem c1_roundtrip (P : List (Str × J)) (h : validPack P = true) :
    ∃ files S,
      extractClassicLevelFiles (P.length + 1) P = .ok files ∧
      compileClassicLevel (P.length + 1) [] (files.map Prod.snd) = .ok S ∧
      ∀ kv : Str × J, kv ∈ S ↔ kv ∈ P := by
  have h1 := (Bool.and_eq_true _ _).mp h
  have h2 := (Bool.and_eq_true _ _).mp h1.1
  have h3 := (Bool.and_eq_true _ _).mp h2.1
  have hknd : (P.map Prod.fst).Nodup := of_decide_eq_true h3.1
  have hall := List.all_eq_true.mp h3.2
  have hperm : (P.map Prod.fst).Perm
      (((P.filter (fun kv : Str × J => isPrimaryKey kv.1)).map (fun kv : Str × J =>
        match parseKey kv.1 with
        | some (c, i) => subKeys P (P.length + 1) c i c kv.2
        | none => [])).flatten) := of_decide_eq_true h2.2
  have hfnd : ((P.filter (fun kv : Str × J => isPrimaryKey kv.1)).map
      (fun kv : Str × J =>
        match parseKey kv.1 with
        | some (c, i) => predFileName kv.1 i kv.2
        | none => [])).Nodup := of_decide_eq_true h1.2
  have hents : ∀ kv : Str × J, kv ∈ P → ∃ c i, parseKey kv.1 = some (c, i) ∧
      (hasChar '.' c = true ∨
        (hasChar '.' c = false ∧ validAt P (P.length + 1) c i i c kv.2 = true ∧
         nameOK kv.2 = true ∧
         (strStarts "adventures".toList c = true → advOK kv.2 = true))) := by
    intro kv hkv
    have hb := hall kv hkv
    cases hpk : parseKey kv.1 with
    | none =>
      rw [hpk] at hb
      cases hb
    | some ci =>
      obtain ⟨c, i⟩ := ci
      simp only [hpk] at hb
      refine ⟨c, i, rfl, ?_⟩
      by_cases hdot : hasChar '.' c = true
      · exact Or.inl hdot
      · have hdf : hasChar '.' c = false := by
          cases hq : hasChar '.' c with
          | false => rfl
          | true => exact absurd hq hdot
        rw [hdf, bool_if_false] at hb
        right
        have hb2 := (Bool.and_eq_true _ _).mp hb
        have hb3 := (Bool.and_eq_true _ _).mp hb2.1
        refine ⟨hdf, hb3.1, hb3.2, ?_⟩
        intro hsa
        have hor := hb2.2
        rw [hsa] at hor
        simpa using hor
  have hstepE : ∀ kv : Str × J, kv ∈ P → ∃ c i, parseKey kv.1 = some (c, i) ∧
      (hasChar '.' c = true ∨
        (unpackDoc P (P.length + 1) kv.2 c ([], [])
          = .ok (inflate P (P.length + 1) c i c kv.2) ∧
         primaryFileName (inflate P (P.length + 1) c i c kv.2) kv.1 i
           = .ok (predFileName kv.1 i kv.2))) := by
    intro kv hkv
    obtain ⟨c, i, hpk, hcase⟩ := hents kv hkv
    obtain ⟨hkey, hbc, hbi, hcne, hine⟩ := parseKey_inv kv.1 c i hpk
    refine ⟨c, i, hpk, ?_⟩
    rcases hcase with hdot | ⟨hdotf, hva, hnm, hadvf⟩
    · exact Or.inl hdot
    · right
      have hst := subtree_main P (P.length + 1) c i i c kv.2 hva hcne hine
      constructor
      · exact hst.1 ([], []) (keyJoin_nil_left c)
          (by
            rw [show jIdStr kv.2 = i from validAt_idStr2 hva]
            exact keyJoin_nil_left i)
      · exact primaryFileName_pred _ kv.2 kv.1 i hnm
          (jGet_inflate_other P P.length c i c kv.2 sName
            (fun nb hnb => (hierarchy_names c nb hnb).2.2.2.2) (by decide))
  have hfiles := extractEntries_ok P (P.length + 1) hstepE P []
    (fun kv hkv => hkv) (by simpa using hfnd)
  have hstepC : ∀ kv : Str × J,
      kv ∈ P.filter (fun kv2 : Str × J => isPrimaryKey kv2.1) →
      ∃ c i, parseKey kv.1 = some (c, i) ∧
        jGet (inflate P (P.length + 1) c i c kv.2) sKey
          = some (J.str (mkKey c i)) ∧
        findCollection (mkKey c i) = c ∧
        (strStarts "!adventures".toList (mkKey c i) = true →
          reconstructAdventure (inflate P (P.length + 1) c i c kv.2)
            = .ok (inflate P (P.length + 1) c i c kv.2)) ∧
        (∀ s2 b2,
          ((subKeys P (P.length + 1) c i c kv.2).map (fun k => some (J.str k))
            ++ s2).Nodup →
          packWalk (P.length + 1) (inflate P (P.length + 1) c i c kv.2) c (s2, b2)
            = .ok (((subKeys P (P.length + 1) c i c kv.2).map
                  (fun k => some (J.str k))).reverse ++ s2,
                b2 ++ (subKeys P (P.length + 1) c i c kv.2).map
                  (fun k => (k, (getAssoc P k).getD J.null)))) := by
    intro kv hkv
    have hkvP : kv ∈ P := (List.mem_filter.mp hkv).1
    have hkvprim : isPrimaryKey kv.1 = true := (List.mem_filter.mp hkv).2
    obtain ⟨c, i, hpk, hcase⟩ := hents kv hkvP
    obtain ⟨hkey, hbc, hbi, hcne, hine⟩ := parseKey_inv kv.1 c i hpk
    rcases hcase with hdot | ⟨hdotf, hva, hnm, hadvf⟩
    · exfalso
      rw [show isPrimaryKey kv.1 = (!hasChar '.' c) from by
        simp only [isPrimaryKey, hpk], hdot] at hkvprim
      cases hkvprim
    · have hst := subtree_main P (P.length + 1) c i i c kv.2 hva hcne hine
      have hPv : getAssoc P (mkKey c i) = some kv.2 := by
        rw [← hkey]
        exact getAssoc_of_mem_nodup kv.1 kv.2 P hknd hkvP
      refine ⟨c, i, hpk, hst.2.1, ?_, ?_, fun s2 b2 hnd2 => hst.2.2.2 hPv s2 b2 hnd2⟩
      · show (splitChar '!' (mkKey c i)).getD 1 [] = c
        rw [split_mkKey c i hbc hbi]
        rfl
      · intro hsa
        have hsc : strStarts "adventures".toList c = true := by
          rw [← strStarts_adv_key c i]
          exact hsa
        have hok := hadvf hsc
        have hie : HIERARCHY c = [] := hierarchy_adventures c hsc
        have hinf0 : inflate P (P.length + 1) c i c kv.2
            = jSet kv.2 sKey (.str (mkKey c i)) := by
          show slotWrite (inflTW (inflate P P.length) c i) (HIERARCHY c)
            (slotWrite (resolveT P c i) (HIERARCHY c)
              (jSet kv.2 sKey (.str (mkKey c i)))) = _
          rw [hie]
          rfl
        have hcollne : ∀ coll ∈ ADVENTURE_DOCS, coll ≠ sKey := by decide
        apply reconstructAdventure_id
        intro coll hcoll
        have hok2 := List.all_eq_true.mp hok coll hcoll
        have hslot : jGet (inflate P (P.length + 1) c i c kv.2) coll
            = jGet kv.2 coll := by
          rw [hinf0]
          exact jGet_jSet_ne_any kv.2 sKey coll _ (hcollne coll hcoll)
        cases hg : jGet kv.2 coll with
        | none =>
          rw [hg] at hok2
          cases hok2
        | some w =>
          cases w with
          | arr l =>
            refine ⟨l, by rw [hslot, hg], ?_⟩
            rw [hg] at hok2
            exact hok2
          | null => rw [hg] at hok2; cases hok2
          | bool b => rw [hg] at hok2; cases hok2
          | num n => rw [hg] at hok2; cases hok2
          | str s2 => rw [hg] at hok2; cases hok2
          | obj f2 => rw [hg] at hok2; cases hok2
  have hkl : ∀ kv : Str × J,
      (match parseKey kv.1 with
       | some (c, i) => (subKeys P (P.length + 1) c i c kv.2).map
           (fun k => some (J.str k))
       | none => ([] : List (Option J)))
      = ((match parseKey kv.1 with
          | some (c, i) => subKeys P (P.length + 1) c i c kv.2
          | none => ([] : List Str)).map (fun k => some (J.str k))) := by
    intro kv
    cases hq : parseKey kv.1 with
    | none => rfl
    | some ci =>
      obtain ⟨c, i⟩ := ci
      rfl
  have hel : ∀ kv : Str × J,
      (match parseKey kv.1 with
       | some (c, i) => (subKeys P (P.length + 1) c i c kv.2).map
           (fun k => (k, (getAssoc P k).getD J.null))
       | none => ([] : List (Str × J)))
      = ((match parseKey kv.1 with
          | some (c, i) => subKeys P (P.length + 1) c i c kv.2
          | none => ([] : List Str)).map
            (fun k => (k, (getAssoc P k).getD J.null))) := by
    intro kv
    cases hq : parseKey kv.1 with
    | none => rfl
    | some ci =>
      obtain ⟨c, i⟩ := ci
      rfl
  have hfkeys : ((P.filter (fun kv : Str × J => isPrimaryKey kv.1)).map
      (fun kv : Str × J =>
        match parseKey kv.1 with
        | some (c, i) => (subKeys P (P.length + 1) c i c kv.2).map
            (fun k => some (J.str k))
        | none => [])).flatten
      = (((P.filter (fun kv : Str × J => isPrimaryKey kv.1)).map
          (fun kv : Str × J =>
            match parseKey kv.1 with
            | some (c, i) => subKeys P (P.length + 1) c i c kv.2
            | none => [])).flatten).map (fun k => some (J.str k)) := by
    rw [map_eq_map_of_mem _ (fun kv : Str × J =>
        ((match parseKey kv.1 with
          | some (c, i) => subKeys P (P.length + 1) c i c kv.2
          | none => ([] : List Str)).map (fun k => some (J.str k))))
      (P.filter (fun kv : Str × J => isPrimaryKey kv.1)) (fun kv _ => hkl kv),
      ← map_flatten_map]
  have hfents : ((P.filter (fun kv : Str × J => isPrimaryKey kv.1)).map
      (fun kv : Str × J =>
        match parseKey kv.1 with
        | some (c, i) => (subKeys P (P.length + 1) c i c kv.2).map
            (fun k => (k, (getAssoc P k).getD J.null))
        | none => [])).flatten
      = (((P.filter (fun kv : Str × J => isPrimaryKey kv.1)).map
          (fun kv : Str × J =>
            match parseKey kv.1 with
            | some (c, i) => subKeys P (P.length + 1) c i c kv.2
            | none => [])).flatten).map
          (fun k => (k, (getAssoc P k).getD J.null)) := by
    rw [map_eq_map_of_mem _ (fun kv : Str × J =>
        ((match parseKey kv.1 with
          | some (c, i) => subKeys P (P.length + 1) c i c kv.2
          | none => ([] : List Str)).map
            (fun k => (k, (getAssoc P k).getD J.null))))
      (P.filter (fun kv : Str × J => isPrimaryKey kv.1)) (fun kv _ => hel kv),
      ← map_flatten_map]
  have hfknodup : (((P.filter (fun kv : Str × J => isPrimaryKey kv.1)).map
      (fun kv : Str × J =>
        match parseKey kv.1 with
        | some (c, i) => subKeys P (P.length + 1) c i c kv.2
        | none => [])).flatten).Nodup := (hperm.nodup_iff).mp hknd
  have hndC : (((P.filter (fun kv : Str × J => isPrimaryKey kv.1)).map
      (fun kv : Str × J =>
        match parseKey kv.1 with
        | some (c, i) => (subKeys P (P.length + 1) c i c kv.2).map
            (fun k => some (J.str k))
        | none => [])).flatten ++ ([] : List (Option J))).Nodup := by
    rw [hfkeys]
    simpa using nodup_map_some_str _ hfknodup
  have hcompiled := compileFiles_primaries P (P.length + 1)
    (P.filter (fun kv : Str × J => isPrimaryKey kv.1)) hstepC [] [] hndC
  have hdocs : (((P.filter (fun kv : Str × J => isPrimaryKey kv.1)).map
      (fun kv : Str × J =>
        match parseKey kv.1 with
        | some (c, i) => (predFileName kv.1 i kv.2, inflate P (P.length + 1) c i c kv.2)
        | none => ([], J.null))).map Prod.snd)
      = (P.filter (fun kv : Str × J => isPrimaryKey kv.1)).map
        (fun kv : Str × J =>
          match parseKey kv.1 with
          | some (c, i) => inflate P (P.length + 1) c i c kv.2
          | none => J.null) := by
    rw [List.map_map]
    refine map_eq_map_of_mem _ _ _ ?_
    intro kv hkv
    obtain ⟨c, i, hpk, _⟩ := hents kv ((List.mem_filter.mp hkv).1)
    simp only [Function.comp, hpk]
  refine ⟨(P.filter (fun kv : Str × J => isPrimaryKey kv.1)).map
      (fun kv : Str × J =>
        match parseKey kv.1 with
        | some (c, i) => (predFileName kv.1 i kv.2, inflate P (P.length + 1) c i c kv.2)
        | none => ([], J.null)),
    (((P.filter (fun kv : Str × J => isPrimaryKey kv.1)).map
        (fun kv : Str × J =>
          match parseKey kv.1 with
          | some (c, i) => subKeys P (P.length + 1) c i c kv.2
          | none => [])).flatten).map (fun k => (k, (getAssoc P k).getD J.null)),
    ?_, ?_, ?_⟩
  · show extractEntries P (P.length + 1) P [] = _
    rw [hfiles, List.nil_append]
  · rw [hdocs]
    simp only [compileClassicLevel]
    rw [hcompiled, except_ok_bind]
    show Except.ok (applyBatch ([] : List (Str × J))
      (([] : List (Str × J)) ++ ((P.filter (fun kv : Str × J => isPrimaryKey kv.1)).map
        (fun kv : Str × J =>
          match parseKey kv.1 with
          | some (c, i) => (subKeys P (P.length + 1) c i c kv.2).map
              (fun k => (k, (getAssoc P k).getD J.null))
          | none => [])).flatten)) = _
    rw [List.nil_append, hfents]
    have hndE : (([] : List (Str × J)).map Prod.fst
        ++ ((((P.filter (fun kv : Str × J => isPrimaryKey kv.1)).map
          (fun kv : Str × J =>
            match parseKey kv.1 with
            | some (c, i) => subKeys P (P.length + 1) c i c kv.2
            | none => [])).flatten).map
            (fun k => (k, (getAssoc P k).getD J.null))).map Prod.fst).Nodup := by
      rw [List.map_map]
      rw [show (((P.filter (fun kv : Str × J => isPrimaryKey kv.1)).map
          (fun kv : Str × J =>
            match parseKey kv.1 with
            | some (c, i) => subKeys P (P.length + 1) c i c kv.2
            | none => [])).flatten).map
            (Prod.fst ∘ (fun k => (k, (getAssoc P k).getD J.null)))
        = ((P.filter (fun kv : Str × J => isPrimaryKey kv.1)).map
          (fun kv : Str × J =>
            match parseKey kv.1 with
            | some (c, i) => subKeys P (P.length + 1) c i c kv.2
            | none => [])).flatten from map_id_of_mem _ _ (fun k _ => rfl)]
      simpa using hfknodup
    rw [applyBatch_append _ [] hndE, List.nil_append]
  · intro kv
    constructor
    · intro hm
      obtain ⟨k, hkf, hke⟩ := List.mem_map.mp hm
      have hkP : k ∈ P.map Prod.fst := (hperm.mem_iff).mpr hkf
      obtain ⟨e, heP, hek⟩ := List.mem_map.mp hkP
      have hga : getAssoc P k = some e.2 := by
        rw [← hek]
        exact getAssoc_of_mem_nodup e.1 e.2 P hknd heP
      rw [← hke]
      show (k, (getAssoc P k).getD J.null) ∈ P
      rw [hga, ← hek]
      exact heP
    · intro hm
      have hga : getAssoc P kv.1 = some kv.2 :=
        getAssoc_of_mem_nodup kv.1 kv.2 P hknd hm
      have hk1 : kv.1 ∈ ((P.filter (fun kv2 : Str × J => isPrimaryKey kv2.1)).map
          (fun kv2 : Str × J =>
            match parseKey kv2.1 with
            | some (c, i) => subKeys P (P.length + 1) c i c kv2.2
            | none => [])).flatten :=
        (hperm.mem_iff).mp (List.mem_map_of_mem Prod.fst hm)
      have hmm := List.mem_map_of_mem (fun k => (k, (getAssoc P k).getD J.null)) hk1
      rw [show ((fun k => (k, (getAssoc P k).getD J.null)) kv.1) = kv from by
        show (kv.1, (getAssoc P kv.1).getD J.null) = kv
        rw [hga]
        rfl] at hmm
      exact hmm

/-- Witness: the two-entry actor pack of scenario A is a valid pack, and the
extract-then-compile round-trip theorem applies to it. -/
theorem c1_roundtrip_witness :
    validPack c1P = true ∧
    (∃ files S,
      extractClassicLevelFiles (c1P.length + 1) c1P = .ok files ∧
      compileClassicLevel (c1P.length + 1) [] (files.map Prod.snd) = .ok S ∧
      ∀ kv : Str × J, kv ∈ S ↔ kv ∈ c1P) :=
  ⟨by decide, c1_roundtrip c1P (by decide)⟩

end Fvtt
